import Mathlib

/-!
Verification development for the godb repository: a shallow embedding of the
copy-on-write B+-tree (`internal/storage/index/btree/btree.go`), its in-memory
page container (`NewC` in the same file), the paged free list and the KV commit
manager (`internal/storage/index/btree/kv.go`), together with proofs and
refutations of the specified properties.

Conventions of the embedding:
* Go byte slices become `List Nat` (one `Nat` per byte).
* A B-tree node (`type BN []byte`) is represented by its decoded content: a
  node type tag and the list of (child pointer, key, value) triples.  The
  on-disk quantities (`nbytes`, `leafSizeFor` ...) are computed from the layout
  formulas of the source (`HEADER + 8*nkeys + 2*nkeys + payload`).  All sizes
  stay far below 2^16 on the domains considered, so `Nat` agrees with the
  source's `uint16` arithmetic.
* Go `assert(cond)` (which panics) and out-of-range page reads become `none` in
  an `Option`-valued result.
* Out-of-range reads of `getKey`/`getVal` that stay inside a zeroed scratch
  buffer in Go (reading `klen = vlen = 0`, i.e. empty key and value) are
  modelled by a default entry with pointer 0, empty key and empty value.
* The page store callbacks `tree.get / tree.new / tree.del` follow the
  in-memory container `NewC` of btree.go: `get` looks the page up (assert on a
  miss), `new` asserts `nbytes ≤ BT_PAGE_SIZE` and stores the node under a
  fresh page number, `del` asserts presence and removes the page.  Fresh page
  numbers come from a monotone counter and released page numbers are recorded,
  mirroring the `pages` map and the `del` callback wiring.
-/

/-- `bytes.Compare` on byte slices: lexicographic comparison. -/
def bytesCompare : List Nat → List Nat → Ordering
  | [], [] => .eq
  | [], _ :: _ => .lt
  | _ :: _, [] => .gt
  | a :: as, b :: bs =>
    if a < b then .lt else if b < a then .gt else bytesCompare as bs

/-- Strict lexicographic byte order (`bytes.Compare == -1`). -/
def bLt (a b : List Nat) : Prop := bytesCompare a b = .lt

/-- Non-strict lexicographic byte order (`bytes.Compare <= 0`). -/
def bLe (a b : List Nat) : Prop := bytesCompare a b ≠ .gt

instance : DecidableEq Ordering := fun a b => by
  cases a <;> cases b <;> first | exact isTrue rfl | exact isFalse (by simp)

instance (a b : List Nat) : Decidable (bLt a b) := by unfold bLt; infer_instance

instance (a b : List Nat) : Decidable (bLe a b) := by unfold bLe; infer_instance

/-! ### The B-tree node model (btree.go) -/

/-- `HEADER` (btree.go). -/
def HEADER : Nat := 4

/-- `BT_PAGE_SIZE` (btree.go). -/
def BT_PAGE_SIZE : Nat := 4096

/-- `BT_MAX_KEY_SIZE` (btree.go). -/
def BT_MAX_KEY_SIZE : Nat := 1000

/-- `BT_MAX_VAL_SIZE` (btree.go). -/
def BT_MAX_VAL_SIZE : Nat := 3000

/-- `BN_NODE` (btree.go): tag of internal nodes. -/
def BN_NODE : Nat := 1

/-- `BN_LEAF` (btree.go): tag of leaf nodes. -/
def BN_LEAF : Nat := 2

/-- One decoded entry of a node: child pointer (`child_ptrs[i]`, 0 for leaves),
key and value bytes of the i-th kv pair. -/
structure Entry where
  ptr : Nat
  key : List Nat
  val : List Nat
  deriving DecidableEq, Repr

/-- The default entry: what Go reads from a zeroed scratch buffer
(`klen = vlen = 0`, pointer 0). -/
def defEntry : Entry := ⟨0, [], []⟩

/-- A decoded B-tree node (`type BN []byte`): the header's type tag plus the
decoded entries; `nkeys` is `entries.length`. -/
structure BNode where
  btype : Nat
  entries : List Entry
  deriving DecidableEq, Repr

/-- `node.getKey(idx)` (with the zeroed-buffer default for reads past
`nkeys`, which Go serves from the zero bytes of the scratch page). -/
def getKeyD (n : BNode) (idx : Nat) : List Nat := (n.entries.getD idx defEntry).key

/-- `node.getVal(idx)` (same convention as `getKeyD`). -/
def getValD (n : BNode) (idx : Nat) : List Nat := (n.entries.getD idx defEntry).val

/-- `node.getPtr(idx)`: asserts `idx < node.nkeys()`. -/
def getPtr (n : BNode) (idx : Nat) : Option Nat :=
  if idx < n.entries.length then some (n.entries.getD idx defEntry).ptr else none

/-- Byte size of one kv pair inside the payload area:
`| klen (2B) | vlen (2B) | key | val |`. -/
def kvBytes (e : Entry) : Nat := 4 + e.key.length + e.val.length

/-- Total payload bytes of a list of entries. -/
def payloadBytes (es : List Entry) : Nat := (es.map kvBytes).sum

/-- `node.nbytes()`: `HEADER + 8*nkeys + 2*nkeys + kv_offsets[nkeys]`. -/
def nbytes (n : BNode) : Nat :=
  HEADER + 10 * n.entries.length + payloadBytes n.entries

/-- The scan of `nodeLookupLE` over the entries with index ≥ 1:
`found` is updated whenever `cmp <= 0`, the loop breaks whenever `cmp >= 0`. -/
def lookupAux (key : List Nat) : List Entry → Nat → Nat → Nat
  | [], _, found => found
  | e :: es, i, found =>
    match bytesCompare e.key key with
    | .lt => lookupAux key es (i + 1) i
    | .eq => i
    | .gt => found

/-- `nodeLookupLE(node, key)` (btree.go): linear scan starting at index 1. -/
def nodeLookupLE (node : BNode) (key : List Nat) : Nat :=
  lookupAux key (node.entries.drop 1) 1 0

/-- `leafInsert(new, old, idx, key, val)`: new leaf with the kv inserted at `idx`. -/
def leafInsert (old : BNode) (idx : Nat) (key val : List Nat) : BNode :=
  ⟨BN_LEAF, old.entries.take idx ++ ⟨0, key, val⟩ :: old.entries.drop idx⟩

/-- `leafUpdate(new, old, idx, key, val)`: new leaf with the kv at `idx` replaced. -/
def leafUpdate (old : BNode) (idx : Nat) (key val : List Nat) : BNode :=
  ⟨BN_LEAF, old.entries.take idx ++ ⟨0, key, val⟩ :: old.entries.drop (idx + 1)⟩

/-- `leafDelete(new, old, idx)`: asserts `idx < old.nkeys()`; removes entry `idx`. -/
def leafDelete (old : BNode) (idx : Nat) : Option BNode :=
  if idx < old.entries.length then
    some ⟨BN_LEAF, old.entries.take idx ++ old.entries.drop (idx + 1)⟩
  else none

/-- `nodeMerge(new, left, right)`: asserts equal types; concatenates entries. -/
def nodeMerge (left right : BNode) : Option BNode :=
  if left.btype = right.btype then
    some ⟨left.btype, left.entries ++ right.entries⟩
  else none

/-- `nodeReplace2Kid(new, old, idx, ptr, key)`: replace entries `idx, idx+1`
by the single entry `(ptr, key, nil)`; result is an internal node. -/
def nodeReplace2Kid (old : BNode) (idx ptr : Nat) (key : List Nat) : BNode :=
  ⟨BN_NODE, old.entries.take idx ++ ⟨ptr, key, []⟩ :: old.entries.drop (idx + 2)⟩

/-- `leafSizeFor(old, from, count)` (btree.go): asserts `old.btype() == BN_LEAF`;
computes `HEADER + 2*(count+1) + payload bytes of entries [from, from+count)`.
Note the formula does NOT include the `8*count` bytes of the pointer array. -/
def leafSizeFor (old : BNode) (src cnt : Nat) : Option Nat :=
  if old.btype = BN_LEAF then
    some (HEADER + 2 * (cnt + 1) + payloadBytes ((old.entries.drop src).take cnt))
  else none

/-- The loop body of `nodeSplit2`: scan candidate split indices, keeping the
index minimizing the larger computed half among those whose computed halves
both fit in `BT_PAGE_SIZE`.  `acc = (bestIdx, bestMax)`, initially `(0, 2^16-1)`. -/
def split2Scan (old : BNode) : List Nat → Nat × Nat → Nat × Nat
  | [], acc => acc
  | i :: is, (bIdx, bMax) =>
    let n := old.entries.length
    let ls := HEADER + 2 * (i + 1) + payloadBytes (old.entries.take i)
    let rs := HEADER + 2 * (n - i + 1) + payloadBytes (old.entries.drop i)
    if ls > BT_PAGE_SIZE ∨ rs > BT_PAGE_SIZE then split2Scan old is (bIdx, bMax)
    else if max ls rs < bMax then split2Scan old is (i, max ls rs)
    else split2Scan old is (bIdx, bMax)

/-- `nodeSplit2(left, right, old)` (btree.go): both halves are sized with
`leafSizeFor`, which asserts a leaf node; then `assert(bestIdx > 0)`. -/
def nodeSplit2 (old : BNode) : Option (BNode × BNode) :=
  if old.btype = BN_LEAF then
    let n := old.entries.length
    let best := (split2Scan old (List.range' 1 (n - 1)) (0, 65535)).1
    if best = 0 then none
    else some (⟨old.btype, old.entries.take best⟩, ⟨old.btype, old.entries.drop best⟩)
  else if old.entries.length ≤ 1 then
    -- the sizing loop body never runs, so `leafSizeFor`'s assert is not
    -- reached; `assert(bestIdx > 0)` then fails.
    none
  else none

/-- `nodeSplit3(old)` (btree.go). -/
def nodeSplit3 (old : BNode) : Option (List BNode) :=
  if nbytes old ≤ BT_PAGE_SIZE then some [old]
  else do
    let (left, right) ← nodeSplit2 old
    if nbytes left ≤ BT_PAGE_SIZE then some [left, right]
    else do
      let (ll, mid) ← nodeSplit2 left
      if nbytes ll ≤ BT_PAGE_SIZE then some [ll, mid, right] else none

/-! ### The page store (the in-memory container `NewC` of btree.go) -/

/-- Lookup in an association list of pages (the container's `pages` map). -/
def lookupP : List (Nat × BNode) → Nat → Option BNode
  | [], _ => none
  | kv :: rest, p => if kv.1 = p then some kv.2 else lookupP rest p

/-- Removal from an association list of pages (`delete(pages, ptr)`). -/
def removeP : List (Nat × BNode) → Nat → List (Nat × BNode)
  | [], _ => []
  | kv :: rest, p => if kv.1 = p then removeP rest p else kv :: removeP rest p

/-- The page-store state seen by the tree: the `pages` map of the container
`C`, a monotone counter supplying fresh page numbers (the container uses the
buffer address, which is fresh for every allocation), and the list of page
numbers released through `del`, in order. -/
structure Store where
  pages : List (Nat × BNode)
  next : Nat
  freed : List Nat
  deriving DecidableEq, Repr

/-- `tree.get`: asserts the page is present. -/
def stGet (st : Store) (p : Nat) : Option BNode := lookupP st.pages p

/-- `tree.new`: asserts `node.nbytes() <= BT_PAGE_SIZE`, stores the node under
a fresh page number and returns that number. -/
def stNew (st : Store) (nd : BNode) : Option (Store × Nat) :=
  if nbytes nd ≤ BT_PAGE_SIZE then
    some ({ pages := (st.next, nd) :: st.pages, next := st.next + 1, freed := st.freed },
      st.next)
  else none

/-- `tree.del`: asserts the page is present and removes it, recording the
released page number. -/
def stDel (st : Store) (p : Nat) : Option Store :=
  match stGet st p with
  | some _ => some { pages := removeP st.pages p, next := st.next, freed := st.freed ++ [p] }
  | none => none

/-- Allocate a list of nodes in order (`tree.new(node)` for each), returning
the new store and the (page number, node) pairs. -/
def allocKids (st : Store) : List BNode → Option (Store × List (Nat × BNode))
  | [] => some (st, [])
  | k :: ks => do
    let (st1, p) ← stNew st k
    let (st2, rest) ← allocKids st1 ks
    pure (st2, (p, k) :: rest)

/-- `nodeReplaceKidN(tree, new, old, idx, kids...)` (btree.go): allocate each
kid, then build the internal node whose entry `idx` is replaced by one entry
`(tree.new(kid), kid.getKey(0), nil)` per kid. -/
def nodeReplaceKidN (st : Store) (old : BNode) (idx : Nat) (kids : List BNode) :
    Option (Store × BNode) := do
  let (st1, pks) ← allocKids st kids
  pure (st1,
    ⟨BN_NODE, old.entries.take idx
      ++ pks.map (fun pk => Entry.mk pk.1 (getKeyD pk.2 0) [])
      ++ old.entries.drop (idx + 1)⟩)

/-! ### Tree operations (btree.go) -/

/-- `treeGet(tree, node, key)` (btree.go), with explicit recursion fuel
(`none` = assertion failure, missing page, bad node type, or out of fuel). -/
def treeGet : Nat → Store → BNode → List Nat → Option (List Nat × Bool)
  | 0, _, _, _ => none
  | f + 1, st, node, key =>
    let idx := nodeLookupLE node key
    if node.btype = BN_LEAF then
      if getKeyD node idx = key then some (getValD node idx, true)
      else some ([], false)
    else if node.btype = BN_NODE then do
      let p ← getPtr node idx
      let cn ← stGet st p
      treeGet f st cn key
    else none

/-- `(tree *BT) Get(key)` (btree.go). -/
def btGet (f : Nat) (st : Store) (root : Nat) (key : List Nat) :
    Option (List Nat × Bool) :=
  if root = 0 then some ([], false)
  else do
    let rn ← stGet st root
    treeGet f st rn key

/-- `treeInsert(tree, node, key, val)` (btree.go).  The `BN_NODE` branch is
`nodeInsert(tree, new, node, idx, key, val)` inlined, so that the recursion is
structural in the fuel. -/
def treeInsert : Nat → Store → BNode → List Nat → List Nat → Option (Store × BNode)
  | 0, _, _, _, _ => none
  | f + 1, st, node, key, val =>
    let idx := nodeLookupLE node key
    if node.btype = BN_LEAF then
      if getKeyD node idx = key then some (st, leafUpdate node idx key val)
      else some (st, leafInsert node (idx + 1) key val)
    else if node.btype = BN_NODE then do
      -- nodeInsert: recurse into child `idx`, split, release the old child,
      -- splice the pieces in its place.
      let kptr ← getPtr node idx
      let kn ← stGet st kptr
      let (st1, scratch) ← treeInsert f st kn key val
      let pieces ← nodeSplit3 scratch
      let st2 ← stDel st1 kptr
      nodeReplaceKidN st2 node idx pieces
    else none

/-- `(tree *BT) Insert(key, val)` (btree.go). -/
def btInsert (f : Nat) (st : Store) (root : Nat) (key val : List Nat) :
    Option (Store × Nat) :=
  if root = 0 then do
    -- first root: a leaf with the zero-length sentinel at index 0
    let (st1, p) ← stNew st ⟨BN_LEAF, [defEntry, ⟨0, key, val⟩]⟩
    pure (st1, p)
  else do
    let rn ← stGet st root
    let (st1, scratch) ← treeInsert f st rn key val
    let pieces ← nodeSplit3 scratch
    let st2 ← stDel st1 root
    if 1 < pieces.length then do
      -- add a new level above the split pieces
      let (st3, pks) ← allocKids st2 pieces
      let (st4, rp) ← stNew st3 ⟨BN_NODE, pks.map (fun pk => Entry.mk pk.1 (getKeyD pk.2 0) [])⟩
      pure (st4, rp)
    else do
      let (st3, rp) ← stNew st2 (pieces.headD ⟨BN_LEAF, []⟩)
      pure (st3, rp)

/-- Result of `shouldMerge` (btree.go): merge with the left sibling, the right
sibling, or not at all; the sibling node read through `tree.get` is carried. -/
inductive MergeDir where
  | left (sib : BNode)
  | right (sib : BNode)
  | no
  deriving DecidableEq, Repr

/-- The right-sibling half of `shouldMerge` (btree.go). -/
def shouldMergeRight (st : Store) (node : BNode) (idx : Nat) (updated : BNode) :
    Option MergeDir :=
  if idx + 1 < node.entries.length then do
    let p ← getPtr node (idx + 1)
    let sib ← stGet st p
    if nbytes sib + nbytes updated - HEADER ≤ BT_PAGE_SIZE then pure (.right sib)
    else pure .no
  else pure .no

/-- `shouldMerge(tree, node, idx, updated)` (btree.go). -/
def shouldMerge (st : Store) (node : BNode) (idx : Nat) (updated : BNode) :
    Option MergeDir :=
  if BT_PAGE_SIZE / 4 < nbytes updated then pure .no
  else if 0 < idx then do
    let p ← getPtr node (idx - 1)
    let sib ← stGet st p
    if nbytes sib + nbytes updated - HEADER ≤ BT_PAGE_SIZE then pure (.left sib)
    else shouldMergeRight st node idx updated
  else shouldMergeRight st node idx updated

/-- The separator rewrite performed by `nodeDelete` when `idx > 0`
(btree.go): the kv at `idx` is overwritten in place with
`(len(firstKey), 0, firstKey)`. -/
def patchSep (n : BNode) (idx : Nat) (firstKey : List Nat) : BNode :=
  ⟨n.btype, n.entries.set idx ⟨(n.entries.getD idx defEntry).ptr, firstKey, []⟩⟩

/-- `treeDelete(tree, node, key)` (btree.go); `some (st, none)` is the `nil` /
`BN{}` result (key absent, nothing rewritten).  The non-leaf branch is
`nodeDelete(tree, node, idx, key)` inlined, so that the recursion is
structural in the fuel. -/
def treeDelete : Nat → Store → BNode → List Nat → Option (Store × Option BNode)
  | 0, _, _, _ => none
  | f + 1, st, node, key =>
    if node.btype = BN_LEAF then
      let idx := nodeLookupLE node key
      if getKeyD node idx = key then (leafDelete node idx).map (fun nd => (st, some nd))
      else some (st, none)
    else
      -- nodeDelete: recurse into child `idx`; on a hit release the old child
      -- and merge with a sibling or splice the updated child back.
      let idx := nodeLookupLE node key
      do
        let kptr ← getPtr node idx
        let kn ← stGet st kptr
        let (st1, upd?) ← treeDelete f st kn key
        match upd? with
        | none => pure (st1, none)
        | some updated => do
          let st2 ← stDel st1 kptr
          let mdir ← shouldMerge st2 node idx updated
          match mdir with
          | .left sib => do
            let merged ← nodeMerge sib updated
            let lp ← getPtr node (idx - 1)
            let st3 ← stDel st2 lp
            let (st4, mp) ← stNew st3 merged
            pure (st4, some (nodeReplace2Kid node (idx - 1) mp (getKeyD merged 0)))
          | .right sib => do
            let merged ← nodeMerge updated sib
            let rp ← getPtr node (idx + 1)
            let st3 ← stDel st2 rp
            let (st4, mp) ← stNew st3 merged
            pure (st4, some (nodeReplace2Kid node idx mp (getKeyD merged 0)))
          | .no =>
            if updated.entries.length = 0 then
              -- assert(node.nkeys() == 1 && idx == 0); the child shrank to
              -- nothing: leave an internal node with zero keys
              if node.entries.length = 1 ∧ idx = 0 then pure (st2, some ⟨BN_NODE, []⟩)
              else none
            else do
              let (st3, nn) ← nodeReplaceKidN st2 node idx [updated]
              if 0 < idx then pure (st3, some (patchSep nn idx (getKeyD updated 0)))
              else pure (st3, some nn)

/-- `(tree *BT) Delete(key)` (btree.go), returning the updated store, the new
root page number, and the `bool` result. -/
def btDelete (f : Nat) (st : Store) (root : Nat) (key : List Nat) :
    Option (Store × Nat × Bool) :=
  if root = 0 then some (st, root, false)
  else do
    let rn ← stGet st root
    let (st1, upd?) ← treeDelete f st rn key
    match upd? with
    | none => pure (st1, root, false)
    | some updated => do
      let st2 ← stDel st1 root
      if updated.entries.length = 0 ∧ updated.btype = BN_NODE then do
        -- promote the "single child": `updated.getPtr(0)` on a node with
        -- zero keys (its assert `idx < node.nkeys()` fails)
        let p ← getPtr updated 0
        pure (st2, p, true)
      else do
        let (st3, rp) ← stNew st2 updated
        pure (st3, rp, true)

/-! ### Reification of the page-level tree

Fuel-indexed functions that read a subtree out of the store: the flattened
key/value pairs (`entsN`), the set of page numbers below a node (`pagesN`),
and structural well-formedness (`wfN`).  All are `none`/`false` when a page is
missing, a node type is invalid, or the fuel runs out. -/

/-- Sequence an `Option`-valued reader over the child pointers of an entry
list, concatenating the results. -/
def seqKids {α : Type} (g : Nat → Option (List α)) : List Entry → Option (List α)
  | [] => some []
  | e :: es => do
    let l1 ← g e.ptr
    let l2 ← seqKids g es
    pure (l1 ++ l2)

/-- Flattened (key, value) pairs of the subtree rooted at a node value. -/
def entsN : Nat → Store → BNode → Option (List (List Nat × List Nat))
  | 0, _, _ => none
  | f + 1, st, nd =>
    if nd.btype = BN_LEAF then some (nd.entries.map fun e => (e.key, e.val))
    else if nd.btype = BN_NODE then
      seqKids (fun p => do
        let cn ← stGet st p
        entsN f st cn) nd.entries
    else none

/-- Page numbers of the subtree below a node value (the child pointers and
everything below them; the node's own page, if any, is not included). -/
def pagesN : Nat → Store → BNode → Option (List Nat)
  | 0, _, _ => none
  | f + 1, st, nd =>
    if nd.btype = BN_LEAF then some []
    else if nd.btype = BN_NODE then
      seqKids (fun p => do
        let cn ← stGet st p
        let ps ← pagesN f st cn
        pure (p :: ps)) nd.entries
    else none

/-- First key of the subtree behind page `p`. -/
def firstKeyN (f : Nat) (st : Store) (p : Nat) : Option (List Nat) := do
  let cn ← stGet st p
  let l ← entsN f st cn
  let e ← l.head?
  pure e.1

/-- Structural well-formedness of a subtree: every node is a nonempty leaf or
a nonempty internal node whose children exist, are well-formed, and whose
stored separator keys equal their child's first key. -/
def wfN : Nat → Store → BNode → Bool
  | 0, _, _ => false
  | f + 1, st, nd =>
    if nd.btype = BN_LEAF then decide (nd.entries ≠ [])
    else if nd.btype = BN_NODE then
      decide (nd.entries ≠ []) &&
      nd.entries.all (fun e =>
        match stGet st e.ptr with
        | some cn => wfN f st cn && decide (firstKeyN f st e.ptr = some e.key)
        | none => false)
    else false

/-- Keys of a flattened kv list. -/
def keysOf (l : List (List Nat × List Nat)) : List (List Nat) := l.map Prod.fst

/-- Every node of the subtree (the given node value included) has strictly
increasing keys — the per-node sortedness invariant of the specification. -/
def allNodesSortedN : Nat → Store → BNode → Bool
  | 0, _, _ => false
  | f + 1, st, nd =>
    decide (List.Chain' bLt (nd.entries.map Entry.key)) &&
    (if nd.btype = BN_NODE then
      nd.entries.all (fun e =>
        match stGet st e.ptr with
        | some cn => allNodesSortedN f st cn
        | none => false)
    else true)

/-- The global invariant of a tree handle `(store, root page number)`:
either the tree is empty, or the root page holds a well-formed subtree whose
flattened keys are strictly increasing and start with the zero-length
sentinel, and whose pages (root included) are distinct, nonzero and below the
allocation counter. -/
def WFtree (f : Nat) (st : Store) (root : Nat) : Prop :=
  0 < st.next ∧
  (root = 0 ∨
    ∃ rn l ps, stGet st root = some rn ∧ wfN f st rn = true ∧
      entsN f st rn = some l ∧ pagesN f st rn = some ps ∧
      List.Chain' bLt (keysOf l) ∧ (keysOf l).head? = some [] ∧
      (root :: ps).Nodup ∧ (∀ p ∈ root :: ps, 0 < p ∧ p < st.next))

/-! ### Abstract key-value maps

The functional specification layer: a tree state denotes the sorted
association list of its (key, value) pairs, and the operations denote
insertion, deletion and lookup on that list. -/

/-- Lookup in an association list, with the `(nil, false)` miss result of
`treeGet`. -/
def lookupKV : List (List Nat × List Nat) → List Nat → List Nat × Bool
  | [], _ => ([], false)
  | e :: es, k => if e.1 = k then (e.2, true) else lookupKV es k

/-- Ordered insert-or-replace into a sorted association list. -/
def kvIns : List (List Nat × List Nat) → List Nat → List Nat → List (List Nat × List Nat)
  | [], k, v => [(k, v)]
  | e :: es, k, v =>
    if bLt k e.1 then (k, v) :: e :: es
    else if e.1 = k then (k, v) :: es
    else e :: kvIns es k v

/-- Remove the first binding of a key from an association list. -/
def kvErase : List (List Nat × List Nat) → List Nat → List (List Nat × List Nat)
  | [], _ => []
  | e :: es, k => if e.1 = k then es else e :: kvErase es k

/-- One user operation of the store. -/
inductive DbOp where
  | ins (k v : List Nat)
  | del (k : List Nat)
  deriving DecidableEq, Repr

/-- The key of an operation. -/
def opKey : DbOp → List Nat
  | .ins k _ => k
  | .del k => k

/-- Key nonempty and key/value within the documented size bounds. -/
def opOK : DbOp → Prop
  | .ins k v => k ≠ [] ∧ k.length ≤ BT_MAX_KEY_SIZE ∧ v.length ≤ BT_MAX_VAL_SIZE
  | .del k => k ≠ []

instance (op : DbOp) : Decidable (opOK op) := by
  cases op <;> (unfold opOK; infer_instance)

/-- Run a sequence of `Insert`/`Delete` operations on a tree handle. -/
def runOps (F : Nat) : List DbOp → Store × Nat → Option (Store × Nat)
  | [], s => some s
  | op :: ops, s =>
    match op with
    | .ins k v => (btInsert F s.1 s.2 k v).bind (runOps F ops)
    | .del k => (btDelete F s.1 s.2 k).bind (fun r => runOps F ops (r.1, r.2.1))

/-! ### The free list (kv.go) -/

/-- `FREE_LIST_HEADER` (kv.go). -/
def FREE_LIST_HEADER : Nat := 8

/-- `FREE_LIST_CAP` (kv.go): `(BT_PAGE_SIZE - FREE_LIST_HEADER) / 8 = 511`. -/
def FREE_LIST_CAP : Nat := (BT_PAGE_SIZE - FREE_LIST_HEADER) / 8

/-- A decoded free-list page (`type LNode []byte`): `| next (8B) | ptrs |`. -/
structure LNode where
  next : Nat
  ptrs : List Nat
  deriving DecidableEq, Repr

/-- `seq2idx(seq)` (kv.go). -/
def seq2idx (seq : Nat) : Nat := seq % FREE_LIST_CAP

/-- Lookup in the free list's page map. -/
def lookupL : List (Nat × LNode) → Nat → Option LNode
  | [], _ => none
  | kv :: rest, p => if kv.1 = p then some kv.2 else lookupL rest p

/-- Store back an updated free-list page. -/
def updateL : List (Nat × LNode) → Nat → LNode → List (Nat × LNode)
  | [], _, _ => []
  | kv :: rest, p, nd => if kv.1 = p then (p, nd) :: updateL rest p nd
    else kv :: updateL rest p nd

/-- The free list state (`type FreeList struct` of kv.go) over its page map.
Modelled from the spec: the page-store hooks `fl.get` / `fl.set` / `fl.new`
are wired to `pageRead` / `pageWrite` / `pageAppend`, where `pageWrite` is
declared in kv.go without a body; per the specification it returns a writable
view of the page, modelled here as an in-place update of the page map, and
`fl.new` appends a fresh zeroed page under a monotone page number. -/
structure FLState where
  pages : List (Nat × LNode)
  headPage : Nat
  headSeq : Nat
  tailPage : Nat
  tailSeq : Nat
  maxSeq : Nat
  nextNew : Nat
  deriving DecidableEq, Repr

/-- `fl.get(p)`. -/
def flGet (fl : FLState) (p : Nat) : Option LNode := lookupL fl.pages p

/-- `LNode(fl.set(p)).setPtr(idx, v)`. -/
def flSetPtr (fl : FLState) (p idx v : Nat) : Option FLState :=
  match lookupL fl.pages p with
  | some nd => some { fl with pages := updateL fl.pages p { nd with ptrs := nd.ptrs.set idx v } }
  | none => none

/-- `LNode(fl.set(p)).setNext(v)`. -/
def flSetNext (fl : FLState) (p v : Nat) : Option FLState :=
  match lookupL fl.pages p with
  | some nd => some { fl with pages := updateL fl.pages p { nd with next := v } }
  | none => none

/-- `fl.new(make([]byte, BT_PAGE_SIZE))`: append a zeroed page. -/
def flNew (fl : FLState) : Nat × FLState :=
  (fl.nextNew,
    { fl with
      pages := (fl.nextNew, ⟨0, List.replicate FREE_LIST_CAP 0⟩) :: fl.pages
      nextNew := fl.nextNew + 1 })

/-- `flPop(fl)` (kv.go).  Returns `(ptr, head, new state)`.  Note the source
ends with `return ptr, fl.headPage`: the second return value is the *current*
`fl.headPage` (after any advance), not the named `head` variable holding the
exhausted page. -/
def flPop (fl : FLState) : Option (Nat × Nat × FLState) :=
  if fl.headSeq = fl.maxSeq then some (0, 0, fl)
  else do
    let node ← flGet fl fl.headPage
    let ptr := node.ptrs.getD (seq2idx fl.headSeq) 0
    let fl1 := { fl with headSeq := fl.headSeq + 1 }
    if seq2idx fl1.headSeq = 0 then
      let fl2 := { fl1 with headPage := node.next }
      if fl2.headPage = 0 then none
      else pure (ptr, fl2.headPage, fl2)
    else pure (ptr, fl1.headPage, fl1)

/-- `(fl *FreeList) PushTail(ptr)` (kv.go). -/
def flPushTail (fl : FLState) (ptr : Nat) : Option FLState := do
  let fl1 ← flSetPtr fl fl.tailPage (seq2idx fl.tailSeq) ptr
  let fl2 := { fl1 with tailSeq := fl1.tailSeq + 1 }
  if seq2idx fl2.tailSeq = 0 then do
    let (nxt, head, fl3) ← flPop fl2
    let (nxt2, fl4) := if nxt = 0 then flNew fl3 else (nxt, fl3)
    let fl5 ← flSetNext fl4 fl4.tailPage nxt2
    let fl6 := { fl5 with tailPage := nxt2 }
    if head ≠ 0 then do
      let fl7 ← flSetPtr fl6 fl6.tailPage 0 head
      pure { fl7 with tailSeq := fl7.tailSeq + 1 }
    else pure fl6
  else pure fl2

/-- `(fl *FreeList) PopHead()` (kv.go). -/
def flPopHead (fl : FLState) : Option (Nat × FLState) := do
  let (ptr, head, fl1) ← flPop fl
  if head ≠ 0 then do
    let fl2 ← flPushTail fl1 head
    pure (ptr, fl2)
  else pure (ptr, fl1)

/-! ### The KV commit layer (kv.go) -/

/-- `DB_SIG` (kv.go): the 16 ASCII bytes of `"mydb000000000000"`. -/
def DB_SIG : List Nat := [109, 121, 100, 98, 48, 48, 48, 48, 48, 48, 48, 48, 48, 48, 48, 48]

/-- `binary.LittleEndian.PutUint64`: 8 little-endian bytes of `n`. -/
def le64 (n : Nat) : List Nat := (List.range 8).map (fun i => n / 256 ^ i % 256)

/-- `binary.LittleEndian.Uint64`: read 8 little-endian bytes. -/
def leRead64 (bs : List Nat) : Nat :=
  ((bs.take 8).reverse).foldl (fun acc b => acc * 256 + b) 0

/-- The in-memory `KV` state relevant to the commit protocol: the page store
seen by the tree, the root page number, the durably flushed page count, the
number of staged pages (`len(db.page.temp)`), and the sticky `failed` flag.
Modelled from the spec where kv.go declares `pageAlloc` without a body: each
`tree.new` stages one page, so the staging count grows by the number of
allocations an operation performs. -/
structure KVS where
  store : Store
  root : Nat
  flushed : Nat
  tempLen : Nat
  failed : Bool
  deriving DecidableEq, Repr

/-- `saveMeta(db)` (kv.go): `| 16B signature | 8B root | 8B flushed |`. -/
def saveMeta (kv : KVS) : List Nat := DB_SIG ++ le64 kv.root ++ le64 kv.flushed

/-- `loadMeta(db, data)` (kv.go).  The source asserts
`!bytes.Equal(data[:16], DB_SIG)`, i.e. it panics exactly when the stored
signature MATCHES `DB_SIG`, and accepts any non-matching prefix. -/
def loadMeta (kv : KVS) (data : List Nat) : Option KVS :=
  if data.length < 32 then none
  else if data.take 16 = DB_SIG then none
  else some { kv with root := leRead64 (data.drop 16), flushed := leRead64 (data.drop 24) }

/-- Outcomes of the I/O system calls during one commit: `true` = success. -/
structure IOev where
  wpages : Bool
  fsyncData : Bool
  wroot : Bool
  fsyncMeta : Bool
  rewriteMeta : Bool
  rewriteFsync : Bool
  deriving DecidableEq, Repr

/-- `writePages(db)` (kv.go): extend the mmap and `Pwritev` the staged pages;
on success advance `flushed` and clear the staging list. -/
def writePages (kv : KVS) (io : IOev) : KVS × Bool :=
  if io.wpages then
    ({ kv with flushed := kv.flushed + kv.tempLen, tempLen := 0 }, true)
  else (kv, false)

/-- `updateFile(db)` (kv.go): write pages, fsync, write the meta page, fsync. -/
def updateFile (kv : KVS) (io : IOev) : KVS × Bool :=
  let (kv1, ok) := writePages kv io
  if ¬ ok then (kv1, false)
  else if ¬ io.fsyncData then (kv1, false)
  else if ¬ io.wroot then (kv1, false)
  else (kv1, io.fsyncMeta)

/-- `updateOrRevert(db, meta)` (kv.go).  On a failed `updateFile` the source
sets `db.failed`, calls `loadMeta(db, meta)` — whose inverted signature assert
panics on the valid meta produced by `saveMeta` — and clears the staging
list.  `none` models that panic. -/
def updateOrRevert (kv : KVS) (meta : List Nat) (io : IOev) : Option (KVS × Bool) :=
  let step := fun (kv' : KVS) =>
    let (kv2, ok) := updateFile kv' io
    if ok then some (kv2, true)
    else match loadMeta { kv2 with failed := true } meta with
      | none => none
      | some kv3 => some ({ kv3 with tempLen := 0 }, false)
  if kv.failed then
    if ¬ io.rewriteMeta then some (kv, false)
    else if ¬ io.rewriteFsync then some (kv, false)
    else step { kv with failed := false }
  else step kv

/-- `(db *KV) Set(key, val)` (kv.go): snapshot the meta, run the tree insert,
then `updateOrRevert`. -/
def kvSet (f : Nat) (kv : KVS) (io : IOev) (key val : List Nat) : Option (KVS × Bool) := do
  let meta := saveMeta kv
  let (st', root') ← btInsert f kv.store kv.root key val
  updateOrRevert
    { kv with
      store := st'
      root := root'
      tempLen := kv.tempLen + (st'.next - kv.store.next) } meta io

/-- `(db *KV) Del(key)` (kv.go): run the tree delete, then `updateFile` —
note: no meta snapshot, no `updateOrRevert`, so no revert and no `failed`
flag on error. -/
def kvDel (f : Nat) (kv : KVS) (io : IOev) (key : List Nat) :
    Option (KVS × Bool × Bool) := do
  let (st', root', deleted) ← btDelete f kv.store kv.root key
  let (kv2, ok) := updateFile
    { kv with
      store := st'
      root := root'
      tempLen := kv.tempLen + (st'.next - kv.store.next) } io
  pure (kv2, deleted, ok)

/-! ### Order lemmas for `bytesCompare` -/

theorem bytesCompare_refl (a : List Nat) : bytesCompare a a = .eq := by
  induction a with
  | nil => rfl
  | cons x xs ih => simp [bytesCompare, ih]

theorem bytesCompare_eq_iff {a b : List Nat} : bytesCompare a b = .eq ↔ a = b := by
  constructor
  · intro h
    induction a generalizing b with
    | nil => cases b with
      | nil => rfl
      | cons y ys => simp [bytesCompare] at h
    | cons x xs ih =>
      cases b with
      | nil => simp [bytesCompare] at h
      | cons y ys =>
        by_cases hxy : x < y
        · simp [bytesCompare, hxy] at h
        · by_cases hyx : y < x
          · simp [bytesCompare, hxy, hyx] at h
          · have hxy' : x = y := Nat.le_antisymm (Nat.le_of_not_lt hyx) (Nat.le_of_not_lt hxy)
            simp [bytesCompare, hxy, hyx] at h
            simp [hxy', ih h]
  · rintro rfl; exact bytesCompare_refl a

theorem bytesCompare_swap (a b : List Nat) :
    bytesCompare b a = (bytesCompare a b).swap := by
  induction a generalizing b with
  | nil => cases b <;> rfl
  | cons x xs ih =>
    cases b with
    | nil => rfl
    | cons y ys =>
      by_cases hxy : x < y
      · have hyx : ¬ y < x := Nat.lt_asymm hxy
        simp [bytesCompare, hxy, hyx, Ordering.swap]
      · by_cases hyx : y < x
        · simp [bytesCompare, hxy, hyx, Ordering.swap]
        · simp [bytesCompare, hxy, hyx, ih ys]

theorem bLt_trans {a b c : List Nat} (h₁ : bLt a b) (h₂ : bLt b c) : bLt a c := by
  unfold bLt at *
  induction a generalizing b c with
  | nil =>
    cases c with
    | nil =>
      cases b with
      | nil => simp [bytesCompare] at h₁
      | cons y ys => simp [bytesCompare] at h₂
    | cons z zs => rfl
  | cons x xs ih =>
    cases b with
    | nil => simp [bytesCompare] at h₁
    | cons y ys =>
      cases c with
      | nil => simp [bytesCompare] at h₂
      | cons z zs =>
        by_cases hxy : x < y
        · by_cases hyz : y < z
          · have hxz : x < z := Nat.lt_trans hxy hyz
            simp [bytesCompare, hxz]
          · by_cases hzy : z < y
            · simp [bytesCompare, hyz, hzy] at h₂
            · have hyz' : y = z := Nat.le_antisymm (Nat.le_of_not_lt hzy) (Nat.le_of_not_lt hyz)
              subst hyz'
              simp [bytesCompare, hxy]
        · by_cases hyx : y < x
          · simp [bytesCompare, hxy, hyx] at h₁
          · have hxy' : x = y := Nat.le_antisymm (Nat.le_of_not_lt hyx) (Nat.le_of_not_lt hxy)
            subst hxy'
            simp [bytesCompare, hxy] at h₁
            by_cases hyz : x < z
            · simp [bytesCompare, hyz]
            · by_cases hzy : z < x
              · simp [bytesCompare, hyz, hzy] at h₂
              · have hyz' : x = z := Nat.le_antisymm (Nat.le_of_not_lt hzy) (Nat.le_of_not_lt hyz)
                subst hyz'
                simp [bytesCompare, hyz] at h₂ ⊢
                exact ih h₁ h₂

theorem bLt_irrefl (a : List Nat) : ¬ bLt a a := by
  unfold bLt; simp [bytesCompare_refl]

theorem bLt_asymm {a b : List Nat} (h : bLt a b) : ¬ bLt b a := by
  intro h'
  exact bLt_irrefl a (bLt_trans h h')

theorem bLt_ne {a b : List Nat} (h : bLt a b) : a ≠ b := by
  rintro rfl; exact bLt_irrefl a h

theorem bLe_of_bLt {a b : List Nat} (h : bLt a b) : bLe a b := by
  unfold bLt at h; unfold bLe; simp [h]

theorem bLe_refl (a : List Nat) : bLe a a := by
  unfold bLe; simp [bytesCompare_refl]

theorem bLt_or_eq_of_bLe {a b : List Nat} (h : bLe a b) : bLt a b ∨ a = b := by
  unfold bLe at h
  unfold bLt
  rcases hc : bytesCompare a b with _ | _ | _
  · exact Or.inl rfl
  · exact Or.inr (bytesCompare_eq_iff.mp hc)
  · exact absurd hc h

theorem bLt_of_bLe_of_ne {a b : List Nat} (h : bLe a b) (hne : a ≠ b) : bLt a b := by
  rcases bLt_or_eq_of_bLe h with h' | h'
  · exact h'
  · exact absurd h' hne

theorem bLe_trans {a b c : List Nat} (h₁ : bLe a b) (h₂ : bLe b c) : bLe a c := by
  rcases bLt_or_eq_of_bLe h₁ with h₁' | rfl
  · rcases bLt_or_eq_of_bLe h₂ with h₂' | rfl
    · exact bLe_of_bLt (bLt_trans h₁' h₂')
    · exact bLe_of_bLt h₁'
  · exact h₂

theorem bLt_of_bLe_of_bLt {a b c : List Nat} (h₁ : bLe a b) (h₂ : bLt b c) : bLt a c := by
  rcases bLt_or_eq_of_bLe h₁ with h₁' | rfl
  · exact bLt_trans h₁' h₂
  · exact h₂

theorem bLt_of_bLt_of_bLe {a b c : List Nat} (h₁ : bLt a b) (h₂ : bLe b c) : bLt a c := by
  rcases bLt_or_eq_of_bLe h₂ with h₂' | rfl
  · exact bLt_trans h₁ h₂'
  · exact h₁

theorem not_bLt_iff_bLe {a b : List Nat} : ¬ bLt a b ↔ bLe b a := by
  unfold bLt bLe
  rw [bytesCompare_swap a b]
  cases bytesCompare a b <;> simp [Ordering.swap]

theorem bLe_nil (a : List Nat) : bLe [] a := by
  unfold bLe; cases a <;> simp [bytesCompare]

theorem bLt_nil_of_ne {a : List Nat} (h : a ≠ []) : bLt [] a := by
  cases a with
  | nil => exact absurd rfl h
  | cons x xs => unfold bLt; rfl

/-! ### Store evolution lemmas and first claim theorems -/

theorem stNew_evo {st : Store} {nd : BNode} {st' : Store} {p : Nat}
    (h : stNew st nd = some (st', p)) :
    st'.next = st.next + 1 ∧ p = st.next ∧ st'.freed = st.freed := by
  unfold stNew at h
  split at h
  · cases h; exact ⟨rfl, rfl, rfl⟩
  · cases h

theorem stDel_evo {st : Store} {p : Nat} {st' : Store}
    (h : stDel st p = some st') :
    st'.next = st.next ∧ st'.freed = st.freed ++ [p] := by
  unfold stDel at h
  split at h
  · cases h; exact ⟨rfl, rfl⟩
  · cases h

theorem allocKids_evo : ∀ {ks : List BNode} {st st' : Store} {pks : List (Nat × BNode)},
    allocKids st ks = some (st', pks) →
    st.next ≤ st'.next ∧ st'.freed = st.freed := by
  intro ks
  induction ks with
  | nil => intro st st' pks h; cases h; exact ⟨Nat.le_refl _, rfl⟩
  | cons k ks ih =>
    intro st st' pks h
    unfold allocKids at h
    simp only [bind, Option.bind_eq_some, Option.pure_def, Option.some.injEq] at h
    obtain ⟨⟨st1, p⟩, h1, ⟨st2, rest⟩, h2, h3⟩ := h
    cases h3
    dsimp only
    dsimp only at h1 h2
    obtain ⟨hn1, _, hf1⟩ := stNew_evo h1
    obtain ⟨hn2, hf2⟩ := ih h2
    exact ⟨by omega, by rw [hf2, hf1]⟩

theorem nodeReplaceKidN_evo {st : Store} {old : BNode} {idx : Nat} {kids : List BNode}
    {st' : Store} {nn : BNode} (h : nodeReplaceKidN st old idx kids = some (st', nn)) :
    st.next ≤ st'.next ∧ st'.freed = st.freed := by
  unfold nodeReplaceKidN at h
  simp only [bind, Option.bind_eq_some, Option.pure_def, Option.some.injEq] at h
  obtain ⟨⟨st1, pks⟩, h1, h2⟩ := h
  cases h2
  exact allocKids_evo h1

theorem treeInsert_evo : ∀ (f : Nat) {st : Store} {nd : BNode} {k v : List Nat}
    {st' : Store} {sc : BNode}, treeInsert f st nd k v = some (st', sc) →
    st.next ≤ st'.next ∧ ∃ l, st'.freed = st.freed ++ l := by
  intro f
  induction f with
  | zero => intro st nd k v st' sc h; simp [treeInsert] at h
  | succ f ih =>
    intro st nd k v st' sc h
    unfold treeInsert at h
    by_cases hl : nd.btype = BN_LEAF
    · rw [if_pos hl] at h
      split at h <;> (cases h; exact ⟨Nat.le_refl _, [], by simp⟩)
    · rw [if_neg hl] at h
      by_cases hn : nd.btype = BN_NODE
      · rw [if_pos hn] at h
        simp only [bind, Option.bind_eq_some, Option.pure_def, Option.some.injEq] at h
        obtain ⟨kptr, hk, kn, hkn, ⟨st1, scr⟩, hrec, pieces, hp, st2, hd, hrepl⟩ := h
        dsimp only at hrec hp hd hrepl
        obtain ⟨hn1, l1, hf1⟩ := ih hrec
        obtain ⟨hn2, hf2⟩ := stDel_evo hd
        obtain ⟨hn3, hf3⟩ := nodeReplaceKidN_evo hrepl
        refine ⟨by omega, l1 ++ [kptr], ?_⟩
        rw [hf3, hf2, hf1, List.append_assoc]
      · rw [if_neg hn] at h; cases h

theorem c9_aux {F : Nat} {st : Store} {root : Nat} {k v : List Nat}
    {st' : Store} {root' : Nat} (h0 : root ≠ 0)
    (h : btInsert F st root k v = some (st', root')) :
    root ∈ st'.freed ∧ st.next ≤ root' := by
  unfold btInsert at h
  rw [if_neg h0] at h
  simp only [bind, Option.bind_eq_some, Option.pure_def, Option.some.injEq] at h
  obtain ⟨rn, hrn, ⟨st1, scr⟩, hins, pieces, hp, st2, hdel, h⟩ := h
  dsimp only at hins hp hdel h
  obtain ⟨hn1, l1, hf1⟩ := treeInsert_evo F hins
  obtain ⟨hn2, hf2⟩ := stDel_evo hdel
  split at h
  · simp only [bind, Option.bind_eq_some, Option.pure_def, Option.some.injEq] at h
    obtain ⟨⟨st3, pks⟩, halloc, ⟨st4, rp⟩, hnew, heq⟩ := h
    dsimp only at halloc hnew heq
    cases heq
    obtain ⟨hn3, hf3⟩ := allocKids_evo halloc
    obtain ⟨hn4, hp4, hf4⟩ := stNew_evo hnew
    constructor
    · rw [hf4, hf3, hf2, hf1]; simp
    · omega
  · simp only [bind, Option.bind_eq_some, Option.pure_def, Option.some.injEq] at h
    obtain ⟨⟨st3, rp⟩, hnew, heq⟩ := h
    dsimp only at hnew heq
    cases heq
    obtain ⟨hn3, hp3, hf3⟩ := stNew_evo hnew
    constructor
    · rw [hf3, hf2, hf1]; simp
    · omega

/-- C9: every `Insert` on a non-empty tree (root page number nonzero and below
the allocation counter), including one that overwrites an existing key with an
identical value, releases the old root page through `tree.del` and assigns a
freshly allocated page number as the new root, so the root page number always
changes; there is no short-circuit for value-identical updates (the key and
value are arbitrary here, so in particular the overwrite case is covered). -/
theorem c9_insert_always_rewrites_root (F : Nat) (st : Store) (root : Nat)
    (k v : List Nat) (st' : Store) (root' : Nat)
    (h0 : root ≠ 0) (hlt : root < st.next)
    (h : btInsert F st root k v = some (st', root')) :
    root ∈ st'.freed ∧ st.next ≤ root' ∧ root' ≠ root := by
  obtain ⟨h1, h2⟩ := c9_aux h0 h
  exact ⟨h1, h2, by omega⟩

/-- Witness for C9: a concrete insert of key `"b"` into a one-key tree. -/
theorem c9_w :
    1 ∈ (Store.mk [(2, ⟨BN_LEAF, [⟨0, [], []⟩, ⟨0, [97], [49]⟩, ⟨0, [98], [50]⟩]⟩)] 3 [1]).freed ∧
    (Store.mk [(1, ⟨BN_LEAF, [⟨0, [], []⟩, ⟨0, [97], [49]⟩]⟩)] 2 []).next ≤ 2 ∧ 2 ≠ 1 :=
  c9_insert_always_rewrites_root 2 ⟨[(1, ⟨BN_LEAF, [⟨0, [], []⟩, ⟨0, [97], [49]⟩]⟩)], 2, []⟩ 1
    [98] [50] ⟨[(2, ⟨BN_LEAF, [⟨0, [], []⟩, ⟨0, [97], [49]⟩, ⟨0, [98], [50]⟩]⟩)], 3, [1]⟩ 2
    (by decide) (by decide) (by decide)

/-- C10: on an empty tree (root page number 0), `Get` returns `(nil, false)`
and `Delete` returns `false` for every key, and neither invokes any
page-store callback: the returned store is exactly the input store (same
pages, same allocation counter, same released-page log). -/
theorem c10_empty_tree (f : Nat) (st : Store) (k : List Nat) :
    btGet f st 0 k = some ([], false) ∧ btDelete f st 0 k = some (st, 0, false) :=
  ⟨rfl, rfl⟩

set_option maxRecDepth 40000 in
/-- C3 (refuting evaluation): `nodeSplit3` on an internal node of 274
one-byte-key entries (byte size 4114, within 2 x PAGE_SIZE) returns `none` —
in the source, `leafSizeFor` asserts `old.btype() == BN_LEAF`, so splitting
any internal node panics instead of producing 1-3 fitting pages.  Moreover the
size computation is wrong even for leaves: a 3-entry leaf is sized 30 bytes by
`leafSizeFor` while its `nbytes()` is 52 — the 8-bytes-per-entry pointer array
is not accounted for. -/
theorem c3_split_internal_fails :
    nbytes (⟨BN_NODE, List.replicate 274 ⟨5, [97], []⟩⟩ : BNode) = 4114 ∧
    nodeSplit3 ⟨BN_NODE, List.replicate 274 ⟨5, [97], []⟩⟩ = none ∧
    leafSizeFor ⟨BN_NODE, List.replicate 274 ⟨5, [97], []⟩⟩ 0 274 = none ∧
    leafSizeFor ⟨BN_LEAF, List.replicate 3 ⟨0, [97], [98]⟩⟩ 0 3 = some 30 ∧
    nbytes (⟨BN_LEAF, List.replicate 3 ⟨0, [97], [98]⟩⟩ : BNode) = 52 := by
  refine ⟨by decide, ?_, by decide, by decide, by decide⟩
  decide

/-- C4 (refuting evaluation): in a tree whose root internal node contracts to
zero keys (`treeDelete` returns a `BN_NODE` with `nkeys() == 0`), `Delete`
does not promote the single child and return `true`: it calls
`updated.getPtr(0)` on the zero-key node, whose assert `idx < node.nkeys()`
fails, so the operation panics (`none`). -/
theorem c4_root_promotion_fails :
    (treeDelete 3 ⟨[(11, ⟨BN_NODE, [⟨12, [97], []⟩]⟩), (12, ⟨BN_LEAF, [⟨0, [97], [118]⟩]⟩)], 13, []⟩
        ⟨BN_NODE, [⟨11, [97], []⟩]⟩ [97]).map (fun r => r.2) = some (some ⟨BN_NODE, []⟩) ∧
    btDelete 3 ⟨[(10, ⟨BN_NODE, [⟨11, [97], []⟩]⟩), (11, ⟨BN_NODE, [⟨12, [97], []⟩]⟩),
        (12, ⟨BN_LEAF, [⟨0, [97], [118]⟩]⟩)], 13, []⟩ 10 [97] = none := by
  exact ⟨by decide, by decide⟩

set_option maxRecDepth 40000 in
/-- C5 (refuting evaluation): with `head_seq = 0`, `max_seq = 2` (head page
not exhausted; the slot index advances from 0 to 1 without wrapping),
`PopHead` still performs a `PushTail` — and the pushed page is the *live*
current head page (page 5), because `flPop` ends with
`return ptr, fl.headPage` instead of returning the named `head` value: the
tail sequence advances and slot 0 of the tail page receives page number 5. -/
theorem c5_pophead_pushes_live_head :
    flPopHead ⟨[(5, ⟨0, 77 :: 88 :: List.replicate 509 0⟩), (9, ⟨0, List.replicate 511 0⟩)],
        5, 0, 9, 0, 2, 10⟩
      = some (77, ⟨[(5, ⟨0, 77 :: 88 :: List.replicate 509 0⟩), (9, ⟨0, 5 :: List.replicate 510 0⟩)],
        5, 1, 9, 1, 2, 10⟩) ∧
    seq2idx 1 ≠ 0 := by
  exact ⟨by decide, by decide⟩

/-- C6 (refuting evaluation): `loadMeta` asserts
`!bytes.Equal(data[:16], DB_SIG)`, so a meta page whose first 16 bytes equal
the signature `"mydb000000000000"` is rejected (panic, `none`), while a page
with a non-matching signature is accepted and its bytes 16..32 are loaded as
the root page number and flushed high-watermark — the opposite of the claim. -/
theorem c6_meta_loader_inverted :
    loadMeta ⟨⟨[], 1, []⟩, 0, 1, 0, false⟩ (DB_SIG ++ le64 5 ++ le64 9) = none ∧
    loadMeta ⟨⟨[], 1, []⟩, 0, 1, 0, false⟩ (List.replicate 16 0 ++ le64 5 ++ le64 9) =
      some ⟨⟨[], 1, []⟩, 5, 9, 0, false⟩ := by
  exact ⟨by decide, by decide⟩

/-- C1 (refuting evaluation): a `Del` whose commit write fails (`Pwritev`
reports an error) returns the error but leaves `failed = false`, keeps the
post-mutation root (page 2, not the pre-mutation page 1) and keeps the staged
page count at 1 — `Del` calls `updateFile` directly, never snapshots the meta
and never reverts.  In addition, a `Set` whose commit write fails panics
(`none`): its revert path calls `loadMeta` on the snapshot meta, whose
inverted signature assert fires on the valid signature. -/
theorem c1_del_failure_no_revert :
    kvDel 2 ⟨⟨[(1, ⟨BN_LEAF, [⟨0, [], []⟩, ⟨0, [97], [118]⟩]⟩)], 2, []⟩, 1, 2, 0, false⟩
        ⟨false, true, true, true, true, true⟩ [97]
      = some (⟨⟨[(2, ⟨BN_LEAF, [⟨0, [], []⟩]⟩)], 3, [1]⟩, 2, 2, 1, false⟩, true, false) ∧
    kvSet 2 ⟨⟨[(1, ⟨BN_LEAF, [⟨0, [], []⟩, ⟨0, [97], [118]⟩]⟩)], 2, []⟩, 1, 2, 0, false⟩
        ⟨false, true, true, true, true, true⟩ [98] [50] = none := by
  exact ⟨by decide, by decide⟩

instance : IsTrans (List Nat) bLt := ⟨fun _ _ _ => bLt_trans⟩

instance : IsIrrefl (List Nat) bLt := ⟨bLt_irrefl⟩

/-! ### Lemmas on the abstract key-value maps -/

@[simp] theorem keysOf_nil : keysOf [] = [] := rfl

@[simp] theorem keysOf_cons (e : List Nat × List Nat) (es : List (List Nat × List Nat)) :
    keysOf (e :: es) = e.1 :: keysOf es := rfl

@[simp] theorem keysOf_append (a b : List (List Nat × List Nat)) :
    keysOf (a ++ b) = keysOf a ++ keysOf b := List.map_append _ _ _

theorem getD_map {α β : Type} (f : α → β) (l : List α) (i : Nat) (d : α) :
    (l.map f).getD i (f d) = f (l.getD i d) := by
  induction l generalizing i with
  | nil => simp
  | cons x xs ih => cases i <;> simp [ih]

theorem getD_mem {α : Type} {l : List α} {i : Nat} (d : α) (h : i < l.length) :
    l.getD i d ∈ l := by
  induction l generalizing i with
  | nil => simp at h
  | cons x xs ih =>
    cases i with
    | zero => simp
    | succ j => simpa using Or.inr (ih (by simpa using h))

theorem lookupKV_not_mem {l : List (List Nat × List Nat)} {k : List Nat}
    (h : k ∉ keysOf l) : lookupKV l k = ([], false) := by
  induction l with
  | nil => rfl
  | cons e es ih =>
    simp only [keysOf_cons, List.mem_cons] at h
    push_neg at h
    rw [lookupKV, if_neg (Ne.symm h.1)]
    exact ih h.2

theorem lookupKV_false_iff {l : List (List Nat × List Nat)} {k : List Nat} :
    (lookupKV l k).2 = false ↔ k ∉ keysOf l := by
  induction l with
  | nil => simp [lookupKV]
  | cons e es ih =>
    rw [lookupKV]
    by_cases he : e.1 = k
    · simp [he]
    · simp only [if_neg he, keysOf_cons, List.mem_cons, ih]
      constructor
      · intro h h'
        rcases h' with h' | h'
        · exact he h'.symm
        · exact h h'
      · intro h h'; exact h (Or.inr h')

theorem lookupKV_getD {l : List (List Nat × List Nat)} {k : List Nat} {idx : Nat}
    (hs : List.Pairwise bLt (keysOf l)) (hlt : idx < l.length)
    (hk : (l.getD idx ([], [])).1 = k) :
    lookupKV l k = ((l.getD idx ([], [])).2, true) := by
  induction l generalizing idx with
  | nil => simp at hlt
  | cons e es ih =>
    cases idx with
    | zero => simp only [List.getD_cons_zero] at hk ⊢; rw [lookupKV, if_pos hk]
    | succ i =>
      simp only [List.getD_cons_succ] at hk ⊢
      have hne : e.1 ≠ k := by
        have hmem : (es.getD i ([], [])).1 ∈ keysOf es := by
          have : es.getD i ([], []) ∈ es := getD_mem _ (by simpa using hlt)
          exact List.mem_map_of_mem _ this
        have := (List.pairwise_cons.mp hs).1 _ (hk ▸ hmem)
        exact bLt_ne this
      rw [lookupKV, if_neg hne]
      exact ih (List.pairwise_cons.mp hs).2 (by simpa using hlt) hk

theorem kvIns_head {es : List (List Nat × List Nat)} {k v : List Nat} :
    ((kvIns es k v).map Prod.fst).head? = some k ∨
    ((kvIns es k v).map Prod.fst).head? = (es.map Prod.fst).head? := by
  cases es with
  | nil => left; rfl
  | cons f fs =>
    rw [kvIns]
    by_cases h1 : bLt k f.1
    · rw [if_pos h1]; left; rfl
    · rw [if_neg h1]
      by_cases h2 : f.1 = k
      · rw [if_pos h2]; left; rfl
      · rw [if_neg h2]; right; rfl

theorem kvIns_sorted {l : List (List Nat × List Nat)} {k v : List Nat}
    (h : List.Chain' bLt (keysOf l)) :
    List.Chain' bLt (keysOf (kvIns l k v)) := by
  induction l with
  | nil => simp [kvIns, keysOf]
  | cons e es ih =>
    rw [kvIns]
    by_cases h1 : bLt k e.1
    · rw [if_pos h1]
      exact List.chain'_cons'.mpr ⟨fun y hy => by simp at hy; exact hy ▸ h1, h⟩
    · rw [if_neg h1]
      by_cases h2 : e.1 = k
      · rw [if_pos h2]
        have h' := List.chain'_cons'.mp h
        exact List.chain'_cons'.mpr ⟨fun y hy => h2 ▸ h'.1 y hy, h'.2⟩
      · rw [if_neg h2]
        have h' := List.chain'_cons'.mp h
        have hek : bLt e.1 k := bLt_of_bLe_of_ne (not_bLt_iff_bLe.mp h1) h2
        refine List.chain'_cons'.mpr ⟨?_, ih h'.2⟩
        intro y hy
        rcases @kvIns_head es k v with hh | hh
        · rw [hh] at hy; cases hy; exact hek
        · rw [hh] at hy; exact h'.1 y hy

theorem kvErase_sublist (l : List (List Nat × List Nat)) (k : List Nat) :
    (kvErase l k).Sublist l := by
  induction l with
  | nil => simp [kvErase]
  | cons e es ih =>
    rw [kvErase]
    by_cases h : e.1 = k
    · rw [if_pos h]; exact (List.sublist_cons_self e es)
    · rw [if_neg h]; exact ih.cons₂ e

theorem kvErase_sorted {l : List (List Nat × List Nat)} {k : List Nat}
    (h : List.Chain' bLt (keysOf l)) :
    List.Chain' bLt (keysOf (kvErase l k)) := by
  rw [List.chain'_iff_pairwise] at h ⊢
  have hsub : (keysOf (kvErase l k)).Sublist (keysOf l) :=
    List.Sublist.map Prod.fst (kvErase_sublist l k)
  exact List.Pairwise.sublist hsub h

theorem lookupKV_kvIns_self (l : List (List Nat × List Nat)) (k v : List Nat) :
    lookupKV (kvIns l k v) k = (v, true) := by
  induction l with
  | nil => simp [kvIns, lookupKV]
  | cons e es ih =>
    rw [kvIns]
    by_cases h1 : bLt k e.1
    · rw [if_pos h1]; simp [lookupKV]
    · rw [if_neg h1]
      by_cases h2 : e.1 = k
      · rw [if_pos h2]; simp [lookupKV]
      · rw [if_neg h2, lookupKV, if_neg h2]; exact ih

theorem lookupKV_kvIns_other {l : List (List Nat × List Nat)} {k v k' : List Nat}
    (hne : k' ≠ k) : lookupKV (kvIns l k v) k' = lookupKV l k' := by
  induction l with
  | nil =>
    simp only [kvIns, lookupKV]
    rw [if_neg (show ¬ k = k' from fun h => hne h.symm)]
  | cons e es ih =>
    rw [kvIns]
    by_cases h1 : bLt k e.1
    · rw [if_pos h1, lookupKV, if_neg (show ¬ k = k' from fun h => hne h.symm)]
    · rw [if_neg h1]
      by_cases h2 : e.1 = k
      · rw [if_pos h2, lookupKV, if_neg (fun h => hne h.symm), lookupKV, if_neg (h2 ▸ fun h => hne h.symm)]
      · rw [if_neg h2, lookupKV, lookupKV]
        by_cases h3 : e.1 = k'
        · rw [if_pos h3, if_pos h3]
        · rw [if_neg h3, if_neg h3]; exact ih

theorem lookupKV_kvErase_other {l : List (List Nat × List Nat)} {k k' : List Nat}
    (hne : k' ≠ k) (hs : List.Pairwise bLt (keysOf l)) :
    lookupKV (kvErase l k) k' = lookupKV l k' := by
  induction l with
  | nil => rfl
  | cons e es ih =>
    rw [kvErase]
    by_cases h1 : e.1 = k
    · rw [if_pos h1, lookupKV, if_neg (h1 ▸ fun h => hne h.symm)]
    · rw [if_neg h1, lookupKV, lookupKV]
      by_cases h2 : e.1 = k'
      · rw [if_pos h2, if_pos h2]
      · rw [if_neg h2, if_neg h2]
        exact ih (List.pairwise_cons.mp hs).2

theorem kvIns_front {B : List (List Nat × List Nat)} {k v : List Nat}
    (h : ∀ b ∈ keysOf B, bLt k b) : kvIns B k v = (k, v) :: B := by
  cases B with
  | nil => rfl
  | cons b bs =>
    rw [kvIns, if_pos (h b.1 (by simp))]

theorem kvIns_append_left {A B : List (List Nat × List Nat)} {k v : List Nat}
    (h : ∀ a ∈ keysOf A, bLt a k) : kvIns (A ++ B) k v = A ++ kvIns B k v := by
  induction A with
  | nil => rfl
  | cons a as ih =>
    have ha : bLt a.1 k := h a.1 (by simp)
    rw [List.cons_append, kvIns, if_neg (bLt_asymm ha), if_neg (bLt_ne ha),
      ih (fun x hx => h x (by simp [hx])), List.cons_append]

theorem kvIns_append_right {M B : List (List Nat × List Nat)} {k v : List Nat}
    (h : ∀ b ∈ keysOf B, bLt k b) : kvIns (M ++ B) k v = kvIns M k v ++ B := by
  induction M with
  | nil => simp [kvIns_front h, kvIns]
  | cons m ms ih =>
    rw [List.cons_append, kvIns, kvIns]
    by_cases h1 : bLt k m.1
    · rw [if_pos h1, if_pos h1, List.cons_append, List.cons_append]
    · rw [if_neg h1, if_neg h1]
      by_cases h2 : m.1 = k
      · rw [if_pos h2, if_pos h2, List.cons_append]
      · rw [if_neg h2, if_neg h2, List.cons_append, ih]

theorem kvErase_not_mem {l : List (List Nat × List Nat)} {k : List Nat}
    (h : k ∉ keysOf l) : kvErase l k = l := by
  induction l with
  | nil => rfl
  | cons e es ih =>
    simp only [keysOf_cons, List.mem_cons] at h
    push_neg at h
    rw [kvErase, if_neg (Ne.symm h.1), ih h.2]

theorem kvErase_append_left {A B : List (List Nat × List Nat)} {k : List Nat}
    (h : ∀ a ∈ keysOf A, a ≠ k) : kvErase (A ++ B) k = A ++ kvErase B k := by
  induction A with
  | nil => rfl
  | cons a as ih =>
    rw [List.cons_append, kvErase, if_neg (h a.1 (by simp)),
      ih (fun x hx => h x (by simp [hx])), List.cons_append]

theorem kvErase_append_right {M B : List (List Nat × List Nat)} {k : List Nat}
    (h : ∀ b ∈ keysOf B, b ≠ k) : kvErase (M ++ B) k = kvErase M k ++ B := by
  induction M with
  | nil =>
    simp only [List.nil_append, kvErase]
    exact kvErase_not_mem (fun hm => h k hm rfl)
  | cons m ms ih =>
    rw [List.cons_append, kvErase, kvErase]
    by_cases h1 : m.1 = k
    · rw [if_pos h1, if_pos h1]
    · rw [if_neg h1, if_neg h1, List.cons_append, ih]

theorem lookupKV_append_left {A B : List (List Nat × List Nat)} {k : List Nat}
    (h : ∀ a ∈ keysOf A, a ≠ k) : lookupKV (A ++ B) k = lookupKV B k := by
  induction A with
  | nil => rfl
  | cons a as ih =>
    rw [List.cons_append, lookupKV, if_neg (h a.1 (by simp))]
    exact ih (fun x hx => h x (by simp [hx]))

theorem lookupKV_append_right {A B : List (List Nat × List Nat)} {k : List Nat}
    (h : k ∉ keysOf B) : lookupKV (A ++ B) k = lookupKV A k := by
  induction A with
  | nil => simp only [List.nil_append, lookupKV]; exact lookupKV_not_mem h
  | cons a as ih =>
    rw [List.cons_append, lookupKV, lookupKV]
    by_cases h1 : a.1 = k
    · rw [if_pos h1, if_pos h1]
    · rw [if_neg h1, if_neg h1, ih]

/-! ### Characterization of `nodeLookupLE` -/

theorem getD_drop {α : Type} (l : List α) (m j : Nat) (d : α) :
    (l.drop m).getD j d = l.getD (m + j) d := by
  induction l generalizing m with
  | nil => simp
  | cons x xs ih =>
    cases m with
    | zero => simp
    | succ m' =>
      rw [List.drop_succ_cons, ih m', Nat.succ_add, List.getD_cons_succ]

theorem lookupAux_ge {k : List Nat} : ∀ (rest : List Entry) (i found : Nat),
    found ≤ i → found ≤ lookupAux k rest i found := by
  intro rest
  induction rest with
  | nil => intro i found h; exact Nat.le_refl found
  | cons e es ih =>
    intro i found h
    rw [lookupAux]
    rcases hc : bytesCompare e.key k with _ | _ | _ <;> dsimp only
    · exact Nat.le_trans h (ih (i + 1) i (Nat.le_succ i))
    · exact h
    · exact Nat.le_refl found

theorem lookupAux_lt {k : List Nat} : ∀ (rest : List Entry) (i found : Nat),
    lookupAux k rest i found < i + rest.length ∨ lookupAux k rest i found = found := by
  intro rest
  induction rest with
  | nil => intro i found; exact Or.inr rfl
  | cons e es ih =>
    intro i found
    rw [lookupAux]
    rcases hc : bytesCompare e.key k with _ | _ | _ <;> dsimp only
    · rcases ih (i + 1) i with h | h
      · left; simp only [List.length_cons]; omega
      · left; rw [h]; simp only [List.length_cons]; omega
    · left; simp only [List.length_cons]; omega
    · right; rfl

theorem lookupAux_found_le {k : List Nat} : ∀ (rest : List Entry) (i found : Nat),
    lookupAux k rest i found = found ∨
    ∃ j, j < rest.length ∧ lookupAux k rest i found = i + j ∧
      bLe (rest.getD j defEntry).key k := by
  intro rest
  induction rest with
  | nil => intro i found; exact Or.inl rfl
  | cons e es ih =>
    intro i found
    rw [lookupAux]
    rcases hc : bytesCompare e.key k with _ | _ | _ <;> dsimp only
    · rcases ih (i + 1) i with h | ⟨j, hj, hres, hle⟩
      · right
        refine ⟨0, by simp, by omega, ?_⟩
        simp only [List.getD_cons_zero]
        unfold bLe; simp [hc]
      · right
        refine ⟨j + 1, by simpa using hj, by omega, by simpa using hle⟩
    · right
      refine ⟨0, by simp, by omega, ?_⟩
      simp only [List.getD_cons_zero]
      unfold bLe; simp [hc]
    · left; rfl

theorem lookupAux_after {k : List Nat} : ∀ (rest : List Entry) (i found : Nat),
    List.Pairwise bLt (rest.map Entry.key) → found ≤ i →
    ∀ j, j < rest.length → lookupAux k rest i found < i + j →
      bLt k (rest.getD j defEntry).key := by
  intro rest
  induction rest with
  | nil => intro i found _ _ j hj; simp at hj
  | cons e es ih =>
    intro i found hp hacc j hj hres
    rw [List.map_cons, List.pairwise_cons] at hp
    rw [lookupAux] at hres
    rcases hc : bytesCompare e.key k with _ | _ | _ <;> rw [hc] at hres <;> dsimp only at hres
    · cases j with
      | zero =>
        exfalso
        have := lookupAux_ge (k := k) es (i + 1) i (Nat.le_succ i)
        omega
      | succ j' =>
        simp only [List.getD_cons_succ]
        exact ih (i + 1) i hp.2 (Nat.le_succ i) j' (by simpa using hj) (by omega)
    · cases j with
      | zero => omega
      | succ j' =>
        simp only [List.getD_cons_succ]
        have hek : e.key = k := bytesCompare_eq_iff.mp hc
        have hmem : (es.getD j' defEntry).key ∈ es.map Entry.key :=
          List.mem_map_of_mem _ (getD_mem _ (by simpa using hj))
        exact hek ▸ hp.1 _ hmem
    · have hke : bLt k e.key := by
        unfold bLt
        rw [bytesCompare_swap, hc]; rfl
      cases j with
      | zero => simpa using hke
      | succ j' =>
        simp only [List.getD_cons_succ]
        have hmem : (es.getD j' defEntry).key ∈ es.map Entry.key :=
          List.mem_map_of_mem _ (getD_mem _ (by simpa using hj))
        exact bLt_trans hke (hp.1 _ hmem)

theorem nodeLookupLE_lt {nd : BNode} {k : List Nat} (h : 1 ≤ nd.entries.length) :
    nodeLookupLE nd k < nd.entries.length := by
  unfold nodeLookupLE
  rcases lookupAux_lt (k := k) (nd.entries.drop 1) 1 0 with h' | h'
  · rw [List.length_drop] at h'; omega
  · omega

theorem nodeLookupLE_le {nd : BNode} {k : List Nat} (hne : nodeLookupLE nd k ≠ 0) :
    bLe (getKeyD nd (nodeLookupLE nd k)) k := by
  unfold nodeLookupLE at hne ⊢
  rcases lookupAux_found_le (k := k) (nd.entries.drop 1) 1 0 with h' | ⟨j, hj, hres, hle⟩
  · exact absurd h' hne
  · rw [getD_drop] at hle
    rw [hres]
    exact hle

theorem nodeLookupLE_after {nd : BNode} {k : List Nat}
    (hs : List.Pairwise bLt (nd.entries.map Entry.key)) :
    ∀ j, nodeLookupLE nd k < j → j < nd.entries.length → bLt k (getKeyD nd j) := by
  intro j hlt hj
  unfold nodeLookupLE at hlt
  have hp : List.Pairwise bLt ((nd.entries.drop 1).map Entry.key) := by
    have : (nd.entries.drop 1).map Entry.key = (nd.entries.map Entry.key).drop 1 := by
      rw [List.map_drop]
    rw [this]
    exact hs.sublist (List.drop_sublist 1 _)
  have hj' : j - 1 < (nd.entries.drop 1).length := by
    rw [List.length_drop]; omega
  have := lookupAux_after (k := k) (nd.entries.drop 1) 1 0 hp (Nat.zero_le 1)
    (j - 1) hj' (by omega)
  rw [getD_drop] at this
  unfold getKeyD
  have hj1 : 1 + (j - 1) = j := by omega
  rw [hj1] at this
  exact this

/-! ### Inversion and congruence for `seqKids` -/

theorem seqKids_cons_eq_some {α : Type} {g : Nat → Option (List α)} {e : Entry}
    {es : List Entry} {res : List α} :
    seqKids g (e :: es) = some res ↔
    ∃ l1 l2, g e.ptr = some l1 ∧ seqKids g es = some l2 ∧ res = l1 ++ l2 := by
  rw [seqKids]
  simp only [bind, Option.bind_eq_some, Option.pure_def, Option.some.injEq]
  constructor
  · rintro ⟨l1, h1, l2, h2, h3⟩; exact ⟨l1, l2, h1, h2, h3.symm⟩
  · rintro ⟨l1, l2, h1, h2, h3⟩; exact ⟨l1, h1, l2, h2, h3.symm⟩

theorem seqKids_congr {α : Type} {g g' : Nat → Option (List α)} :
    ∀ {es : List Entry}, (∀ e ∈ es, g e.ptr = g' e.ptr) →
    seqKids g es = seqKids g' es := by
  intro es
  induction es with
  | nil => intro _; rfl
  | cons e es ih =>
    intro h
    rw [seqKids, seqKids, h e (by simp), ih (fun x hx => h x (by simp [hx]))]

/-! ### Frame lemma: reification only reads the subtree's pages -/

theorem seqKids_nil {α : Type} (g : Nat → Option (List α)) : seqKids g [] = some [] := rfl

theorem firstKeyN_eq {f : Nat} {st : Store} {p : Nat} {cn : BNode}
    {l : List (List Nat × List Nat)} (hcn : stGet st p = some cn)
    (hents : entsN f st cn = some l) :
    firstKeyN f st p = l.head?.map Prod.fst := by
  unfold firstKeyN
  rw [hcn]
  simp only [bind, Option.some_bind, hents]
  cases l.head? <;> rfl

theorem frame_kids (f : Nat) (st st' : Store)
    (IH : ∀ {nd : BNode} {l : List (List Nat × List Nat)} {ps : List Nat},
      entsN f st nd = some l → pagesN f st nd = some ps →
      (∀ p ∈ ps, stGet st' p = stGet st p) →
      entsN f st' nd = some l ∧ pagesN f st' nd = some ps ∧
        (wfN f st nd = true → wfN f st' nd = true)) :
    ∀ (es : List Entry) (l : List (List Nat × List Nat)) (ps : List Nat),
      seqKids (fun p => do
        let cn ← stGet st p
        entsN f st cn) es = some l →
      seqKids (fun p => do
        let cn ← stGet st p
        let ps ← pagesN f st cn
        pure (p :: ps)) es = some ps →
      (∀ p ∈ ps, stGet st' p = stGet st p) →
      seqKids (fun p => do
        let cn ← stGet st' p
        entsN f st' cn) es = some l ∧
      seqKids (fun p => do
        let cn ← stGet st' p
        let ps ← pagesN f st' cn
        pure (p :: ps)) es = some ps ∧
      ((es.all fun e =>
        match stGet st e.ptr with
        | some cn => wfN f st cn && decide (firstKeyN f st e.ptr = some e.key)
        | none => false) = true →
       (es.all fun e =>
        match stGet st' e.ptr with
        | some cn => wfN f st' cn && decide (firstKeyN f st' e.ptr = some e.key)
        | none => false) = true) := by
  intro es
  induction es with
  | nil =>
    intro l ps h1 h2 _
    rw [seqKids_nil] at h1 h2
    cases h1; cases h2
    exact ⟨rfl, rfl, by simp⟩
  | cons e es ihes =>
    intro l ps h1 h2 hagree
    rw [seqKids_cons_eq_some] at h1 h2
    obtain ⟨l1, l2, hg1, hg2, rfl⟩ := h1
    obtain ⟨q1, q2, hq1, hq2, rfl⟩ := h2
    simp only [bind, Option.bind_eq_some, Option.pure_def, Option.some.injEq] at hg1 hq1
    obtain ⟨cn, hcn, hents⟩ := hg1
    obtain ⟨cn', hcn', cps, hcps, hq⟩ := hq1
    rw [hcn] at hcn'
    cases hcn'
    cases hq
    have hagree1 : ∀ p ∈ cps, stGet st' p = stGet st p := by
      intro p hp; exact hagree p (by simp [hp])
    have hagree2 : ∀ p ∈ q2, stGet st' p = stGet st p := by
      intro p hp; exact hagree p (by simp [hp])
    have heptr : stGet st' e.ptr = stGet st e.ptr := hagree e.ptr (by simp)
    obtain ⟨hce, hcp, hcw⟩ := IH hents hcps hagree1
    obtain ⟨hre, hrp, hrw⟩ := ihes l2 q2 hg2 hq2 hagree2
    refine ⟨?_, ?_, ?_⟩
    · rw [seqKids_cons_eq_some]
      refine ⟨l1, l2, ?_, hre, rfl⟩
      simp only [bind, Option.bind_eq_some]
      exact ⟨cn, by rw [heptr, hcn], hce⟩
    · rw [seqKids_cons_eq_some]
      refine ⟨e.ptr :: cps, q2, ?_, hrp, rfl⟩
      simp only [bind, Option.bind_eq_some, Option.pure_def, Option.some.injEq]
      exact ⟨cn, by rw [heptr, hcn], cps, hcp, rfl⟩
    · intro hwf
      rw [List.all_cons, Bool.and_eq_true] at hwf ⊢
      refine ⟨?_, hrw hwf.2⟩
      have hwfe := hwf.1
      simp only [hcn] at hwfe
      have heptr2 : stGet st' e.ptr = some cn := by rw [heptr, hcn]
      simp only [heptr2]
      rw [Bool.and_eq_true, decide_eq_true_eq] at hwfe ⊢
      refine ⟨hcw hwfe.1, ?_⟩
      rw [firstKeyN_eq heptr2 hce]
      rw [firstKeyN_eq hcn hents] at hwfe
      exact hwfe.2

theorem reify_frame : ∀ (f : Nat) {st st' : Store} {nd : BNode}
    {l : List (List Nat × List Nat)} {ps : List Nat},
    entsN f st nd = some l → pagesN f st nd = some ps →
    (∀ p ∈ ps, stGet st' p = stGet st p) →
    entsN f st' nd = some l ∧ pagesN f st' nd = some ps ∧
      (wfN f st nd = true → wfN f st' nd = true) := by
  intro f
  induction f with
  | zero => intro st st' nd l ps h1 _ _; rw [entsN] at h1; exact absurd h1 (by simp)
  | succ f ih =>
    intro st st' nd l ps h1 h2 hagree
    by_cases hleaf : nd.btype = BN_LEAF
    · rw [entsN, if_pos hleaf] at h1 ⊢
      rw [pagesN, if_pos hleaf] at h2 ⊢
      rw [wfN, if_pos hleaf, wfN, if_pos hleaf]
      exact ⟨h1, h2, id⟩
    · by_cases hnode : nd.btype = BN_NODE
      · rw [entsN, if_neg hleaf, if_pos hnode] at h1 ⊢
        rw [pagesN, if_neg hleaf, if_pos hnode] at h2 ⊢
        rw [wfN, if_neg hleaf, if_pos hnode, wfN, if_neg hleaf, if_pos hnode]
        obtain ⟨ha, hb, hc⟩ := frame_kids f st st' (fun {nd l ps} => @ih st st' nd l ps)
          nd.entries l ps h1 h2 hagree
        refine ⟨ha, hb, ?_⟩
        intro hwf
        rw [Bool.and_eq_true] at hwf ⊢
        exact ⟨hwf.1, hc hwf.2⟩
      · rw [entsN, if_neg hleaf, if_neg hnode] at h1
        exact absurd h1 (by simp)

/-! ### Fuel monotonicity of reification -/

theorem mono_kids (f : Nat) (st : Store)
    (IH : ∀ {nd : BNode} {l : List (List Nat × List Nat)} {ps : List Nat},
      entsN f st nd = some l → pagesN f st nd = some ps →
      entsN (f + 1) st nd = some l ∧ pagesN (f + 1) st nd = some ps ∧
        (wfN f st nd = true → wfN (f + 1) st nd = true)) :
    ∀ (es : List Entry) (l : List (List Nat × List Nat)) (ps : List Nat),
      seqKids (fun p => do
        let cn ← stGet st p
        entsN f st cn) es = some l →
      seqKids (fun p => do
        let cn ← stGet st p
        let ps ← pagesN f st cn
        pure (p :: ps)) es = some ps →
      seqKids (fun p => do
        let cn ← stGet st p
        entsN (f + 1) st cn) es = some l ∧
      seqKids (fun p => do
        let cn ← stGet st p
        let ps ← pagesN (f + 1) st cn
        pure (p :: ps)) es = some ps ∧
      ((es.all fun e =>
        match stGet st e.ptr with
        | some cn => wfN f st cn && decide (firstKeyN f st e.ptr = some e.key)
        | none => false) = true →
       (es.all fun e =>
        match stGet st e.ptr with
        | some cn => wfN (f + 1) st cn && decide (firstKeyN (f + 1) st e.ptr = some e.key)
        | none => false) = true) := by
  intro es
  induction es with
  | nil =>
    intro l ps h1 h2
    rw [seqKids_nil] at h1 h2
    cases h1; cases h2
    exact ⟨rfl, rfl, by simp⟩
  | cons e es ihes =>
    intro l ps h1 h2
    rw [seqKids_cons_eq_some] at h1 h2
    obtain ⟨l1, l2, hg1, hg2, rfl⟩ := h1
    obtain ⟨q1, q2, hq1, hq2, rfl⟩ := h2
    simp only [bind, Option.bind_eq_some, Option.pure_def, Option.some.injEq] at hg1 hq1
    obtain ⟨cn, hcn, hents⟩ := hg1
    obtain ⟨cn', hcn', cps, hcps, hq⟩ := hq1
    rw [hcn] at hcn'
    cases hcn'
    cases hq
    obtain ⟨hce, hcp, hcw⟩ := IH hents hcps
    obtain ⟨hre, hrp, hrw⟩ := ihes l2 q2 hg2 hq2
    refine ⟨?_, ?_, ?_⟩
    · rw [seqKids_cons_eq_some]
      refine ⟨l1, l2, ?_, hre, rfl⟩
      simp only [bind, Option.bind_eq_some]
      exact ⟨cn, hcn, hce⟩
    · rw [seqKids_cons_eq_some]
      refine ⟨e.ptr :: cps, q2, ?_, hrp, rfl⟩
      simp only [bind, Option.bind_eq_some, Option.pure_def, Option.some.injEq]
      exact ⟨cn, hcn, cps, hcp, rfl⟩
    · intro hwf
      rw [List.all_cons, Bool.and_eq_true] at hwf ⊢
      refine ⟨?_, hrw hwf.2⟩
      have hwfe := hwf.1
      simp only [hcn] at hwfe ⊢
      rw [Bool.and_eq_true, decide_eq_true_eq] at hwfe ⊢
      refine ⟨hcw hwfe.1, ?_⟩
      rw [firstKeyN_eq hcn hce]
      rw [firstKeyN_eq hcn hents] at hwfe
      exact hwfe.2

theorem reify_mono_succ : ∀ (f : Nat) {st : Store} {nd : BNode}
    {l : List (List Nat × List Nat)} {ps : List Nat},
    entsN f st nd = some l → pagesN f st nd = some ps →
    entsN (f + 1) st nd = some l ∧ pagesN (f + 1) st nd = some ps ∧
      (wfN f st nd = true → wfN (f + 1) st nd = true) := by
  intro f
  induction f with
  | zero => intro st nd l ps h1 _; rw [entsN] at h1; exact absurd h1 (by simp)
  | succ f ih =>
    intro st nd l ps h1 h2
    by_cases hleaf : nd.btype = BN_LEAF
    · rw [entsN, if_pos hleaf] at h1
      rw [pagesN, if_pos hleaf] at h2
      rw [entsN, if_pos hleaf, pagesN, if_pos hleaf,
        wfN, if_pos hleaf, wfN, if_pos hleaf]
      exact ⟨h1, h2, id⟩
    · by_cases hnode : nd.btype = BN_NODE
      · rw [entsN, if_neg hleaf, if_pos hnode] at h1
        rw [pagesN, if_neg hleaf, if_pos hnode] at h2
        rw [entsN, if_neg hleaf, if_pos hnode, pagesN, if_neg hleaf, if_pos hnode,
          wfN, if_neg hleaf, if_pos hnode, wfN, if_neg hleaf, if_pos hnode]
        obtain ⟨ha, hb, hc⟩ := mono_kids f st (fun {nd l ps} => @ih st nd l ps)
          nd.entries l ps h1 h2
        refine ⟨ha, hb, ?_⟩
        intro hwf
        rw [Bool.and_eq_true] at hwf ⊢
        exact ⟨hwf.1, hc hwf.2⟩
      · rw [entsN, if_neg hleaf, if_neg hnode] at h1
        exact absurd h1 (by simp)

theorem reify_mono {f g : Nat} (hfg : f ≤ g) :
    ∀ {st : Store} {nd : BNode} {l : List (List Nat × List Nat)} {ps : List Nat},
    entsN f st nd = some l → pagesN f st nd = some ps →
    entsN g st nd = some l ∧ pagesN g st nd = some ps ∧
      (wfN f st nd = true → wfN g st nd = true) := by
  induction g, hfg using Nat.le_induction with
  | base => intro st nd l ps h1 h2; exact ⟨h1, h2, id⟩
  | succ g hfg ih =>
    intro st nd l ps h1 h2
    obtain ⟨ha, hb, hc⟩ := ih h1 h2
    obtain ⟨ha', hb', hc'⟩ := reify_mono_succ g ha hb
    exact ⟨ha', hb', fun h => hc' (hc h)⟩

/-! ### Helpers for descending the tree -/

theorem all_getD {es : List Entry} {P : Entry → Bool} (h : es.all P = true)
    {i : Nat} (hi : i < es.length) (d : Entry) : P (es.getD i d) = true := by
  rw [List.all_eq_true] at h
  exact h _ (getD_mem d hi)

theorem drop_eq_getD_cons {α : Type} {l : List α} {m : Nat} (h : m < l.length) (d : α) :
    l.drop m = l.getD m d :: l.drop (m + 1) := by
  induction l generalizing m with
  | nil => simp at h
  | cons x xs ih =>
    cases m with
    | zero => simp
    | succ m' =>
      rw [List.drop_succ_cons, List.getD_cons_succ, ih (by simpa using h)]
      rfl

theorem head?_append_of_ne {α : Type} {M B : List α} (h : M ≠ []) :
    (M ++ B).head? = M.head? := by
  cases M with
  | nil => exact absurd rfl h
  | cons x xs => rfl

theorem pairwise_head_rel {α : Type} {R : α → α → Prop} {B : List α} {h : α}
    (hp : List.Pairwise R B) (hh : B.head? = some h) :
    ∀ b ∈ B, b = h ∨ R h b := by
  cases B with
  | nil => simp at hh
  | cons x xs =>
    cases hh
    intro b hb
    rcases List.mem_cons.mp hb with rfl | hb'
    · exact Or.inl rfl
    · exact Or.inr ((List.pairwise_cons.mp hp).1 b hb')

theorem mem_map_getD {es : List Entry} {k : List Nat}
    (h : k ∈ es.map Entry.key) : ∃ j, j < es.length ∧ (es.getD j defEntry).key = k := by
  rw [List.mem_map] at h
  obtain ⟨e, he, rfl⟩ := h
  rw [List.mem_iff_getElem] at he
  obtain ⟨j, hj, rfl⟩ := he
  refine ⟨j, hj, ?_⟩
  rw [List.getD_eq_getElem _ _ hj]

theorem seqKids_decomp {α : Type} {g : Nat → Option (List α)} :
    ∀ {es : List Entry} {idx : Nat} {l : List α},
    seqKids g es = some l → idx < es.length →
    ∃ A M B, g (es.getD idx defEntry).ptr = some M ∧ l = A ++ M ++ B ∧
      seqKids g (es.take idx) = some A ∧ seqKids g (es.drop (idx + 1)) = some B := by
  intro es
  induction es with
  | nil => intro idx l _ h; simp at h
  | cons e es ih =>
    intro idx l h hidx
    rw [seqKids_cons_eq_some] at h
    obtain ⟨l1, l2, hg, hrest, rfl⟩ := h
    cases idx with
    | zero =>
      exact ⟨[], l1, l2, by simpa using hg, rfl, rfl, by simpa using hrest⟩
    | succ idx' =>
      obtain ⟨A', M, B', hgM, rfl, hA', hB'⟩ := ih hrest (by simpa using hidx)
      refine ⟨l1 ++ A', M, B', by simpa using hgM, by simp, ?_, by simpa using hB'⟩
      rw [List.take_succ_cons, seqKids_cons_eq_some]
      exact ⟨l1, A', hg, hA', rfl⟩

/-- A well-formed subtree has at least one key. -/
theorem wf_ents_ne : ∀ (f : Nat) {st : Store} {nd : BNode} {l : List (List Nat × List Nat)},
    wfN f st nd = true → entsN f st nd = some l → l ≠ [] := by
  intro f
  induction f with
  | zero => intro st nd l hwf _; rw [wfN] at hwf; exact absurd hwf (by simp)
  | succ f ih =>
    intro st nd l hwf hents
    by_cases hleaf : nd.btype = BN_LEAF
    · rw [wfN, if_pos hleaf, decide_eq_true_eq] at hwf
      rw [entsN, if_pos hleaf] at hents
      cases hents
      simpa using hwf
    · by_cases hnode : nd.btype = BN_NODE
      · rw [wfN, if_neg hleaf, if_pos hnode, Bool.and_eq_true, decide_eq_true_eq] at hwf
        rw [entsN, if_neg hleaf, if_pos hnode] at hents
        obtain ⟨hne, hall⟩ := hwf
        cases hes : nd.entries with
        | nil => exact absurd hes hne
        | cons e es =>
          rw [hes] at hents
          rw [seqKids_cons_eq_some] at hents
          obtain ⟨l1, l2, hg, _, rfl⟩ := hents
          simp only [bind, Option.bind_eq_some] at hg
          obtain ⟨cn, hcn, hents1⟩ := hg
          have he : e ∈ nd.entries := by rw [hes]; simp
          rw [List.all_eq_true] at hall
          have := hall e he
          simp only [hcn, Bool.and_eq_true] at this
          have hl1 : l1 ≠ [] := ih this.1 hents1
          simp [hl1]
      · rw [wfN, if_neg hleaf, if_neg hnode] at hwf
        exact absurd hwf (by simp)

/-- The child of a well-formed internal node: present, well-formed, and its
first key is the stored separator. -/
theorem wf_child {f : Nat} {st : Store} {nd : BNode} {idx : Nat}
    (hleaf : nd.btype ≠ BN_LEAF) (hnode : nd.btype = BN_NODE)
    (hwf : wfN (f + 1) st nd = true) (hidx : idx < nd.entries.length) :
    ∃ cn, stGet st (nd.entries.getD idx defEntry).ptr = some cn ∧
      wfN f st cn = true ∧
      firstKeyN f st (nd.entries.getD idx defEntry).ptr =
        some (nd.entries.getD idx defEntry).key := by
  rw [wfN, if_neg hleaf, if_pos hnode, Bool.and_eq_true] at hwf
  have := all_getD hwf.2 hidx defEntry
  rcases hcn : stGet st (nd.entries.getD idx defEntry).ptr with _ | cn
  · rw [hcn] at this; simp at this
  · rw [hcn] at this
    rw [Bool.and_eq_true, decide_eq_true_eq] at this
    exact ⟨cn, rfl, this.1, this.2⟩

theorem head_key_mem {M : List (List Nat × List Nat)} {s : List Nat}
    (h : M.head?.map Prod.fst = some s) : s ∈ keysOf M := by
  cases M with
  | nil => simp at h
  | cons pr rest =>
    simp only [List.head?_cons, Option.map_some'] at h
    cases h
    simp [keysOf]

/-- Every separator key of a well-formed internal node occurs among the keys
of the flattened child entries. -/
theorem seps_mem (f : Nat) (st : Store) :
    ∀ {es : List Entry} {l : List (List Nat × List Nat)},
    seqKids (fun p => do
      let cn ← stGet st p
      entsN f st cn) es = some l →
    (es.all fun e =>
      match stGet st e.ptr with
      | some cn => wfN f st cn && decide (firstKeyN f st e.ptr = some e.key)
      | none => false) = true →
    ∀ e ∈ es, e.key ∈ keysOf l := by
  intro es
  induction es with
  | nil => intro l _ _ e he; simp at he
  | cons e0 es ih =>
    intro l hseq hall e he
    rw [seqKids_cons_eq_some] at hseq
    obtain ⟨M, rest, hg, hrest, rfl⟩ := hseq
    rw [List.all_cons, Bool.and_eq_true] at hall
    simp only [bind, Option.bind_eq_some] at hg
    obtain ⟨cn, hcn, hM⟩ := hg
    rcases List.mem_cons.mp he with rfl | he'
    · have h0 := hall.1
      simp only [hcn, Bool.and_eq_true, decide_eq_true_eq] at h0
      have hfk : firstKeyN f st e.ptr = some e.key := h0.2
      rw [firstKeyN_eq hcn hM] at hfk
      have : e.key ∈ keysOf M := head_key_mem hfk
      rw [keysOf_append]
      exact List.mem_append_left _ this
    · have := ih hrest hall.2 e he'
      rw [keysOf_append]
      exact List.mem_append_right _ this

/-- The separator keys of a well-formed internal node with globally sorted
flattened keys are themselves strictly increasing. -/
theorem seps_sorted_aux (f : Nat) (st : Store) :
    ∀ {es : List Entry} {l : List (List Nat × List Nat)},
    seqKids (fun p => do
      let cn ← stGet st p
      entsN f st cn) es = some l →
    (es.all fun e =>
      match stGet st e.ptr with
      | some cn => wfN f st cn && decide (firstKeyN f st e.ptr = some e.key)
      | none => false) = true →
    List.Pairwise bLt (keysOf l) →
    List.Pairwise (fun e1 e2 : Entry => bLt e1.key e2.key) es := by
  intro es
  induction es with
  | nil => intro l _ _ _; exact List.Pairwise.nil
  | cons e0 es ih =>
    intro l hseq hall hsort
    rw [seqKids_cons_eq_some] at hseq
    obtain ⟨M, rest, hg, hrest, rfl⟩ := hseq
    rw [List.all_cons, Bool.and_eq_true] at hall
    simp only [bind, Option.bind_eq_some] at hg
    obtain ⟨cn, hcn, hM⟩ := hg
    rw [keysOf_append] at hsort
    rw [List.pairwise_append] at hsort
    refine List.pairwise_cons.mpr ⟨?_, ih hrest hall.2 hsort.2.1⟩
    intro e' he'
    have hsep' : e'.key ∈ keysOf rest := seps_mem f st hrest hall.2 e' he'
    have h0 := hall.1
    simp only [hcn, Bool.and_eq_true, decide_eq_true_eq] at h0
    have hfk : firstKeyN f st e0.ptr = some e0.key := h0.2
    rw [firstKeyN_eq hcn hM] at hfk
    exact hsort.2.2 _ (head_key_mem hfk) _ hsep'

/-- Node-level wrapper for `seps_sorted_aux`. -/
theorem seps_sorted {f : Nat} {st : Store} {nd : BNode} {l : List (List Nat × List Nat)}
    (hleaf : nd.btype ≠ BN_LEAF) (hnode : nd.btype = BN_NODE)
    (hwf : wfN (f + 1) st nd = true) (hents : entsN (f + 1) st nd = some l)
    (hsort : List.Pairwise bLt (keysOf l)) :
    List.Pairwise bLt (nd.entries.map Entry.key) := by
  rw [wfN, if_neg hleaf, if_pos hnode, Bool.and_eq_true] at hwf
  rw [entsN, if_neg hleaf, if_pos hnode] at hents
  rw [List.pairwise_map]
  exact seps_sorted_aux f st hents hwf.2 hsort

theorem pairwise_triple {α : Type} {R : α → α → Prop} {A M B : List α}
    (h : List.Pairwise R (A ++ M ++ B)) :
    List.Pairwise R M ∧ List.Pairwise R (M ++ B) ∧
      (∀ a ∈ A, ∀ x ∈ M ++ B, R a x) ∧ (∀ m ∈ M, ∀ b ∈ B, R m b) := by
  have h1 : List.Pairwise R (A ++ (M ++ B)) := by rwa [List.append_assoc] at h
  rw [List.pairwise_append] at h1
  have h2 := h1.2.1
  rw [List.pairwise_append] at h2
  exact ⟨h2.1, h1.2.1, h1.2.2, h2.2.2⟩

/-- Descending one level: the child chosen by `nodeLookupLE` in a well-formed
sorted internal node carries a contiguous block of the flattened entries; keys
left of the block are below the search key, keys right of it above. -/
theorem descend_decomp {f : Nat} {st : Store} {nd : BNode}
    {l : List (List Nat × List Nat)} {k : List Nat}
    (hleaf : nd.btype ≠ BN_LEAF) (hnode : nd.btype = BN_NODE)
    (hwf : wfN (f + 1) st nd = true) (hents : entsN (f + 1) st nd = some l)
    (hsort : List.Chain' bLt (keysOf l)) :
    ∃ cn A M B,
      stGet st (nd.entries.getD (nodeLookupLE nd k) defEntry).ptr = some cn ∧
      wfN f st cn = true ∧ entsN f st cn = some M ∧
      l = A ++ M ++ B ∧ M ≠ [] ∧
      List.Chain' bLt (keysOf M) ∧
      M.head?.map Prod.fst = some (getKeyD nd (nodeLookupLE nd k)) ∧
      (∀ a ∈ keysOf A, bLt a k) ∧
      (∀ b ∈ keysOf B, bLt k b) ∧
      (nodeLookupLE nd k = 0 → A = []) ∧
      (∀ a ∈ keysOf A, ∀ m ∈ keysOf M ++ keysOf B, bLt a m) ∧
      (∀ m ∈ keysOf M, ∀ b ∈ keysOf B, bLt m b) ∧
      seqKids (fun p => do
        let cn ← stGet st p
        entsN f st cn) (nd.entries.take (nodeLookupLE nd k)) = some A ∧
      seqKids (fun p => do
        let cn ← stGet st p
        entsN f st cn) (nd.entries.drop (nodeLookupLE nd k + 1)) = some B := by
  have hne : nd.entries ≠ [] := by
    rw [wfN, if_neg hleaf, if_pos hnode, Bool.and_eq_true, decide_eq_true_eq] at hwf
    exact hwf.1
  have hn : 1 ≤ nd.entries.length := by
    cases h : nd.entries with
    | nil => exact absurd h hne
    | cons _ _ => simp [h]
  have hidx := @nodeLookupLE_lt nd k hn
  obtain ⟨cn, hcn, hwfc, hfk⟩ := wf_child hleaf hnode hwf hidx
  have hsp : List.Pairwise bLt (keysOf l) := List.chain'_iff_pairwise.mp hsort
  have hseps : List.Pairwise bLt (nd.entries.map Entry.key) :=
    seps_sorted hleaf hnode hwf hents hsp
  rw [entsN, if_neg hleaf, if_pos hnode] at hents
  obtain ⟨A, M, B, hgM, hl, hA, hB⟩ := seqKids_decomp hents hidx
  simp only [bind, Option.bind_eq_some] at hgM
  obtain ⟨cn', hcn', hM⟩ := hgM
  rw [hcn] at hcn'
  cases hcn'
  have hMne : M ≠ [] := wf_ents_ne f hwfc hM
  rw [firstKeyN_eq hcn hM] at hfk
  subst hl
  have hsp' : List.Pairwise bLt (keysOf A ++ keysOf M ++ keysOf B) := by
    rw [← keysOf_append, ← keysOf_append]
    exact hsp
  obtain ⟨pM, pMB, hAx, hMB⟩ := pairwise_triple hsp'
  have hchainM : List.Chain' bLt (keysOf M) := List.chain'_iff_pairwise.mpr pM
  refine ⟨cn, A, M, B, hcn, hwfc, hM, rfl, hMne, hchainM, hfk, ?_, ?_, ?_, hAx, hMB, hA, hB⟩
  · -- keys of A are below k
    intro a ha
    by_cases h0 : nodeLookupLE nd k = 0
    · rw [h0, List.take_zero, seqKids_nil] at hA
      cases hA
      simp [keysOf] at ha
    · have hsepk : bLe (getKeyD nd (nodeLookupLE nd k)) k := nodeLookupLE_le h0
      have hsepM : getKeyD nd (nodeLookupLE nd k) ∈ keysOf M := head_key_mem hfk
      have := hAx a ha _ (List.mem_append_left _ hsepM)
      exact bLt_of_bLt_of_bLe this hsepk
  · -- keys of B are above k
    intro b hb
    by_cases hlast : nodeLookupLE nd k + 1 < nd.entries.length
    · obtain ⟨cn1, hcn1, hwfc1, hfk1⟩ := wf_child hleaf hnode hwf hlast
      rw [drop_eq_getD_cons hlast defEntry, seqKids_cons_eq_some] at hB
      obtain ⟨M1, B2, hg1, hB2, rfl⟩ := hB
      simp only [bind, Option.bind_eq_some] at hg1
      obtain ⟨cn1', hcn1', hM1⟩ := hg1
      rw [hcn1] at hcn1'
      cases hcn1'
      have hM1ne : M1 ≠ [] := wf_ents_ne f hwfc1 hM1
      rw [firstKeyN_eq hcn1 hM1] at hfk1
      have hksep1 : bLt k (getKeyD nd (nodeLookupLE nd k + 1)) :=
        @nodeLookupLE_after nd k hseps (nodeLookupLE nd k + 1)
          (Nat.lt_succ_self _) hlast
      have hhead : (keysOf (M1 ++ B2)).head? = some (getKeyD nd (nodeLookupLE nd k + 1)) := by
        cases M1 with
        | nil => exact absurd rfl hM1ne
        | cons pr rest =>
          simp only [List.head?_cons, Option.map_some'] at hfk1
          simp only [keysOf, List.map_append, List.map_cons, List.cons_append,
            List.head?_cons]
          exact hfk1
      have hpB : List.Pairwise bLt (keysOf (M1 ++ B2)) :=
        pMB.sublist (List.sublist_append_right _ _)
      rcases pairwise_head_rel (R := bLt) hpB hhead b hb with rfl | hrel
      · exact hksep1
      · exact bLt_trans hksep1 hrel
    · have hdrop : nd.entries.drop (nodeLookupLE nd k + 1) = [] :=
        List.drop_eq_nil_of_le (by omega)
      rw [hdrop, seqKids_nil] at hB
      cases hB
      simp [keysOf] at hb
  · intro h0
    rw [h0, List.take_zero, seqKids_nil] at hA
    cases hA
    rfl

theorem pairwise_key_getD {es : List Entry} (hp : List.Pairwise bLt (es.map Entry.key))
    {i j : Nat} (hij : i < j) (hj : j < es.length) :
    bLt (es.getD i defEntry).key (es.getD j defEntry).key := by
  have hi : i < es.length := Nat.lt_trans hij hj
  have h := List.pairwise_iff_getElem.mp hp i j (by simpa using hi) (by simpa using hj) hij
  rw [List.getElem_map, List.getElem_map] at h
  rw [List.getD_eq_getElem _ _ hi, List.getD_eq_getElem _ _ hj]
  exact h

/-- `treeGet` on a well-formed sorted subtree returns exactly the association
lookup of the flattened entries. -/
theorem treeGet_ok : ∀ (f : Nat) {st : Store} {nd : BNode}
    {l : List (List Nat × List Nat)} {k : List Nat},
    wfN f st nd = true → entsN f st nd = some l →
    List.Chain' bLt (keysOf l) →
    treeGet f st nd k = some (lookupKV l k) := by
  intro f
  induction f with
  | zero => intro st nd l k hwf _ _; rw [wfN] at hwf; exact absurd hwf (by simp)
  | succ f ih =>
    intro st nd l k hwf hents hsort
    by_cases hleaf : nd.btype = BN_LEAF
    · rw [entsN, if_pos hleaf] at hents
      cases hents
      rw [treeGet, if_pos hleaf]
      have hkeys : keysOf (nd.entries.map fun e => (e.key, e.val)) =
          nd.entries.map Entry.key := by
        unfold keysOf; rw [List.map_map]; rfl
      have hp : List.Pairwise bLt (nd.entries.map Entry.key) := by
        rw [← hkeys]; exact List.chain'_iff_pairwise.mp hsort
      have hn : 1 ≤ nd.entries.length := by
        rw [wfN, if_pos hleaf, decide_eq_true_eq] at hwf
        cases h : nd.entries with
        | nil => exact absurd h hwf
        | cons _ _ => simp [h]
      have hidx := nodeLookupLE_lt (k := k) hn
      have hmap : (nd.entries.map fun e => (e.key, e.val)).getD (nodeLookupLE nd k) ([], []) =
          (getKeyD nd (nodeLookupLE nd k), getValD nd (nodeLookupLE nd k)) := by
        have := getD_map (fun e : Entry => (e.key, e.val)) nd.entries (nodeLookupLE nd k) defEntry
        simpa [defEntry, getKeyD, getValD] using this
      by_cases hhit : getKeyD nd (nodeLookupLE nd k) = k
      · rw [if_pos hhit]
        have hlen2 : nodeLookupLE nd k < (nd.entries.map fun e => (e.key, e.val)).length := by
          simpa using hidx
        have hlook := lookupKV_getD (k := k)
          (by rw [hkeys]; exact hp) hlen2 (by rw [hmap]; exact hhit)
        rw [hlook, hmap]
      · rw [if_neg hhit]
        have hnm : k ∉ keysOf (nd.entries.map fun e => (e.key, e.val)) := by
          rw [hkeys]
          intro hmem
          obtain ⟨j, hj, hjk⟩ := mem_map_getD hmem
          rcases Nat.lt_trichotomy j (nodeLookupLE nd k) with hcmp | hcmp | hcmp
          · have h0 : nodeLookupLE nd k ≠ 0 := by omega
            have hle := @nodeLookupLE_le nd k h0
            have hjlt := pairwise_key_getD hp hcmp hidx
            rw [hjk] at hjlt
            exact bLt_irrefl k (bLt_of_bLt_of_bLe hjlt hle)
          · rw [hcmp] at hjk; exact hhit hjk
          · have := @nodeLookupLE_after nd k hp j hcmp hj
            unfold getKeyD at this
            rw [hjk] at this
            exact bLt_irrefl k this
        rw [lookupKV_not_mem hnm]
    · by_cases hnode : nd.btype = BN_NODE
      · obtain ⟨cn, A, M, B, hcn, hwfc, hM, hl, hMne, hchainM, hfk, hAk, hBk, hA0, hAx, hMB,
          hAseq, hBseq⟩ := descend_decomp (k := k) hleaf hnode hwf hents hsort
        have hne : nd.entries ≠ [] := by
          rw [wfN, if_neg hleaf, if_pos hnode, Bool.and_eq_true, decide_eq_true_eq] at hwf
          exact hwf.1
        have hn : 1 ≤ nd.entries.length := by
          cases h : nd.entries with
          | nil => exact absurd h hne
          | cons _ _ => simp [h]
        have hidx := nodeLookupLE_lt (k := k) hn
        rw [treeGet, if_neg hleaf, if_pos hnode]
        have hptr : getPtr nd (nodeLookupLE nd k) =
            some (nd.entries.getD (nodeLookupLE nd k) defEntry).ptr := by
          unfold getPtr
          rw [if_pos hidx]
        rw [hptr]
        simp only [bind, Option.some_bind, hcn]
        have hrec := ih (k := k) hwfc hM hchainM
        rw [hrec]
        subst hl
        have h1 : lookupKV (A ++ M ++ B) k = lookupKV (M ++ B) k := by
          rw [List.append_assoc]
          exact lookupKV_append_left (fun a ha => bLt_ne (hAk a ha))
        have h2 : lookupKV (M ++ B) k = lookupKV M k := by
          refine lookupKV_append_right ?_
          intro hmem
          exact bLt_irrefl k (hBk k hmem)
        rw [h1, h2]
      · rw [wfN, if_neg hleaf, if_neg hnode] at hwf
        exact absurd hwf (by simp)

/-! ### Store operation effects -/

theorem lookupP_removeP : ∀ (ps : List (Nat × BNode)) (p q : Nat),
    lookupP (removeP ps p) q = if q = p then none else lookupP ps q := by
  intro ps
  induction ps with
  | nil => intro p q; by_cases h : q = p <;> simp [removeP, lookupP, h]
  | cons kv rest ih =>
    intro p q
    rw [removeP]
    by_cases h1 : kv.1 = p
    · rw [if_pos h1, ih]
      by_cases h2 : q = p
      · rw [if_pos h2, if_pos h2]
      · rw [if_neg h2, if_neg h2, lookupP, if_neg (by rw [h1]; exact fun h => h2 h.symm)]
    · rw [if_neg h1, lookupP, lookupP]
      by_cases h2 : kv.1 = q
      · rw [if_pos h2, if_pos h2, if_neg (by rw [← h2]; exact fun h => h1 h)]
      · rw [if_neg h2, if_neg h2, ih]

theorem stGet_stDel {st : Store} {p : Nat} {st1 : Store} (h : stDel st p = some st1) :
    (∀ q, stGet st1 q = if q = p then none else stGet st q) ∧
    st1.next = st.next ∧ st1.freed = st.freed ++ [p] := by
  unfold stDel at h
  rcases hg : stGet st p with _ | nd
  · rw [hg] at h; cases h
  · rw [hg] at h
    cases h
    refine ⟨?_, rfl, rfl⟩
    intro q
    exact lookupP_removeP st.pages p q

theorem stGet_stNew {st : Store} {nd : BNode} {st1 : Store} {p : Nat}
    (h : stNew st nd = some (st1, p)) :
    p = st.next ∧ st1.next = st.next + 1 ∧ st1.freed = st.freed ∧
    nbytes nd ≤ BT_PAGE_SIZE ∧
    (∀ q, stGet st1 q = if q = st.next then some nd else stGet st q) := by
  unfold stNew at h
  split at h
  · cases h
    refine ⟨rfl, rfl, rfl, by assumption, ?_⟩
    intro q
    show lookupP ((st.next, nd) :: st.pages) q = _
    rw [lookupP]
    by_cases hq : q = st.next
    · subst hq; simp
    · rw [if_neg (fun hh => hq hh.symm), if_neg hq]; rfl
  · cases h

theorem allocKids_spec : ∀ {ks : List BNode} {st st1 : Store} {pks : List (Nat × BNode)},
    allocKids st ks = some (st1, pks) →
    st1.next = st.next + ks.length ∧ pks.map Prod.snd = ks ∧ st1.freed = st.freed ∧
    (∀ q, q < st.next → stGet st1 q = stGet st q) ∧
    (∀ pk ∈ pks, st.next ≤ pk.1 ∧ pk.1 < st1.next ∧ stGet st1 pk.1 = some pk.2 ∧
      nbytes pk.2 ≤ BT_PAGE_SIZE) ∧
    (pks.map Prod.fst).Nodup := by
  intro ks
  induction ks with
  | nil =>
    intro st st1 pks h
    cases h
    exact ⟨by simp, rfl, rfl, fun _ _ => rfl, by simp, by simp⟩
  | cons kd ks ih =>
    intro st st1 pks h
    unfold allocKids at h
    simp only [bind, Option.bind_eq_some, Option.pure_def, Option.some.injEq] at h
    obtain ⟨⟨sta, p⟩, hnew, ⟨stb, rest⟩, hrec, heq⟩ := h
    dsimp only at hnew hrec heq
    cases heq
    obtain ⟨hp, hna, hfa, hsz, hga⟩ := stGet_stNew hnew
    obtain ⟨hnb, hsnd, hfb, hgb, hmem, hnd⟩ := ih hrec
    subst hp
    refine ⟨by rw [hnb, hna]; simp [Nat.add_comm, Nat.add_assoc, Nat.add_left_comm], ?_, ?_, ?_, ?_, ?_⟩
    · simp [hsnd]
    · rw [hfb, hfa]
    · intro q hq
      rw [hgb q (by omega), hga q, if_neg (by omega)]
    · intro pk hpk
      rcases List.mem_cons.mp hpk with rfl | hpk'
      · refine ⟨Nat.le_refl _, by omega, ?_, hsz⟩
        rw [hgb _ (by omega), hga, if_pos rfl]
      · obtain ⟨h1, h2, h3, h4⟩ := hmem pk hpk'
        exact ⟨by omega, by omega, h3, h4⟩
    · rw [List.map_cons, List.nodup_cons]
      refine ⟨?_, hnd⟩
      intro hmem'
      rw [List.mem_map] at hmem'
      obtain ⟨pk, hpk, hpkfst⟩ := hmem'
      have := (hmem pk hpk).1
      omega

/-! ### More `seqKids` plumbing -/

theorem seqKids_append_of {α : Type} {g : Nat → Option (List α)}
    {xs ys : List Entry} {lx ly : List α}
    (hx : seqKids g xs = some lx) (hy : seqKids g ys = some ly) :
    seqKids g (xs ++ ys) = some (lx ++ ly) := by
  induction xs generalizing lx with
  | nil => rw [seqKids_nil] at hx; cases hx; simpa using hy
  | cons e es ih =>
    rw [seqKids_cons_eq_some] at hx
    obtain ⟨l1, l2, hg, hrest, rfl⟩ := hx
    rw [List.cons_append, seqKids_cons_eq_some]
    exact ⟨l1, l2 ++ ly, hg, ih hrest, by simp⟩

theorem seqKids_append_inv {α : Type} {g : Nat → Option (List α)} :
    ∀ {xs ys : List Entry} {l : List α},
    seqKids g (xs ++ ys) = some l →
    ∃ lx ly, seqKids g xs = some lx ∧ seqKids g ys = some ly ∧ l = lx ++ ly := by
  intro xs
  induction xs with
  | nil => intro ys l h; exact ⟨[], l, rfl, by simpa using h, rfl⟩
  | cons e es ih =>
    intro ys l h
    rw [List.cons_append, seqKids_cons_eq_some] at h
    obtain ⟨l1, l2, hg, hrest, rfl⟩ := h
    obtain ⟨lx, ly, hx, hy, rfl⟩ := ih hrest
    refine ⟨l1 ++ lx, ly, ?_, hy, by simp⟩
    rw [seqKids_cons_eq_some]
    exact ⟨l1, lx, hg, hx, rfl⟩

/-! ### Split specification -/

theorem split2Scan_mem (old : BNode) : ∀ (is : List Nat) (acc : Nat × Nat),
    (split2Scan old is acc).1 = acc.1 ∨ (split2Scan old is acc).1 ∈ is := by
  intro is
  induction is with
  | nil => intro acc; exact Or.inl rfl
  | cons i is ih =>
    intro acc
    rw [split2Scan]
    obtain ⟨bIdx, bMax⟩ := acc
    dsimp only
    split
    · rcases ih (bIdx, bMax) with h | h
      · exact Or.inl h
      · exact Or.inr (by simp [h])
    · split
      · rcases ih (i, _) with h | h
        · exact Or.inr (by simp at h ⊢; exact Or.inl h)
        · exact Or.inr (by simp [h])
      · rcases ih (bIdx, bMax) with h | h
        · exact Or.inl h
        · exact Or.inr (by simp [h])

theorem nodeSplit2_spec {old lft rgt : BNode} (h : nodeSplit2 old = some (lft, rgt)) :
    ∃ b, 0 < b ∧ b < old.entries.length ∧
      lft = ⟨old.btype, old.entries.take b⟩ ∧ rgt = ⟨old.btype, old.entries.drop b⟩ := by
  unfold nodeSplit2 at h
  by_cases hl : old.btype = BN_LEAF
  · rw [if_pos hl] at h
    set best := (split2Scan old (List.range' 1 (old.entries.length - 1)) (0, 65535)).1 with hbest
    by_cases hb : best = 0
    · rw [if_pos hb] at h; cases h
    · rw [if_neg hb] at h
      cases h
      rcases split2Scan_mem old (List.range' 1 (old.entries.length - 1)) (0, 65535) with hm | hm
      · rw [← hbest] at hm; exact absurd hm hb
      · rw [← hbest] at hm
        rw [List.mem_range'] at hm
        obtain ⟨i, hi, hbi⟩ := hm
        exact ⟨best, by omega, by omega, rfl, rfl⟩
  · rw [if_neg hl] at h
    split at h <;> cases h

theorem take_ne_nil {α : Type} {l : List α} {b : Nat} (hb : 0 < b) (hl : l ≠ []) :
    l.take b ≠ [] := by
  cases l with
  | nil => exact absurd rfl hl
  | cons x xs => cases b with
    | zero => omega
    | succ b' => simp

theorem drop_ne_nil {α : Type} {l : List α} {b : Nat} (hb : b < l.length) :
    l.drop b ≠ [] := by
  intro h
  have := List.drop_eq_nil_iff.mp h
  omega

theorem nodeSplit3_spec {scr : BNode} {pieces : List BNode}
    (hne : scr.entries ≠ []) (h : nodeSplit3 scr = some pieces) :
    pieces ≠ [] ∧ (pieces.map BNode.entries).flatten = scr.entries ∧
    ∀ pc ∈ pieces, pc.btype = scr.btype ∧ pc.entries ≠ [] := by
  unfold nodeSplit3 at h
  split at h
  · cases h
    refine ⟨by simp, by simp, ?_⟩
    intro pc hpc
    rw [List.mem_singleton] at hpc
    subst hpc
    exact ⟨rfl, hne⟩
  · simp only [bind, Option.bind_eq_some] at h
    obtain ⟨⟨lft, rgt⟩, h2, h3⟩ := h
    obtain ⟨b, hb0, hbn, rfl, rfl⟩ := nodeSplit2_spec h2
    dsimp only at h3
    split at h3
    · cases h3
      refine ⟨by simp, by simp, ?_⟩
      intro pc hpc
      rcases List.mem_cons.mp hpc with rfl | hpc'
      · exact ⟨rfl, take_ne_nil hb0 hne⟩
      · rw [List.mem_singleton] at hpc'
        subst hpc'
        exact ⟨rfl, drop_ne_nil hbn⟩
    · simp only [bind, Option.bind_eq_some] at h3
      obtain ⟨⟨ll, mid⟩, h4, h5⟩ := h3
      obtain ⟨b2, hb20, hb2n, rfl, rfl⟩ := nodeSplit2_spec h4
      dsimp only at h5
      split at h5
      · cases h5
        have htk : (scr.entries.take b).take b2 ++ ((scr.entries.take b).drop b2 ++ scr.entries.drop b) = scr.entries := by
          rw [← List.append_assoc, List.take_append_drop, List.take_append_drop]
        refine ⟨by simp, by simpa using htk, ?_⟩
        intro pc hpc
        rcases List.mem_cons.mp hpc with rfl | hpc'
        · exact ⟨rfl, take_ne_nil hb20 (take_ne_nil hb0 hne)⟩
        · rcases List.mem_cons.mp hpc' with rfl | hpc''
          · exact ⟨rfl, drop_ne_nil hb2n⟩
          · rw [List.mem_singleton] at hpc''
            subst hpc''
            exact ⟨rfl, drop_ne_nil hbn⟩
      · cases h5

/-- The first key of a well-formed subtree is the node's entry-0 key. -/
theorem wf_first_key {f : Nat} {st : Store} {nd : BNode} {l : List (List Nat × List Nat)}
    (hwf : wfN f st nd = true) (hents : entsN f st nd = some l) :
    l.head?.map Prod.fst = some (getKeyD nd 0) := by
  cases f with
  | zero => rw [wfN] at hwf; exact absurd hwf (by simp)
  | succ f =>
    by_cases hleaf : nd.btype = BN_LEAF
    · rw [wfN, if_pos hleaf, decide_eq_true_eq] at hwf
      rw [entsN, if_pos hleaf] at hents
      cases hents
      cases hes : nd.entries with
      | nil => exact absurd hes hwf
      | cons e es => simp [getKeyD, hes]
    · by_cases hnode : nd.btype = BN_NODE
      · rw [wfN, if_neg hleaf, if_pos hnode, Bool.and_eq_true, decide_eq_true_eq] at hwf
        rw [entsN, if_neg hleaf, if_pos hnode] at hents
        obtain ⟨hne, hall⟩ := hwf
        cases hes : nd.entries with
        | nil => exact absurd hes hne
        | cons e es =>
          rw [hes] at hents
          rw [seqKids_cons_eq_some] at hents
          obtain ⟨M0, rest, hg, _, rfl⟩ := hents
          simp only [bind, Option.bind_eq_some] at hg
          obtain ⟨cn, hcn, hM0⟩ := hg
          rw [List.all_eq_true] at hall
          have he := hall e (by rw [hes]; simp)
          simp only [hcn, Bool.and_eq_true, decide_eq_true_eq] at he
          have hfk : firstKeyN f st e.ptr = some e.key := he.2
          rw [firstKeyN_eq hcn hM0] at hfk
          have hM0ne : M0 ≠ [] := wf_ents_ne f he.1 hM0
          cases M0 with
          | nil => exact absurd rfl hM0ne
          | cons pr rest2 =>
            simp only [List.head?_cons, Option.map_some'] at hfk ⊢
            unfold getKeyD
            rw [hes]
            simpa using hfk
      · rw [wfN, if_neg hleaf, if_neg hnode] at hwf
        exact absurd hwf (by simp)

/-! ### Reifying the pieces of a split -/

theorem forall₂_map_self {α β : Type} (f : α → β) (P : α → β → Prop) :
    ∀ (l : List α), (∀ a ∈ l, P a (f a)) → List.Forall₂ P l (l.map f) := by
  intro l
  induction l with
  | nil => intro _; exact List.Forall₂.nil
  | cons x xs ih =>
    intro h
    exact List.Forall₂.cons (h x (by simp)) (ih (fun a ha => h a (by simp [ha])))

theorem segment_reify_node (g : Nat) (st : Store) :
    ∀ (pieces : List BNode) (es : List Entry) (L : List (List Nat × List Nat)) (P : List Nat),
    (pieces.map BNode.entries).flatten = es →
    (∀ pc ∈ pieces, pc.btype = BN_NODE ∧ pc.entries ≠ []) →
    seqKids (fun p => do
      let cn ← stGet st p
      entsN g st cn) es = some L →
    seqKids (fun p => do
      let cn ← stGet st p
      let ps ← pagesN g st cn
      pure (p :: ps)) es = some P →
    (es.all fun e =>
      match stGet st e.ptr with
      | some cn => wfN g st cn && decide (firstKeyN g st e.ptr = some e.key)
      | none => false) = true →
    ∃ LPs : List (List (List Nat × List Nat) × List Nat),
      (LPs.map Prod.fst).flatten = L ∧ (LPs.map Prod.snd).flatten = P ∧
      List.Forall₂ (fun pc lp => wfN (g + 1) st pc = true ∧
        entsN (g + 1) st pc = some lp.1 ∧ pagesN (g + 1) st pc = some lp.2) pieces LPs := by
  intro pieces
  induction pieces with
  | nil =>
    intro es L P hj _ hL hP _
    simp only [List.map_nil, List.flatten_nil] at hj
    subst hj
    rw [seqKids_nil] at hL hP
    cases hL; cases hP
    exact ⟨[], rfl, rfl, List.Forall₂.nil⟩
  | cons pc rest ih =>
    intro es L P hj hty hL hP hall
    simp only [List.map_cons, List.flatten_cons] at hj
    subst hj
    obtain ⟨L1, L2, hL1, hL2, rfl⟩ := seqKids_append_inv hL
    obtain ⟨P1, P2, hP1, hP2, rfl⟩ := seqKids_append_inv hP
    rw [List.all_append, Bool.and_eq_true] at hall
    have hty1 := hty pc (by simp)
    have htyr : ∀ x ∈ rest, x.btype = BN_NODE ∧ x.entries ≠ [] :=
      fun x hx => hty x (by simp [hx])
    obtain ⟨LPs, hLf, hPf, hF⟩ := ih _ L2 P2 rfl htyr hL2 hP2 hall.2
    refine ⟨(L1, P1) :: LPs, by simp [hLf], by simp [hPf], ?_⟩
    refine List.Forall₂.cons ⟨?_, ?_, ?_⟩ hF
    · rw [wfN, if_neg (by rw [hty1.1]; decide), if_pos hty1.1, Bool.and_eq_true,
        decide_eq_true_eq]
      exact ⟨hty1.2, hall.1⟩
    · rw [entsN, if_neg (by rw [hty1.1]; decide), if_pos hty1.1]
      exact hL1
    · rw [pagesN, if_neg (by rw [hty1.1]; decide), if_pos hty1.1]
      exact hP1

theorem segment_reify {g : Nat} {st : Store} {scr : BNode} {pieces : List BNode}
    {L : List (List Nat × List Nat)} {P : List Nat}
    (hwf : wfN (g + 1) st scr = true) (hents : entsN (g + 1) st scr = some L)
    (hpages : pagesN (g + 1) st scr = some P)
    (hjoin : (pieces.map BNode.entries).flatten = scr.entries)
    (hty : ∀ pc ∈ pieces, pc.btype = scr.btype ∧ pc.entries ≠ []) :
    ∃ LPs : List (List (List Nat × List Nat) × List Nat),
      (LPs.map Prod.fst).flatten = L ∧ (LPs.map Prod.snd).flatten = P ∧
      List.Forall₂ (fun pc lp => wfN (g + 1) st pc = true ∧
        entsN (g + 1) st pc = some lp.1 ∧ pagesN (g + 1) st pc = some lp.2) pieces LPs := by
  by_cases hleaf : scr.btype = BN_LEAF
  · rw [entsN, if_pos hleaf] at hents
    rw [pagesN, if_pos hleaf] at hpages
    cases hents
    cases hpages
    refine ⟨pieces.map (fun pc => (pc.entries.map (fun e => (e.key, e.val)), [])), ?_, ?_, ?_⟩
    · rw [← hjoin, List.map_flatten, List.map_map, List.map_map]
      rfl
    · rw [List.map_map]
      rw [show (Prod.snd ∘ fun pc : BNode =>
          (pc.entries.map (fun e => (e.key, e.val)), ([] : List Nat))) =
          (fun _ => ([] : List Nat)) from rfl]
      rw [List.flatten_eq_nil_iff]
      intro x hx
      rw [List.mem_map] at hx
      obtain ⟨_, _, h⟩ := hx
      exact h.symm
    · refine forall₂_map_self _ _ _ ?_
      intro pc hpc
      obtain ⟨hpt, hpe⟩ := hty pc hpc
      have hptl : pc.btype = BN_LEAF := hpt.trans hleaf
      refine ⟨?_, ?_, ?_⟩
      · rw [wfN, if_pos hptl, decide_eq_true_eq]; exact hpe
      · rw [entsN, if_pos hptl]
      · rw [pagesN, if_pos hptl]
  · by_cases hnode : scr.btype = BN_NODE
    · rw [entsN, if_neg hleaf, if_pos hnode] at hents
      rw [pagesN, if_neg hleaf, if_pos hnode] at hpages
      rw [wfN, if_neg hleaf, if_pos hnode, Bool.and_eq_true] at hwf
      exact segment_reify_node g st pieces scr.entries L P hjoin
        (fun pc hpc => ⟨(hty pc hpc).1.trans hnode, (hty pc hpc).2⟩) hents hpages hwf.2
    · rw [wfN, if_neg hleaf, if_neg hnode] at hwf
      exact absurd hwf (by simp)

/-- Reifying the freshly allocated children spliced in by `nodeReplaceKidN`. -/
theorem newkids_reify (g : Nat) (st' : Store) :
    ∀ (pks : List (Nat × BNode)) (LPs : List (List (List Nat × List Nat) × List Nat)),
    List.Forall₂ (fun pc lp => wfN g st' pc = true ∧
      entsN g st' pc = some lp.1 ∧ pagesN g st' pc = some lp.2) (pks.map Prod.snd) LPs →
    (∀ pk ∈ pks, stGet st' pk.1 = some pk.2) →
    seqKids (fun p => do
      let cn ← stGet st' p
      entsN g st' cn) (pks.map (fun pk => Entry.mk pk.1 (getKeyD pk.2 0) [])) =
        some (LPs.map Prod.fst).flatten ∧
    seqKids (fun p => do
      let cn ← stGet st' p
      let ps ← pagesN g st' cn
      pure (p :: ps)) (pks.map (fun pk => Entry.mk pk.1 (getKeyD pk.2 0) [])) =
        some (List.zipWith (fun (pk : Nat × BNode) lp => pk.1 :: lp.2) pks LPs).flatten ∧
    ((pks.map (fun pk => Entry.mk pk.1 (getKeyD pk.2 0) [])).all fun e =>
      match stGet st' e.ptr with
      | some cn => wfN g st' cn && decide (firstKeyN g st' e.ptr = some e.key)
      | none => false) = true := by
  intro pks
  induction pks with
  | nil =>
    intro LPs hF _
    rw [List.map_nil] at hF
    cases hF
    exact ⟨rfl, rfl, rfl⟩
  | cons pk pks ih =>
    intro LPs hF hget
    rw [List.map_cons] at hF
    cases hF with
    | cons hhead htail =>
      rename_i lp LPs'
      obtain ⟨hwfp, hentsp, hpagesp⟩ := hhead
      have hg := hget pk (by simp)
      obtain ⟨ihE, ihP, ihW⟩ := ih LPs' htail (fun x hx => hget x (by simp [hx]))
      refine ⟨?_, ?_, ?_⟩
      · rw [List.map_cons, seqKids_cons_eq_some]
        refine ⟨lp.1, (LPs'.map Prod.fst).flatten, ?_, ihE, by simp⟩
        simp only [bind, Option.bind_eq_some]
        exact ⟨pk.2, hg, hentsp⟩
      · rw [List.map_cons, seqKids_cons_eq_some]
        refine ⟨pk.1 :: lp.2, _, ?_, ihP, by simp⟩
        simp only [bind, Option.bind_eq_some, Option.pure_def, Option.some.injEq]
        exact ⟨pk.2, hg, lp.2, hpagesp, rfl⟩
      · rw [List.map_cons, List.all_cons, Bool.and_eq_true]
        refine ⟨?_, ihW⟩
        simp only [hg, Bool.and_eq_true, decide_eq_true_eq]
        refine ⟨hwfp, ?_⟩
        rw [firstKeyN_eq hg hentsp]
        exact wf_first_key hwfp hentsp

theorem keysOf_head (l : List (List Nat × List Nat)) :
    (keysOf l).head? = l.head?.map Prod.fst := by
  cases l <;> rfl

theorem take_getD_drop {α : Type} {l : List α} {i : Nat} (h : i < l.length) (d : α) :
    l = l.take i ++ l.getD i d :: l.drop (i + 1) := by
  conv_lhs => rw [← List.take_append_drop i l]
  rw [drop_eq_getD_cons h d]

theorem zipflat_facts :
    ∀ (pks : List (Nat × BNode)) (LPs : List (List (List Nat × List Nat) × List Nat)),
    pks.length = LPs.length →
    (pks.map Prod.fst).Nodup →
    ((LPs.map Prod.snd).flatten).Nodup →
    (∀ p ∈ pks.map Prod.fst, p ∉ (LPs.map Prod.snd).flatten) →
    (List.zipWith (fun (pk : Nat × BNode) lp => pk.1 :: lp.2) pks LPs).flatten.Nodup ∧
    (∀ q ∈ (List.zipWith (fun (pk : Nat × BNode) lp => pk.1 :: lp.2) pks LPs).flatten,
      q ∈ pks.map Prod.fst ∨ q ∈ (LPs.map Prod.snd).flatten) := by
  intro pks
  induction pks with
  | nil => intro LPs _ _ _ _; simp
  | cons pk pks ih =>
    intro LPs hlen hhead hflat hdisj
    cases LPs with
    | nil => simp at hlen
    | cons lp LPs' =>
      rw [List.map_cons, List.flatten_cons, List.nodup_append] at hflat
      rw [List.map_cons, List.nodup_cons] at hhead
      obtain ⟨hihN, hihM⟩ := ih LPs' (by simpa using hlen) hhead.2 hflat.2.1
        (fun p hp hmem => hdisj p (by simp [hp]) (by simp [hmem]))
      constructor
      · rw [List.zipWith_cons_cons, List.flatten_cons, List.nodup_append]
        refine ⟨?_, hihN, ?_⟩
        · rw [List.nodup_cons]
          refine ⟨?_, hflat.1⟩
          intro hmem
          exact hdisj pk.1 (by simp) (by simp [hmem])
        · intro q hq hq'
          rcases List.mem_cons.mp hq with heq | hq2
          · rcases hihM q hq' with hm | hm
            · rw [heq] at hm; exact hhead.1 hm
            · rw [heq] at hm; exact hdisj pk.1 (by simp) (by simp [hm])
          · rcases hihM q hq' with hm | hm
            · exact hdisj q (by simp [hm]) (by simp [hq2])
            · exact hflat.2.2 hq2 hm
      · intro q hq
        rw [List.zipWith_cons_cons, List.flatten_cons, List.mem_append] at hq
        rcases hq with hq | hq
        · rcases List.mem_cons.mp hq with heq | hq2
          · exact Or.inl (by simp [heq])
          · exact Or.inr (by simp [hq2])
        · rcases hihM q hq with hm | hm
          · exact Or.inl (by simp [hm])
          · exact Or.inr (by simp [hm])

theorem wf_node_ne {f : Nat} {st : Store} {nd : BNode} (h : wfN (f + 1) st nd = true) :
    nd.entries ≠ [] := by
  rw [wfN] at h
  by_cases hleaf : nd.btype = BN_LEAF
  · rw [if_pos hleaf, decide_eq_true_eq] at h; exact h
  · by_cases hnode : nd.btype = BN_NODE
    · rw [if_neg hleaf, if_pos hnode, Bool.and_eq_true, decide_eq_true_eq] at h
      exact h.1
    · rw [if_neg hleaf, if_neg hnode] at h
      exact absurd h (by simp)

theorem forall₂_mem_imp {α β : Type} {R S : α → β → Prop} :
    ∀ {l₁ : List α} {l₂ : List β}, List.Forall₂ R l₁ l₂ →
    (∀ a b, a ∈ l₁ → b ∈ l₂ → R a b → S a b) → List.Forall₂ S l₁ l₂ := by
  intro l₁
  induction l₁ with
  | nil => intro l₂ h _; cases h; exact List.Forall₂.nil
  | cons a as ih =>
    intro l₂ h himp
    cases h with
    | cons hab htail =>
      rename_i b bs
      exact List.Forall₂.cons (himp a b (by simp) (by simp) hab)
        (ih htail (fun x y hx hy => himp x y (by simp [hx]) (by simp [hy])))

theorem keysOf_map_kv (es : List Entry) :
    keysOf (es.map fun e => (e.key, e.val)) = es.map Entry.key := by
  unfold keysOf
  rw [List.map_map]
  rfl

theorem entsN_node (f : Nat) (st : Store) (es : List Entry) :
    entsN (f + 1) st ⟨BN_NODE, es⟩ =
      seqKids (fun p => do
        let cn ← stGet st p
        entsN f st cn) es := rfl

theorem pagesN_node (f : Nat) (st : Store) (es : List Entry) :
    pagesN (f + 1) st ⟨BN_NODE, es⟩ =
      seqKids (fun p => do
        let cn ← stGet st p
        let ps ← pagesN f st cn
        pure (p :: ps)) es := rfl

theorem wfN_node (f : Nat) (st : Store) (es : List Entry) :
    wfN (f + 1) st ⟨BN_NODE, es⟩ =
      (decide (es ≠ []) &&
      es.all (fun e =>
        match stGet st e.ptr with
        | some cn => wfN f st cn && decide (firstKeyN f st e.ptr = some e.key)
        | none => false)) := rfl

theorem entsN_leaf (f : Nat) (st : Store) (es : List Entry) :
    entsN (f + 1) st ⟨BN_LEAF, es⟩ = some (es.map fun e => (e.key, e.val)) := rfl

theorem pagesN_leaf (f : Nat) (st : Store) (es : List Entry) :
    pagesN (f + 1) st ⟨BN_LEAF, es⟩ = some [] := rfl

theorem wfN_leaf (f : Nat) (st : Store) (es : List Entry) :
    wfN (f + 1) st ⟨BN_LEAF, es⟩ = decide (es ≠ []) := rfl

theorem mem_map_key_take {es : List Entry} {n : Nat} {a : List Nat}
    (h : a ∈ (es.take n).map Entry.key) :
    ∃ j, j < n ∧ j < es.length ∧ (es.getD j defEntry).key = a := by
  rw [List.mem_map] at h
  obtain ⟨e, he, rfl⟩ := h
  rw [List.mem_iff_getElem] at he
  obtain ⟨j, hj, hje⟩ := he
  have hj' : j < n ∧ j < es.length := by
    rw [List.length_take, Nat.lt_min] at hj
    exact hj
  refine ⟨j, hj'.1, hj'.2, ?_⟩
  rw [List.getD_eq_getElem _ _ hj'.2]
  rw [List.getElem_take] at hje
  rw [hje]

theorem mem_map_key_drop {es : List Entry} {n : Nat} {a : List Nat}
    (h : a ∈ (es.drop n).map Entry.key) :
    ∃ j, n ≤ j ∧ j < es.length ∧ (es.getD j defEntry).key = a := by
  rw [List.mem_map] at h
  obtain ⟨e, he, rfl⟩ := h
  rw [List.mem_iff_getElem] at he
  obtain ⟨j, hj, hje⟩ := he
  have hjl : n + j < es.length := by
    rw [List.length_drop] at hj
    omega
  refine ⟨n + j, by omega, hjl, ?_⟩
  rw [List.getD_eq_getElem _ _ hjl]
  rw [List.getElem_drop] at hje
  rw [hje]

/-- Simulation of `treeInsert` against the abstract sorted-map insert: on a
well-formed sorted subtree whose first key is at most the inserted key, the
scratch node returned by `treeInsert` reifies to `kvIns` of the old entries,
the allocation counter only grows, pages outside the subtree are untouched,
and the new subtree's pages are either old subtree pages or fresh ones. -/
theorem treeInsert_sim : ∀ (F : Nat) {f : Nat} {st : Store} {nd : BNode} {k v : List Nat}
    {st' : Store} {sc : BNode} {l : List (List Nat × List Nat)} {ps : List Nat},
    treeInsert F st nd k v = some (st', sc) →
    wfN f st nd = true →
    entsN f st nd = some l →
    pagesN f st nd = some ps →
    List.Chain' bLt (keysOf l) →
    (∀ h0 ∈ (keysOf l).head?, bLe h0 k) →
    ps.Nodup →
    (∀ p ∈ ps, p < st.next) →
    ∃ ps',
      wfN (f + 1) st' sc = true ∧
      entsN (f + 1) st' sc = some (kvIns l k v) ∧
      pagesN (f + 1) st' sc = some ps' ∧
      st.next ≤ st'.next ∧
      (∀ p, p < st.next → p ∉ ps → stGet st' p = stGet st p) ∧
      (∀ p ∈ ps', p ∈ ps ∨ (st.next ≤ p ∧ p < st'.next)) ∧
      ps'.Nodup := by
  intro F
  induction F with
  | zero =>
    intro f st nd k v st' sc l ps hins _ _ _ _ _ _ _
    rw [treeInsert] at hins
    exact Option.noConfusion hins
  | succ F ih =>
    intro f st nd k v st' sc l ps hins hwf hents hpages hsort hhead hnd hlt
    cases f with
    | zero =>
      rw [entsN] at hents
      exact Option.noConfusion hents
    | succ f =>
    unfold treeInsert at hins
    by_cases hleaf : nd.btype = BN_LEAF
    · -- leaf: leafUpdate on a hit, leafInsert after the found slot on a miss
      rw [if_pos hleaf] at hins
      rw [entsN, if_pos hleaf] at hents
      rw [pagesN, if_pos hleaf] at hpages
      rw [wfN, if_pos hleaf, decide_eq_true_eq] at hwf
      cases hents
      cases hpages
      have hidx : nodeLookupLE nd k < nd.entries.length :=
        nodeLookupLE_lt (List.length_pos.mpr hwf)
      have hpw : List.Pairwise bLt (nd.entries.map Entry.key) := by
        have h := List.chain'_iff_pairwise.mp hsort
        rwa [keysOf_map_kv] at h
      have hBgt : ∀ b ∈ (nd.entries.drop (nodeLookupLE nd k + 1)).map Entry.key, bLt k b := by
        intro b hb
        obtain ⟨j, hj1, hj2, hj3⟩ := mem_map_key_drop hb
        have h := nodeLookupLE_after (k := k) hpw j (by omega) hj2
        rw [getKeyD] at h
        rw [← hj3]
        exact h
      by_cases heq : getKeyD nd (nodeLookupLE nd k) = k
      · rw [if_pos heq] at hins
        cases hins
        have hsplit := take_getD_drop hidx defEntry
        have hAlt : ∀ a ∈ (nd.entries.take (nodeLookupLE nd k)).map Entry.key, bLt a k := by
          intro a ha
          obtain ⟨j, hj1, hj2, hj3⟩ := mem_map_key_take ha
          have h := pairwise_key_getD hpw hj1 hidx
          rw [hj3] at h
          rw [getKeyD] at heq
          rw [heq] at h
          exact h
        have hkv : kvIns (nd.entries.map fun e => (e.key, e.val)) k v =
            ((nd.entries.take (nodeLookupLE nd k)).map fun e => (e.key, e.val)) ++ (k, v) ::
            ((nd.entries.drop (nodeLookupLE nd k + 1)).map fun e => (e.key, e.val)) := by
          conv_lhs => rw [hsplit]
          rw [List.map_append, List.map_cons]
          rw [kvIns_append_left (by rw [keysOf_map_kv]; exact hAlt)]
          rw [getKeyD] at heq
          rw [heq]
          rw [kvIns, if_neg (bLt_irrefl k), if_pos rfl]
        refine ⟨[], ?_, ?_, ?_, Nat.le_refl _, fun p _ _ => rfl, by simp, List.nodup_nil⟩
        · simp only [leafUpdate]
          rw [wfN_leaf, decide_eq_true_eq]
          simp
        · simp only [leafUpdate]
          rw [entsN_leaf, hkv]
          rw [List.map_append, List.map_cons]
        · simp only [leafUpdate]
          rw [pagesN_leaf]
      · rw [if_neg heq] at hins
        cases hins
        have hsk : bLt (getKeyD nd (nodeLookupLE nd k)) k := by
          by_cases h0 : nodeLookupLE nd k = 0
          · have hh0 : (keysOf (nd.entries.map fun e => (e.key, e.val))).head? =
                some (getKeyD nd 0) := by
              rw [keysOf_map_kv]
              cases hes : nd.entries with
              | nil => exact absurd hes hwf
              | cons e es => simp [getKeyD, hes]
            have hle := hhead (getKeyD nd 0) (by rw [hh0]; rfl)
            rw [h0]
            exact bLt_of_bLe_of_ne hle (by rw [← h0]; exact heq)
          · exact bLt_of_bLe_of_ne (nodeLookupLE_le h0) heq
        have hA'lt : ∀ a ∈ (nd.entries.take (nodeLookupLE nd k + 1)).map Entry.key, bLt a k := by
          intro a ha
          obtain ⟨j, hj1, hj2, hj3⟩ := mem_map_key_take ha
          rcases Nat.lt_or_ge j (nodeLookupLE nd k) with hji | hji
          · have h := pairwise_key_getD hpw hji hidx
            rw [hj3] at h
            exact bLt_trans h hsk
          · have hje : j = nodeLookupLE nd k := by omega
            subst hje
            rw [← hj3]
            exact hsk
        have hkv : kvIns (nd.entries.map fun e => (e.key, e.val)) k v =
            ((nd.entries.take (nodeLookupLE nd k + 1)).map fun e => (e.key, e.val)) ++ (k, v) ::
            ((nd.entries.drop (nodeLookupLE nd k + 1)).map fun e => (e.key, e.val)) := by
          conv_lhs => rw [← List.take_append_drop (nodeLookupLE nd k + 1) nd.entries]
          rw [List.map_append]
          rw [kvIns_append_left (by rw [keysOf_map_kv]; exact hA'lt)]
          rw [kvIns_front (by rw [keysOf_map_kv]; exact hBgt)]
        refine ⟨[], ?_, ?_, ?_, Nat.le_refl _, fun p _ _ => rfl, by simp, List.nodup_nil⟩
        · simp only [leafInsert]
          rw [wfN_leaf, decide_eq_true_eq]
          simp
        · simp only [leafInsert]
          rw [entsN_leaf, hkv]
          rw [List.map_append, List.map_cons]
        · simp only [leafInsert]
          rw [pagesN_leaf]
    · by_cases hnode : nd.btype = BN_NODE
      · -- internal node: recurse, split, release the old child, splice pieces
        rw [if_neg hleaf, if_pos hnode] at hins
        simp only [bind, Option.bind_eq_some, Option.pure_def, Option.some.injEq] at hins
        obtain ⟨kptr, hk, kn, hkn, ⟨st1, scr⟩, hrec, pieces, hsp3, st2, hdel, hrepl⟩ := hins
        dsimp only at hrec hsp3 hdel hrepl
        unfold nodeReplaceKidN at hrepl
        simp only [bind, Option.bind_eq_some, Option.pure_def, Option.some.injEq] at hrepl
        obtain ⟨⟨st3, pks⟩, halloc, heqr⟩ := hrepl
        dsimp only at halloc heqr
        injection heqr with heq1 heq2
        subst heq1
        subst heq2
        have hne : nd.entries ≠ [] := wf_node_ne hwf
        have hidxlen : nodeLookupLE nd k < nd.entries.length :=
          nodeLookupLE_lt (List.length_pos.mpr hne)
        unfold getPtr at hk
        rw [if_pos hidxlen] at hk
        injection hk with hkptr
        obtain ⟨cn, A, M, B, hcn, hwfc, hM, hlABM, hMne, hchainM, hfkM, hAk, hBk, hA0,
          hAX, hMB, hAseq, hBseq⟩ :=
          descend_decomp (f := f) (k := k) hleaf hnode hwf hents hsort
        rw [hkptr] at hcn
        rw [hkn] at hcn
        injection hcn with hcneq
        subst hcneq
        have hpage1 : seqKids (fun p => do
            let cn ← stGet st p
            let ps ← pagesN f st cn
            pure (p :: ps)) nd.entries = some ps := by
          rw [pagesN, if_neg hleaf, if_pos hnode] at hpages
          exact hpages
        obtain ⟨PA, MP, PB, hgMP, hpsplit, hPA, hPB⟩ := seqKids_decomp hpage1 hidxlen
        simp only [bind, Option.bind_eq_some, Option.pure_def, Option.some.injEq] at hgMP
        obtain ⟨cn2, hcn2, psc, hpsc, hMPeq⟩ := hgMP
        rw [hkptr] at hcn2
        rw [hkn] at hcn2
        injection hcn2 with hcn2eq
        subst hcn2eq
        rw [hkptr] at hMPeq
        cases hMPeq
        have hndfull := hnd
        rw [hpsplit, List.nodup_append, List.nodup_append, List.nodup_cons] at hndfull
        obtain ⟨⟨hndPA, ⟨hknpsc, hndpsc⟩, hdisjPAM⟩, hndPB, hdisjAMB⟩ := hndfull
        have hkp_ps : kptr ∈ ps := by
          rw [hpsplit]
          exact List.mem_append_left _ (List.mem_append_right _ (List.mem_cons_self _ _))
        have hkplt : kptr < st.next := hlt _ hkp_ps
        have hpsclt : ∀ p ∈ psc, p < st.next := fun p hp =>
          hlt p (by
            rw [hpsplit]
            exact List.mem_append_left _ (List.mem_append_right _ (List.mem_cons_of_mem _ hp)))
        have hMhead : ∀ h0 ∈ (keysOf M).head?, bLe h0 k := by
          intro h0 hh0
          rw [keysOf_head, hfkM] at hh0
          have hh0' : getKeyD nd (nodeLookupLE nd k) = h0 := by simpa using hh0
          subst hh0'
          by_cases h0i : nodeLookupLE nd k = 0
          · have hA' := hA0 h0i
            subst hA'
            simp only [List.nil_append] at hlABM
            have hKM : keysOf M ≠ [] := by
              simpa [keysOf] using hMne
            have hh : (keysOf l).head? = some (getKeyD nd (nodeLookupLE nd k)) := by
              rw [hlABM, keysOf_append, head?_append_of_ne hKM, keysOf_head, hfkM]
            exact hhead _ (by rw [hh]; rfl)
          · exact nodeLookupLE_le h0i
        obtain ⟨psc', hwf1, hents1, hpages1, hnext1, hframe1, hmem1, hnd1⟩ :=
          ih hrec hwfc hM hpsc hchainM hMhead hndpsc hpsclt
        obtain ⟨hpne, hjoin, hty⟩ := nodeSplit3_spec (wf_node_ne hwf1) hsp3
        obtain ⟨LPs, hLflat, hPflat, hF2⟩ := segment_reify hwf1 hents1 hpages1 hjoin hty
        obtain ⟨hget2, hnext2, hfr2⟩ := stGet_stDel hdel
        have hpsclt' : ∀ p ∈ psc', p < st1.next := by
          intro p hp
          rcases hmem1 p hp with h | h
          · have := hpsclt p h
            omega
          · omega
        have hkp_nin : kptr ∉ psc' := by
          intro hin
          rcases hmem1 kptr hin with h | h
          · exact hknpsc h
          · omega
        have hagree12 : ∀ p ∈ psc', stGet st2 p = stGet st1 p := by
          intro p hp
          have hpne' : p ≠ kptr := by
            intro h
            subst h
            exact hkp_nin hp
          rw [hget2 p, if_neg hpne']
        have hF3 : List.Forall₂ (fun pc lp => wfN (f + 1) st2 pc = true ∧
            entsN (f + 1) st2 pc = some lp.1 ∧ pagesN (f + 1) st2 pc = some lp.2) pieces LPs := by
          refine forall₂_mem_imp hF2 ?_
          intro pc lp _ hlp hR
          obtain ⟨hw, he, hp⟩ := hR
          have hsub : ∀ p ∈ lp.2, stGet st2 p = stGet st1 p := by
            intro p hpmem
            refine hagree12 p ?_
            rw [← hPflat]
            exact List.mem_flatten.mpr ⟨lp.2, List.mem_map_of_mem _ hlp, hpmem⟩
          obtain ⟨he2, hp2, hw2⟩ := reify_frame (f + 1) he hp hsub
          exact ⟨hw2 hw, he2, hp2⟩
        obtain ⟨hnext3, hsnd, hfr3, hget3, hmem3, hndpks⟩ := allocKids_spec halloc
        have hagree23 : ∀ p ∈ psc', stGet st3 p = stGet st2 p := by
          intro p hp
          refine hget3 p ?_
          have := hpsclt' p hp
          omega
        have hF4 : List.Forall₂ (fun pc lp => wfN (f + 1) st3 pc = true ∧
            entsN (f + 1) st3 pc = some lp.1 ∧ pagesN (f + 1) st3 pc = some lp.2) pieces LPs := by
          refine forall₂_mem_imp hF3 ?_
          intro pc lp _ hlp hR
          obtain ⟨hw, he, hp⟩ := hR
          have hsub : ∀ p ∈ lp.2, stGet st3 p = stGet st2 p := by
            intro p hpmem
            refine hagree23 p ?_
            rw [← hPflat]
            exact List.mem_flatten.mpr ⟨lp.2, List.mem_map_of_mem _ hlp, hpmem⟩
          obtain ⟨he2, hp2, hw2⟩ := reify_frame (f + 1) he hp hsub
          exact ⟨hw2 hw, he2, hp2⟩
        rw [← hsnd] at hF4
        obtain ⟨hNE, hNP, hNW⟩ := newkids_reify (f + 1) st3 pks LPs hF4
          (fun pk hpk => (hmem3 pk hpk).2.2.1)
        have hwf' := hwf
        rw [wfN, if_neg hleaf, if_pos hnode, Bool.and_eq_true] at hwf'
        have hallP : ∀ es' : List Entry, (∀ e ∈ es', e ∈ nd.entries) → (es'.all (fun e =>
            match stGet st e.ptr with
            | some cn => wfN f st cn && decide (firstKeyN f st e.ptr = some e.key)
            | none => false)) = true := by
          intro es' hsub
          rw [List.all_eq_true]
          intro e he
          exact List.all_eq_true.mp hwf'.2 e (hsub e he)
        have hagreeOld : ∀ p, p ∈ PA ∨ p ∈ PB → stGet st3 p = stGet st p := by
          intro p hp
          have hplt : p < st.next := by
            refine hlt p ?_
            rw [hpsplit]
            rcases hp with h | h
            · exact List.mem_append_left _ (List.mem_append_left _ h)
            · exact List.mem_append_right _ h
          have hpnpsc : p ∉ psc := by
            intro hpp
            rcases hp with h | h
            · exact hdisjPAM h (List.mem_cons_of_mem _ hpp)
            · exact hdisjAMB (List.mem_append_right _ (List.mem_cons_of_mem _ hpp)) h
          have hpnk : p ≠ kptr := by
            intro hpe
            subst hpe
            rcases hp with h | h
            · exact hdisjPAM h (List.mem_cons_self _ _)
            · exact hdisjAMB (List.mem_append_right _ (List.mem_cons_self _ _)) h
          rw [hget3 p (by omega), hget2 p, if_neg hpnk, hframe1 p hplt hpnpsc]
        obtain ⟨hAseq3, hPA3, hallA3⟩ := frame_kids f st st3
          (fun {nd l ps} h1 h2 h3 => reify_frame f h1 h2 h3)
          (nd.entries.take (nodeLookupLE nd k)) A PA hAseq hPA
          (fun p hp => hagreeOld p (Or.inl hp))
        obtain ⟨hBseq3, hPB3, hallB3⟩ := frame_kids f st st3
          (fun {nd l ps} h1 h2 h3 => reify_frame f h1 h2 h3)
          (nd.entries.drop (nodeLookupLE nd k + 1)) B PB hBseq hPB
          (fun p hp => hagreeOld p (Or.inr hp))
        obtain ⟨hAseq4, hPA4, hallA4⟩ := mono_kids f st3
          (fun {nd l ps} h1 h2 => reify_mono_succ f h1 h2)
          (nd.entries.take (nodeLookupLE nd k)) A PA hAseq3 hPA3
        obtain ⟨hBseq4, hPB4, hallB4⟩ := mono_kids f st3
          (fun {nd l ps} h1 h2 => reify_mono_succ f h1 h2)
          (nd.entries.drop (nodeLookupLE nd k + 1)) B PB hBseq3 hPB3
        have hallA5 := hallA4 (hallA3 (hallP _ (fun e he => List.mem_of_mem_take he)))
        have hallB5 := hallB4 (hallB3 (hallP _ (fun e he => List.mem_of_mem_drop he)))
        have hpksne : pks ≠ [] := by
          intro h
          rw [h] at hsnd
          exact hpne (by simpa using hsnd.symm)
        have hlenpks : pks.length = LPs.length := by
          have h := List.Forall₂.length_eq hF4
          rwa [List.length_map] at h
        have hheadsfresh : ∀ q ∈ pks.map Prod.fst, st2.next ≤ q ∧ q < st3.next := by
          intro q hq
          rw [List.mem_map] at hq
          obtain ⟨pk, hpk, rfl⟩ := hq
          exact ⟨(hmem3 pk hpk).1, (hmem3 pk hpk).2.1⟩
        obtain ⟨hNKnd, hNKmem⟩ := zipflat_facts pks LPs hlenpks hndpks
          (by rw [hPflat]; exact hnd1)
          (by
            intro p hp hmem
            rw [hPflat] at hmem
            have h1 := (hheadsfresh p hp).1
            have h2 := hpsclt' p hmem
            omega)
        have hNKlow : ∀ q ∈ (List.zipWith (fun (pk : Nat × BNode) lp => pk.1 :: lp.2) pks LPs).flatten,
            q < st.next → q ∈ psc := by
          intro q hq hlow
          rcases hNKmem q hq with h | h
          · have := hheadsfresh q h
            omega
          · rw [hPflat] at h
            rcases hmem1 q h with h2 | h2
            · exact h2
            · omega
        have hmemconc : ∀ p ∈ PA ++ (List.zipWith (fun (pk : Nat × BNode) lp => pk.1 :: lp.2) pks LPs).flatten ++ PB,
            p ∈ ps ∨ (st.next ≤ p ∧ p < st3.next) := by
          intro p hp
          rcases List.mem_append.mp hp with hp1 | hp1
          · rcases List.mem_append.mp hp1 with hp2 | hp2
            · left
              rw [hpsplit]
              exact List.mem_append_left _ (List.mem_append_left _ hp2)
            · rcases hNKmem p hp2 with h | h
              · have := hheadsfresh p h
                right
                omega
              · rw [hPflat] at h
                rcases hmem1 p h with h2 | h2
                · left
                  rw [hpsplit]
                  exact List.mem_append_left _ (List.mem_append_right _ (List.mem_cons_of_mem _ h2))
                · right
                  omega
          · left
            rw [hpsplit]
            exact List.mem_append_right _ hp1
        have hndps' : (PA ++ (List.zipWith (fun (pk : Nat × BNode) lp => pk.1 :: lp.2) pks LPs).flatten ++ PB).Nodup := by
          rw [List.nodup_append, List.nodup_append]
          refine ⟨⟨hndPA, hNKnd, ?_⟩, hndPB, ?_⟩
          · intro q hqa hqn
            have hqlow : q < st.next := hlt q (by
              rw [hpsplit]
              exact List.mem_append_left _ (List.mem_append_left _ hqa))
            exact hdisjPAM hqa (List.mem_cons_of_mem _ (hNKlow q hqn hqlow))
          · intro q hqan hqb
            have hqblow : q < st.next := hlt q (by
              rw [hpsplit]
              exact List.mem_append_right _ hqb)
            rcases List.mem_append.mp hqan with hqa | hqn
            · exact hdisjAMB (List.mem_append_left _ hqa) hqb
            · exact hdisjAMB
                (List.mem_append_right _ (List.mem_cons_of_mem _ (hNKlow q hqn hqblow))) hqb
        have hEne : nd.entries.take (nodeLookupLE nd k) ++
            pks.map (fun pk => Entry.mk pk.1 (getKeyD pk.2 0) []) ++
            nd.entries.drop (nodeLookupLE nd k + 1) ≠ [] := by
          intro hE
          rw [List.append_eq_nil, List.append_eq_nil] at hE
          exact hpksne (List.map_eq_nil_iff.mp hE.1.2)
        have hframe : ∀ p, p < st.next → p ∉ ps → stGet st3 p = stGet st p := by
          intro p h1 h2
          have hpnpsc : p ∉ psc := fun hp => h2 (by
            rw [hpsplit]
            exact List.mem_append_left _ (List.mem_append_right _ (List.mem_cons_of_mem _ hp)))
          have hpnk : p ≠ kptr := fun hp => h2 (by
            rw [hpsplit, hp]
            exact List.mem_append_left _ (List.mem_append_right _ (List.mem_cons_self _ _)))
          rw [hget3 p (by omega), hget2 p, if_neg hpnk, hframe1 p h1 hpnpsc]
        refine ⟨PA ++ (List.zipWith (fun (pk : Nat × BNode) lp => pk.1 :: lp.2) pks LPs).flatten ++ PB,
          ?_, ?_, ?_, by omega, hframe, hmemconc, hndps'⟩
        · rw [wfN_node, Bool.and_eq_true, decide_eq_true_eq]
          refine ⟨hEne, ?_⟩
          rw [List.all_append, List.all_append, Bool.and_eq_true, Bool.and_eq_true]
          exact ⟨⟨hallA5, hNW⟩, hallB5⟩
        · rw [entsN_node, hlABM, kvIns_append_right hBk, kvIns_append_left hAk, ← hLflat]
          exact seqKids_append_of (seqKids_append_of hAseq4 hNE) hBseq4
        · rw [pagesN_node]
          exact seqKids_append_of (seqKids_append_of hPA4 hNP) hPB4
      · rw [if_neg hleaf, if_neg hnode] at hins
        exact Option.noConfusion hins

theorem take_succ_getD {α : Type} {l : List α} {i : Nat} (h : i < l.length) (d : α) :
    l.take (i + 1) = l.take i ++ [l.getD i d] := by
  rw [List.take_succ]
  congr 1
  rw [List.getElem?_eq_getElem h, List.getD_eq_getElem _ _ h]
  rfl

theorem set_append_mid {α : Type} (A : List α) (e e' : α) (B : List α) :
    (A ++ e :: B).set A.length e' = A ++ e' :: B := by
  induction A with
  | nil => rfl
  | cons a as ih => simp only [List.cons_append, List.length_cons, List.set_cons_succ, ih]

theorem reify_cat {f : Nat} {st : Store} {x y : BNode}
    {lx ly : List (List Nat × List Nat)} {px py : List Nat}
    (hty : y.btype = x.btype)
    (hwx : x.entries = [] ∨ wfN (f + 1) st x = true)
    (hwy : y.entries = [] ∨ wfN (f + 1) st y = true)
    (hne : ¬ (x.entries = [] ∧ y.entries = []))
    (hex : entsN (f + 1) st x = some lx) (hpx : pagesN (f + 1) st x = some px)
    (hey : entsN (f + 1) st y = some ly) (hpy : pagesN (f + 1) st y = some py) :
    wfN (f + 1) st ⟨x.btype, x.entries ++ y.entries⟩ = true ∧
    entsN (f + 1) st ⟨x.btype, x.entries ++ y.entries⟩ = some (lx ++ ly) ∧
    pagesN (f + 1) st ⟨x.btype, x.entries ++ y.entries⟩ = some (px ++ py) := by
  have hapne : x.entries ++ y.entries ≠ [] := by
    intro hE
    rw [List.append_eq_nil] at hE
    exact hne hE
  by_cases hxl : x.btype = BN_LEAF
  · have hyl : y.btype = BN_LEAF := hty.trans hxl
    rw [entsN, if_pos hxl] at hex
    rw [entsN, if_pos hyl] at hey
    rw [pagesN, if_pos hxl] at hpx
    rw [pagesN, if_pos hyl] at hpy
    cases hex
    cases hey
    cases hpx
    cases hpy
    refine ⟨?_, ?_, ?_⟩
    · rw [wfN]
      dsimp only
      rw [if_pos hxl, decide_eq_true_eq]
      exact hapne
    · rw [entsN]
      dsimp only
      rw [if_pos hxl, List.map_append]
    · rw [pagesN]
      dsimp only
      rw [if_pos hxl]
      rfl
  · by_cases hxn : x.btype = BN_NODE
    · have hyn : y.btype = BN_NODE := hty.trans hxn
      have hyl : ¬ y.btype = BN_LEAF := by rw [hyn]; decide
      rw [entsN, if_neg hxl, if_pos hxn] at hex
      rw [entsN, if_neg hyl, if_pos hyn] at hey
      rw [pagesN, if_neg hxl, if_pos hxn] at hpx
      rw [pagesN, if_neg hyl, if_pos hyn] at hpy
      have hallx : (x.entries.all fun e =>
          match stGet st e.ptr with
          | some cn => wfN f st cn && decide (firstKeyN f st e.ptr = some e.key)
          | none => false) = true := by
        rcases hwx with h | h
        · rw [h]; rfl
        · rw [wfN, if_neg hxl, if_pos hxn, Bool.and_eq_true] at h
          exact h.2
      have hally : (y.entries.all fun e =>
          match stGet st e.ptr with
          | some cn => wfN f st cn && decide (firstKeyN f st e.ptr = some e.key)
          | none => false) = true := by
        rcases hwy with h | h
        · rw [h]; rfl
        · rw [wfN, if_neg hyl, if_pos hyn, Bool.and_eq_true] at h
          exact h.2
      refine ⟨?_, ?_, ?_⟩
      · rw [wfN]
        dsimp only
        rw [if_neg hxl, if_pos hxn, Bool.and_eq_true, decide_eq_true_eq]
        refine ⟨hapne, ?_⟩
        rw [List.all_append, Bool.and_eq_true]
        exact ⟨hallx, hally⟩
      · rw [entsN]
        dsimp only
        rw [if_neg hxl, if_pos hxn]
        exact seqKids_append_of hex hey
      · rw [pagesN]
        dsimp only
        rw [if_neg hxl, if_pos hxn]
        exact seqKids_append_of hpx hpy
    · rw [entsN, if_neg hxl, if_neg hxn] at hex
      exact absurd hex (by simp)

theorem shouldMergeRight_cases {st : Store} {node : BNode} {idx : Nat} {updated : BNode}
    {mdir : MergeDir} (h : shouldMergeRight st node idx updated = some mdir) :
    mdir = .no ∨ ∃ sib, mdir = .right sib ∧ idx + 1 < node.entries.length ∧
      stGet st ((node.entries.getD (idx + 1) defEntry).ptr) = some sib := by
  unfold shouldMergeRight at h
  split at h
  · simp only [bind, Option.bind_eq_some] at h
    obtain ⟨p, hp, sib, hsib, h⟩ := h
    unfold getPtr at hp
    rename_i hplen
    rw [if_pos hplen] at hp
    injection hp with hp'
    subst hp'
    split at h
    · simp only [Option.pure_def, Option.some.injEq] at h
      subst h
      right
      exact ⟨sib, rfl, hplen, hsib⟩
    · simp only [Option.pure_def, Option.some.injEq] at h
      subst h
      left
      rfl
  · simp only [Option.pure_def, Option.some.injEq] at h
    subst h
    left
    rfl

theorem shouldMerge_left {st : Store} {node : BNode} {idx : Nat} {updated sib : BNode}
    (h : shouldMerge st node idx updated = some (MergeDir.left sib)) :
    0 < idx ∧ idx - 1 < node.entries.length ∧
    stGet st ((node.entries.getD (idx - 1) defEntry).ptr) = some sib := by
  unfold shouldMerge at h
  split at h
  · simp at h
  · split at h
    · simp only [bind, Option.bind_eq_some] at h
      obtain ⟨p, hp, sib', hsib', h⟩ := h
      unfold getPtr at hp
      rename_i hidx0
      by_cases hplen : idx - 1 < node.entries.length
      · rw [if_pos hplen] at hp
        injection hp with hp'
        subst hp'
        split at h
        · simp only [Option.pure_def, Option.some.injEq] at h
          injection h with h'
          subst h'
          exact ⟨hidx0, hplen, hsib'⟩
        · rcases shouldMergeRight_cases h with h' | ⟨sib2, h', _⟩ <;> exact absurd h' (by simp)
      · rw [if_neg hplen] at hp
        exact Option.noConfusion hp
    · rcases shouldMergeRight_cases h with h' | ⟨sib2, h', _⟩ <;> exact absurd h' (by simp)

theorem shouldMerge_right {st : Store} {node : BNode} {idx : Nat} {updated sib : BNode}
    (h : shouldMerge st node idx updated = some (MergeDir.right sib)) :
    idx + 1 < node.entries.length ∧
    stGet st ((node.entries.getD (idx + 1) defEntry).ptr) = some sib := by
  unfold shouldMerge at h
  split at h
  · simp at h
  · split at h
    · simp only [bind, Option.bind_eq_some] at h
      obtain ⟨p, hp, sib', hsib', h⟩ := h
      split at h
      · simp at h
      · rcases shouldMergeRight_cases h with h' | ⟨sib2, h', hlen, hget⟩
        · exact absurd h' (by simp)
        · injection h' with h''
          subst h''
          exact ⟨hlen, hget⟩
    · rcases shouldMergeRight_cases h with h' | ⟨sib2, h', hlen, hget⟩
      · exact absurd h' (by simp)
      · injection h' with h''
        subst h''
        exact ⟨hlen, hget⟩

theorem getD_append_mid {α : Type} (A : List α) (e : α) (B : List α) (d : α) :
    (A ++ e :: B).getD A.length d = e := by
  induction A with
  | nil => rfl
  | cons a as ih => simpa using ih

/-- Transfer a reified segment of children from `(f, st)` to `(f + 1, st')`
given that the segment's pages read the same in `st'`. -/
theorem segment_transfer {f : Nat} {st st' : Store} {es : List Entry}
    {L : List (List Nat × List Nat)} {Ps : List Nat}
    (hE : seqKids (fun p => do
      let cn ← stGet st p
      entsN f st cn) es = some L)
    (hP : seqKids (fun p => do
      let cn ← stGet st p
      let ps ← pagesN f st cn
      pure (p :: ps)) es = some Ps)
    (hagree : ∀ p ∈ Ps, stGet st' p = stGet st p)
    (hall : (es.all fun e =>
      match stGet st e.ptr with
      | some cn => wfN f st cn && decide (firstKeyN f st e.ptr = some e.key)
      | none => false) = true) :
    seqKids (fun p => do
      let cn ← stGet st' p
      entsN (f + 1) st' cn) es = some L ∧
    seqKids (fun p => do
      let cn ← stGet st' p
      let ps ← pagesN (f + 1) st' cn
      pure (p :: ps)) es = some Ps ∧
    (es.all fun e =>
      match stGet st' e.ptr with
      | some cn => wfN (f + 1) st' cn && decide (firstKeyN (f + 1) st' e.ptr = some e.key)
      | none => false) = true := by
  obtain ⟨h1, h2, h3⟩ := frame_kids f st st'
    (fun {nd l ps} ha hb hc => reify_frame f ha hb hc) es L Ps hE hP hagree
  obtain ⟨h4, h5, h6⟩ := mono_kids f st'
    (fun {nd l ps} ha hb => reify_mono_succ f ha hb) es L Ps h1 h2
  exact ⟨h4, h5, h6 (h3 hall)⟩

/-- Reassemble an internal node after replacing a child range by one new
child entry whose page `mp` holds a reified node `mnd`. -/
theorem splice_one {f : Nat} {st : Store} {X Y : List Entry}
    {A B Lm : List (List Nat × List Nat)} {PA PB Pm : List Nat} {mp : Nat} {mnd : BNode}
    (hA : seqKids (fun p => do
      let cn ← stGet st p
      entsN f st cn) X = some A)
    (hPA : seqKids (fun p => do
      let cn ← stGet st p
      let ps ← pagesN f st cn
      pure (p :: ps)) X = some PA)
    (hB : seqKids (fun p => do
      let cn ← stGet st p
      entsN f st cn) Y = some B)
    (hPB : seqKids (fun p => do
      let cn ← stGet st p
      let ps ← pagesN f st cn
      pure (p :: ps)) Y = some PB)
    (hallX : (X.all fun e =>
      match stGet st e.ptr with
      | some cn => wfN f st cn && decide (firstKeyN f st e.ptr = some e.key)
      | none => false) = true)
    (hallY : (Y.all fun e =>
      match stGet st e.ptr with
      | some cn => wfN f st cn && decide (firstKeyN f st e.ptr = some e.key)
      | none => false) = true)
    (hmp : stGet st mp = some mnd)
    (hwm : wfN f st mnd = true) (hem : entsN f st mnd = some Lm)
    (hpm : pagesN f st mnd = some Pm) :
    wfN (f + 1) st ⟨BN_NODE, X ++ Entry.mk mp (getKeyD mnd 0) [] :: Y⟩ = true ∧
    entsN (f + 1) st ⟨BN_NODE, X ++ Entry.mk mp (getKeyD mnd 0) [] :: Y⟩ =
      some (A ++ (Lm ++ B)) ∧
    pagesN (f + 1) st ⟨BN_NODE, X ++ Entry.mk mp (getKeyD mnd 0) [] :: Y⟩ =
      some (PA ++ ((mp :: Pm) ++ PB)) := by
  have hmid : (fun p => do
      let cn ← stGet st p
      entsN f st cn) mp = some Lm := by
    simp only [bind, Option.bind_eq_some]
    exact ⟨mnd, hmp, hem⟩
  have hmidP : (fun p => do
      let cn ← stGet st p
      let ps ← pagesN f st cn
      pure (p :: ps)) mp = some (mp :: Pm) := by
    simp only [bind, Option.bind_eq_some, Option.pure_def, Option.some.injEq]
    exact ⟨mnd, hmp, Pm, hpm, rfl⟩
  refine ⟨?_, ?_, ?_⟩
  · rw [wfN_node, Bool.and_eq_true, decide_eq_true_eq]
    refine ⟨by simp, ?_⟩
    rw [List.all_append, List.all_cons, Bool.and_eq_true, Bool.and_eq_true]
    refine ⟨hallX, ?_, hallY⟩
    dsimp only
    simp only [hmp, Bool.and_eq_true, decide_eq_true_eq]
    refine ⟨hwm, ?_⟩
    rw [firstKeyN_eq hmp hem]
    exact wf_first_key hwm hem
  · rw [entsN_node]
    refine seqKids_append_of hA ?_
    rw [seqKids_cons_eq_some]
    exact ⟨Lm, B, hmid, hB, rfl⟩
  · rw [pagesN_node]
    refine seqKids_append_of hPA ?_
    rw [seqKids_cons_eq_some]
    exact ⟨mp :: Pm, PB, hmidP, hPB, rfl⟩

theorem patchSep_noop (bt : Nat) (X : List Entry) (np : Nat) (fk : List Nat) (Y : List Entry) :
    patchSep ⟨bt, X ++ Entry.mk np fk [] :: Y⟩ X.length fk = ⟨bt, X ++ Entry.mk np fk [] :: Y⟩ := by
  unfold patchSep
  dsimp only
  rw [getD_append_mid, set_append_mid]

/-- Simulation of `treeDelete` against the abstract sorted-map erase: on a
well-formed sorted subtree whose first key is at most the searched key, a
successful `treeDelete` either reports a miss (store untouched) or returns a
scratch node that reifies to `kvErase` of the old entries, with the store
changed only below the subtree and on fresh pages. -/
theorem treeDelete_sim : ∀ (F : Nat) {f : Nat} {st : Store} {nd : BNode} {k : List Nat}
    {st' : Store} {r : Option BNode} {l : List (List Nat × List Nat)} {ps : List Nat},
    treeDelete F st nd k = some (st', r) →
    wfN f st nd = true →
    entsN f st nd = some l →
    pagesN f st nd = some ps →
    List.Chain' bLt (keysOf l) →
    (∀ h0 ∈ (keysOf l).head?, bLe h0 k) →
    ps.Nodup →
    (∀ p ∈ ps, p < st.next) →
    (r = none ∧ st' = st ∧ (lookupKV l k).2 = false) ∨
    ((lookupKV l k).2 = true ∧
     st.next ≤ st'.next ∧
     (∀ p, p < st.next → p ∉ ps → stGet st' p = stGet st p) ∧
     ∃ nd', r = some nd' ∧ nd'.btype = nd.btype ∧
       entsN (f + 1) st' nd' = some (kvErase l k) ∧
       ∃ ps', pagesN (f + 1) st' nd' = some ps' ∧
         (∀ p ∈ ps', p ∈ ps ∨ (st.next ≤ p ∧ p < st'.next)) ∧
         ps'.Nodup ∧
         (kvErase l k = [] ∧ nd'.entries = [] ∨ wfN (f + 1) st' nd' = true)) := by
  intro F
  induction F with
  | zero =>
    intro f st nd k st' r l ps hins _ _ _ _ _ _ _
    rw [treeDelete] at hins
    exact Option.noConfusion hins
  | succ F ih =>
    intro f st nd k st' r l ps hins hwf hents hpages hsort hhead hnd hlt
    cases f with
    | zero =>
      rw [entsN] at hents
      exact Option.noConfusion hents
    | succ f =>
    unfold treeDelete at hins
    by_cases hleaf : nd.btype = BN_LEAF
    · -- leaf: delete the entry on a hit, report a miss otherwise
      rw [if_pos hleaf] at hins
      rw [entsN, if_pos hleaf] at hents
      rw [pagesN, if_pos hleaf] at hpages
      rw [wfN, if_pos hleaf, decide_eq_true_eq] at hwf
      cases hents
      cases hpages
      have hidx : nodeLookupLE nd k < nd.entries.length :=
        nodeLookupLE_lt (List.length_pos.mpr hwf)
      have hpw : List.Pairwise bLt (nd.entries.map Entry.key) := by
        have h := List.chain'_iff_pairwise.mp hsort
        rwa [keysOf_map_kv] at h
      by_cases heq : getKeyD nd (nodeLookupLE nd k) = k
      · -- hit: leafDelete
        rw [if_pos heq, leafDelete, if_pos hidx] at hins
        simp only [Option.map_some', Option.some.injEq] at hins
        have hst : st = st' := congrArg Prod.fst hins
        have hr : (some (⟨BN_LEAF, nd.entries.take (nodeLookupLE nd k) ++
            nd.entries.drop (nodeLookupLE nd k + 1)⟩ : BNode) : Option BNode) = r :=
          congrArg Prod.snd hins
        subst hst
        have hsplit := take_getD_drop hidx defEntry
        have hAne : ∀ a ∈ (nd.entries.take (nodeLookupLE nd k)).map Entry.key, a ≠ k := by
          intro a ha
          obtain ⟨j, hj1, hj2, hj3⟩ := mem_map_key_take ha
          have h := pairwise_key_getD hpw hj1 hidx
          rw [hj3] at h
          rw [getKeyD] at heq
          rw [heq] at h
          exact bLt_ne h
        have hlook : lookupKV (nd.entries.map fun e => (e.key, e.val)) k =
            ((nd.entries.getD (nodeLookupLE nd k) defEntry).val, true) := by
          have hgd : (nd.entries.map fun e => (e.key, e.val)).getD (nodeLookupLE nd k)
              (([], []) : List Nat × List Nat) =
              ((nd.entries.getD (nodeLookupLE nd k) defEntry).key,
               (nd.entries.getD (nodeLookupLE nd k) defEntry).val) :=
            getD_map _ nd.entries (nodeLookupLE nd k) defEntry
          have hsp : List.Pairwise bLt (keysOf (nd.entries.map fun e => (e.key, e.val))) :=
            List.chain'_iff_pairwise.mp hsort
          have h := lookupKV_getD (k := k) hsp (by simpa using hidx) (by
            rw [hgd]
            rw [getKeyD] at heq
            exact heq)
          rw [h, hgd]
        have hkvE : kvErase (nd.entries.map fun e => (e.key, e.val)) k =
            ((nd.entries.take (nodeLookupLE nd k)).map fun e => (e.key, e.val)) ++
            ((nd.entries.drop (nodeLookupLE nd k + 1)).map fun e => (e.key, e.val)) := by
          conv_lhs => rw [hsplit]
          rw [List.map_append, List.map_cons]
          rw [kvErase_append_left (by rw [keysOf_map_kv]; exact hAne)]
          rw [getKeyD] at heq
          rw [heq, kvErase]
          rw [if_pos rfl]
        refine Or.inr ⟨by rw [hlook], Nat.le_refl _, fun p _ _ => rfl,
          ⟨BN_LEAF, nd.entries.take (nodeLookupLE nd k) ++
            nd.entries.drop (nodeLookupLE nd k + 1)⟩, hr.symm, hleaf.symm, ?_, [], ?_,
          by simp, List.nodup_nil, ?_⟩
        · rw [entsN_leaf, hkvE, List.map_append]
        · rw [pagesN_leaf]
        · by_cases hres : nd.entries.take (nodeLookupLE nd k) ++
              nd.entries.drop (nodeLookupLE nd k + 1) = []
          · left
            constructor
            · rw [hkvE, ← List.map_append, hres]
              rfl
            · exact hres
          · right
            rw [wfN_leaf, decide_eq_true_eq]
            exact hres
      · -- miss
        rw [if_neg heq] at hins
        injection hins with hins'
        have hst : st = st' := congrArg Prod.fst hins'
        have hr : (none : Option BNode) = r := congrArg Prod.snd hins'
        subst hst
        left
        refine ⟨hr.symm, rfl, ?_⟩
        rw [lookupKV_false_iff]
        intro hm
        rw [keysOf_map_kv] at hm
        obtain ⟨j, hjlen, hj⟩ := mem_map_getD hm
        rcases Nat.lt_trichotomy j (nodeLookupLE nd k) with hlt' | heq' | hgt'
        · have hidx0 : nodeLookupLE nd k ≠ 0 := by omega
          have h1 := pairwise_key_getD hpw hlt' hidx
          rw [hj] at h1
          have h2 := nodeLookupLE_le hidx0
          exact bLt_irrefl k (bLt_of_bLt_of_bLe h1 h2)
        · exact heq (by rw [getKeyD, ← heq', hj])
        · have h1 := nodeLookupLE_after (k := k) hpw j hgt' hjlen
          rw [getKeyD, hj] at h1
          exact bLt_irrefl k h1
    · -- internal node
      rw [if_neg hleaf] at hins
      have hnode : nd.btype = BN_NODE := by
        have h := hwf
        rw [wfN] at h
        by_cases hn : nd.btype = BN_NODE
        · exact hn
        · rw [if_neg hleaf, if_neg hn] at h
          exact absurd h (by simp)
      simp only [bind, Option.bind_eq_some] at hins
      obtain ⟨kptr, hk, kn, hkn, ⟨st1, upd?⟩, hrec, hmatch⟩ := hins
      dsimp only at hrec hmatch
      have hne : nd.entries ≠ [] := wf_node_ne hwf
      have hidxlen : nodeLookupLE nd k < nd.entries.length :=
        nodeLookupLE_lt (List.length_pos.mpr hne)
      unfold getPtr at hk
      rw [if_pos hidxlen] at hk
      injection hk with hkptr
      obtain ⟨cn, A, M, B, hcn, hwfc, hM, hlABM, hMne, hchainM, hfkM, hAk, hBk, hA0,
        hAX, hMB, hAseq, hBseq⟩ :=
        descend_decomp (f := f) (k := k) hleaf hnode hwf hents hsort
      rw [hkptr] at hcn
      rw [hkn] at hcn
      injection hcn with hcneq
      subst hcneq
      have hpage1 : seqKids (fun p => do
          let cn ← stGet st p
          let ps ← pagesN f st cn
          pure (p :: ps)) nd.entries = some ps := by
        rw [pagesN, if_neg hleaf, if_pos hnode] at hpages
        exact hpages
      obtain ⟨PA, MP, PB, hgMP, hpsplit, hPA, hPB⟩ := seqKids_decomp hpage1 hidxlen
      simp only [bind, Option.bind_eq_some, Option.pure_def, Option.some.injEq] at hgMP
      obtain ⟨cn2, hcn2, psc, hpsc, hMPeq⟩ := hgMP
      rw [hkptr] at hcn2
      rw [hkn] at hcn2
      injection hcn2 with hcn2eq
      subst hcn2eq
      rw [hkptr] at hMPeq
      cases hMPeq
      have hndfull := hnd
      rw [hpsplit, List.nodup_append, List.nodup_append, List.nodup_cons] at hndfull
      obtain ⟨⟨hndPA, ⟨hknpsc, hndpsc⟩, hdisjPAM⟩, hndPB, hdisjAMB⟩ := hndfull
      have hkp_ps : kptr ∈ ps := by
        rw [hpsplit]
        exact List.mem_append_left _ (List.mem_append_right _ (List.mem_cons_self _ _))
      have hkplt : kptr < st.next := hlt _ hkp_ps
      have hpsclt : ∀ p ∈ psc, p < st.next := fun p hp =>
        hlt p (by
          rw [hpsplit]
          exact List.mem_append_left _ (List.mem_append_right _ (List.mem_cons_of_mem _ hp)))
      have hMhead : ∀ h0 ∈ (keysOf M).head?, bLe h0 k := by
        intro h0 hh0
        rw [keysOf_head, hfkM] at hh0
        have hh0' : getKeyD nd (nodeLookupLE nd k) = h0 := by simpa using hh0
        subst hh0'
        by_cases h0i : nodeLookupLE nd k = 0
        · have hA' := hA0 h0i
          subst hA'
          simp only [List.nil_append] at hlABM
          have hKM : keysOf M ≠ [] := by
            simpa [keysOf] using hMne
          have hh : (keysOf l).head? = some (getKeyD nd (nodeLookupLE nd k)) := by
            rw [hlABM, keysOf_append, head?_append_of_ne hKM, keysOf_head, hfkM]
          exact hhead _ (by rw [hh]; rfl)
        · exact nodeLookupLE_le h0i
      have hknotB : k ∉ keysOf B := fun hm => bLt_irrefl k (hBk k hm)
      have hAne : ∀ a ∈ keysOf A, a ≠ k := fun a ha => bLt_ne (hAk a ha)
      have hBne : ∀ b ∈ keysOf B, b ≠ k := fun b hb => (bLt_ne (hBk b hb)).symm
      have hlook : lookupKV l k = lookupKV M k := by
        rw [hlABM, lookupKV_append_right hknotB, lookupKV_append_left hAne]
      have hkErase : kvErase l k = A ++ kvErase M k ++ B := by
        rw [hlABM, kvErase_append_right hBne, kvErase_append_left hAne]
      have hwf' := hwf
      rw [wfN, if_neg hleaf, if_pos hnode, Bool.and_eq_true] at hwf'
      have hallP : ∀ es' : List Entry, (∀ e ∈ es', e ∈ nd.entries) → (es'.all (fun e =>
          match stGet st e.ptr with
          | some cn => wfN f st cn && decide (firstKeyN f st e.ptr = some e.key)
          | none => false)) = true := by
        intro es' hsub
        rw [List.all_eq_true]
        intro e he
        exact List.all_eq_true.mp hwf'.2 e (hsub e he)
      cases upd? with
      | none =>
        -- the recursive call reported a miss: nothing happens
        dsimp only at hmatch
        simp only [Option.pure_def, Option.some.injEq] at hmatch
        have hst1 : st1 = st' := congrArg Prod.fst hmatch
        have hrr : (none : Option BNode) = r := congrArg Prod.snd hmatch
        rcases ih hrec hwfc hM hpsc hchainM hMhead hndpsc hpsclt with
          ⟨_, hst1eq, hlookM⟩ | ⟨_, _, _, nd1, hr1, _⟩
        · left
          refine ⟨hrr.symm, ?_, ?_⟩
          · rw [← hst1, hst1eq]
          · rw [hlook]
            exact hlookM
        · exact Option.noConfusion hr1
      | some updated =>
        dsimp only at hmatch
        simp only [bind, Option.bind_eq_some] at hmatch
        obtain ⟨st2, hdel2, mdir, hsm, hmatch2⟩ := hmatch
        rcases ih hrec hwfc hM hpsc hchainM hMhead hndpsc hpsclt with
          ⟨hr1, _, _⟩ | ⟨hlookM, hnext1, hframe1, nd1, hr1, hbty1, hentsU, psu',
            hpagesU, hmemU, hndU, hwfU⟩
        · exact Option.noConfusion hr1
        · injection hr1 with hr1'
          subst hr1'
          obtain ⟨hget2, hnext2, hfr2⟩ := stGet_stDel hdel2
          have hpsclt' : ∀ p ∈ psu', p < st1.next := by
            intro p hp
            rcases hmemU p hp with h | h
            · have := hpsclt p h
              omega
            · omega
          have hkp_nin : kptr ∉ psu' := by
            intro hin
            rcases hmemU kptr hin with h | h
            · exact hknpsc h
            · omega
          have hagree12 : ∀ p ∈ psu', stGet st2 p = stGet st1 p := by
            intro p hp
            have hpne' : p ≠ kptr := by
              intro h
              subst h
              exact hkp_nin hp
            rw [hget2 p, if_neg hpne']
          obtain ⟨hentsU2, hpagesU2, hwfimp2⟩ := reify_frame (f + 1) hentsU hpagesU hagree12
          have hwfU2 : kvErase M k = [] ∧ updated.entries = [] ∨
              wfN (f + 1) st2 updated = true := by
            rcases hwfU with h | h
            · exact Or.inl h
            · exact Or.inr (hwfimp2 h)
          have hchain2 : ∀ p, p < st.next → p ∉ psc → p ≠ kptr →
              stGet st2 p = stGet st p := by
            intro p h1 h2 h3
            rw [hget2 p, if_neg h3, hframe1 p h1 h2]
          have hlookT : (lookupKV l k).2 = true := by
            rw [hlook]
            exact hlookM
          have hmemPA : ∀ p ∈ PA, p ∈ ps := fun p hp => by
            rw [hpsplit]
            exact List.mem_append_left _ (List.mem_append_left _ hp)
          have hmemPB : ∀ p ∈ PB, p ∈ ps := fun p hp => by
            rw [hpsplit]
            exact List.mem_append_right _ hp
          have hmempsc : ∀ p ∈ psc, p ∈ ps := fun p hp => by
            rw [hpsplit]
            exact List.mem_append_left _ (List.mem_append_right _ (List.mem_cons_of_mem _ hp))
          have hPAnotpsc : ∀ p ∈ PA, p ∉ psc ∧ p ≠ kptr := by
            intro p hp
            constructor
            · intro hpp
              exact hdisjPAM hp (List.mem_cons_of_mem _ hpp)
            · intro hpe
              subst hpe
              exact hdisjPAM hp (List.mem_cons_self _ _)
          have hPBnotpsc : ∀ p ∈ PB, p ∉ psc ∧ p ≠ kptr := by
            intro p hp
            constructor
            · intro hpp
              exact hdisjAMB (List.mem_append_right _ (List.mem_cons_of_mem _ hpp)) hp
            · intro hpe
              subst hpe
              exact hdisjAMB (List.mem_append_right _ (List.mem_cons_self _ _)) hp
          cases mdir with
          | no =>
            dsimp only at hmatch2
            by_cases hue : updated.entries.length = 0
            · -- the child shrank to nothing
              rw [if_pos hue] at hmatch2
              have hunil : updated.entries = [] := List.eq_nil_of_length_eq_zero hue
              split at hmatch2
              · rename_i hcond
                simp only [Option.pure_def, Option.some.injEq] at hmatch2
                have hst2 : st2 = st' := congrArg Prod.fst hmatch2
                have hrr : (some (⟨BN_NODE, []⟩ : BNode) : Option BNode) = r :=
                  congrArg Prod.snd hmatch2
                subst hst2
                have hkEM : kvErase M k = [] := by
                  rcases hwfU2 with ⟨h, _⟩ | h
                  · exact h
                  · exact absurd hunil (wf_node_ne h)
                have hAnil : A = [] := hA0 hcond.2
                have hBnil : B = [] := by
                  have hdropnil : nd.entries.drop (nodeLookupLE nd k + 1) = [] := by
                    rw [List.drop_eq_nil_iff]
                    omega
                  rw [hdropnil, seqKids_nil] at hBseq
                  exact (Option.some.injEq _ _).mp hBseq.symm
                have hkEl : kvErase l k = [] := by
                  rw [hkErase, hAnil, hBnil, hkEM]
                  rfl
                refine Or.inr ⟨hlookT, by omega, ?_, ⟨BN_NODE, []⟩, hrr.symm,
                  hnode.symm, ?_, [], ?_, by simp, List.nodup_nil, Or.inl ⟨hkEl, rfl⟩⟩
                · intro p h1 h2
                  exact hchain2 p h1 (fun hp => h2 (hmempsc p hp))
                    (fun hp => h2 (hp ▸ hkp_ps))
                · rw [entsN_node, hkEl]
                  rfl
                · rw [pagesN_node]
                  rfl
              · exact Option.noConfusion hmatch2
            · -- splice the updated child back in place
              rw [if_neg hue] at hmatch2
              simp only [bind, Option.bind_eq_some] at hmatch2
              obtain ⟨⟨st3, nn⟩, hrepl, hrest⟩ := hmatch2
              dsimp only at hrepl hrest
              unfold nodeReplaceKidN at hrepl
              simp only [bind, Option.bind_eq_some, Option.pure_def, Option.some.injEq] at hrepl
              obtain ⟨⟨st3a, pks⟩, halloc, heq3⟩ := hrepl
              dsimp only at halloc heq3
              injection heq3 with heq3a heq3b
              subst heq3a
              subst heq3b
              obtain ⟨hnext3a, hsnd, hfr3a, hget3a, hmem3a, hndpks⟩ := allocKids_spec halloc
              obtain ⟨np, pks', hpkscons⟩ : ∃ np pks', pks = (np, updated) :: pks' := by
                cases pks with
                | nil => simp at hsnd
                | cons pk rest =>
                  rw [List.map_cons] at hsnd
                  injection hsnd with h1 h2
                  exact ⟨pk.1, rest, by rw [← h1]⟩
              subst hpkscons
              have hpks' : pks' = [] := by
                rw [List.map_cons] at hsnd
                injection hsnd with h1 h2
                exact List.map_eq_nil_iff.mp h2
              subst hpks'
              have hnextb : st3a.next = st2.next + 1 := by simpa using hnext3a
              have hnpmem := hmem3a (np, updated) (List.mem_cons_self _ _)
              have hnp : np = st2.next := by
                have h1 : st2.next ≤ np := hnpmem.1
                have h2 : np < st3a.next := hnpmem.2.1
                omega
              subst hnp
              simp only [List.map_cons, List.map_nil] at hrest
              have hwfUP : wfN (f + 1) st2 updated = true := by
                rcases hwfU2 with ⟨_, h⟩ | h
                · exact absurd h (by
                    intro hh
                    rw [hh] at hue
                    exact hue rfl)
                · exact h
              -- updated reified in the post-allocation store
              have hpscltb : ∀ p ∈ psu', p < st2.next := by
                intro p hp
                have := hpsclt' p hp
                omega
              have hagree2b : ∀ p ∈ psu', stGet st3a p = stGet st2 p := fun p hp =>
                hget3a p (hpscltb p hp)
              obtain ⟨hentsUb, hpagesUb, hwfimpb⟩ :=
                reify_frame (f + 1) hentsU2 hpagesU2 hagree2b
              have hwfUb := hwfimpb hwfUP
              -- old segments
              have hchainb : ∀ p, p < st.next → p ∉ psc → p ≠ kptr →
                  stGet st3a p = stGet st p := by
                intro p h1 h2 h3
                rw [hget3a p (by omega), hchain2 p h1 h2 h3]
              obtain ⟨hAseq4, hPA4, hallA4⟩ := segment_transfer hAseq hPA
                (fun p hp => hchainb p (hlt p (hmemPA p hp)) (hPAnotpsc p hp).1
                  (hPAnotpsc p hp).2)
                (hallP _ (fun e he => List.mem_of_mem_take he))
              obtain ⟨hBseq4, hPB4, hallB4⟩ := segment_transfer hBseq hPB
                (fun p hp => hchainb p (hlt p (hmemPB p hp)) (hPBnotpsc p hp).1
                  (hPBnotpsc p hp).2)
                (hallP _ (fun e he => List.mem_of_mem_drop he))
              have hmpget : stGet st3a st2.next = some updated := hnpmem.2.2.1
              obtain ⟨hwfnn, hentsnn, hpagesnn⟩ := splice_one hAseq4 hPA4 hBseq4 hPB4
                hallA4 hallB4 hmpget hwfUb hentsUb hpagesUb
              have hlentake : (nd.entries.take (nodeLookupLE nd k)).length =
                  nodeLookupLE nd k := by
                rw [List.length_take]
                omega
              have hconsform : nd.entries.take (nodeLookupLE nd k) ++
                  [Entry.mk st2.next (getKeyD updated 0) []] ++
                  nd.entries.drop (nodeLookupLE nd k + 1) =
                  nd.entries.take (nodeLookupLE nd k) ++
                  Entry.mk st2.next (getKeyD updated 0) [] ::
                  nd.entries.drop (nodeLookupLE nd k + 1) := by
                rw [← List.append_cons]
              rw [hconsform] at hrest
              -- the separator patch is a no-op
              have hpatch := patchSep_noop BN_NODE (nd.entries.take (nodeLookupLE nd k))
                st2.next (getKeyD updated 0) (nd.entries.drop (nodeLookupLE nd k + 1))
              rw [hlentake] at hpatch
              have hfinal : st3a = st' ∧
                  (some (⟨BN_NODE, nd.entries.take (nodeLookupLE nd k) ++
                    Entry.mk st2.next (getKeyD updated 0) [] ::
                    nd.entries.drop (nodeLookupLE nd k + 1)⟩ : BNode) : Option BNode) = r := by
                split at hrest
                · rw [hpatch] at hrest
                  simp only [Option.pure_def, Option.some.injEq] at hrest
                  exact ⟨congrArg Prod.fst hrest, congrArg Prod.snd hrest⟩
                · simp only [Option.pure_def, Option.some.injEq] at hrest
                  exact ⟨congrArg Prod.fst hrest, congrArg Prod.snd hrest⟩
              obtain ⟨hsta', hrr⟩ := hfinal
              subst hsta'
              refine Or.inr ⟨hlookT, by omega, ?_, _, hrr.symm, hnode.symm, ?_,
                PA ++ ((st2.next :: psu') ++ PB), hpagesnn, ?_, ?_, Or.inr hwfnn⟩
              · intro p h1 h2
                exact hchainb p h1 (fun hp => h2 (hmempsc p hp))
                  (fun hp => h2 (hp ▸ hkp_ps))
              · rw [hentsnn, hkErase]
                rw [List.append_assoc]
              · intro p hp
                rcases List.mem_append.mp hp with hp1 | hp1
                · exact Or.inl (hmemPA p hp1)
                · rcases List.mem_append.mp hp1 with hp2 | hp2
                  · rcases List.mem_cons.mp hp2 with hp3 | hp3
                    · right
                      subst hp3
                      omega
                    · rcases hmemU p hp3 with h | h
                      · exact Or.inl (hmempsc p h)
                      · right
                        omega
                  · exact Or.inl (hmemPB p hp2)
              · rw [List.nodup_append]
                refine ⟨hndPA, ?_, ?_⟩
                · rw [List.nodup_append, List.nodup_cons]
                  refine ⟨⟨?_, hndU⟩, hndPB, ?_⟩
                  · intro hin
                    have := hpscltb _ hin
                    omega
                  · intro q hq hqb
                    rcases List.mem_cons.mp hq with hq1 | hq1
                    · have hq' := hlt q (hmemPB q hqb)
                      rw [hq1] at hq'
                      omega
                    · rcases hmemU q hq1 with h | h
                      · exact (hPBnotpsc q hqb).1 h
                      · have := hlt q (hmemPB q hqb)
                        omega
                · intro q hqa hqn
                  rcases List.mem_append.mp hqn with hq1 | hq1
                  · rcases List.mem_cons.mp hq1 with hq2 | hq2
                    · have hq' := hlt q (hmemPA q hqa)
                      rw [hq2] at hq'
                      omega
                    · rcases hmemU q hq2 with h | h
                      · exact (hPAnotpsc q hqa).1 h
                      · have := hlt q (hmemPA q hqa)
                        omega
                  · exact hdisjAMB (List.mem_append_left _ hqa) hq1
          | left sib =>
            dsimp only at hmatch2
            simp only [bind, Option.bind_eq_some] at hmatch2
            obtain ⟨merged, hmerge, lp, hlp, st3, hdel3, ⟨st4, mpg⟩, hnew, heqf⟩ := hmatch2
            dsimp only at hnew heqf
            obtain ⟨hidx0, hlen1, hsib2⟩ := shouldMerge_left hsm
            unfold getPtr at hlp
            rw [if_pos hlen1] at hlp
            injection hlp with hlp'
            subst hlp'
            have hidxe : nodeLookupLE nd k - 1 + 1 = nodeLookupLE nd k := by omega
            -- decompose the left part around the sibling
            rw [← hidxe, take_succ_getD (by omega) defEntry] at hAseq hPA
            obtain ⟨A0, Asib, hA0seq, hsibE, hAeq⟩ := seqKids_append_inv hAseq
            obtain ⟨PA0, Psib, hPA0seq, hsibP, hPAeq⟩ := seqKids_append_inv hPA
            rw [seqKids_cons_eq_some] at hsibE hsibP
            obtain ⟨Msib, Anil, hgsib, hAnilseq, hAsibeq⟩ := hsibE
            rw [seqKids_nil] at hAnilseq
            injection hAnilseq with hAnil
            subst hAnil
            rw [List.append_nil] at hAsibeq
            subst hAsibeq
            obtain ⟨Psib1, Pnil, hgsibP, hPnilseq, hPsibeq⟩ := hsibP
            rw [seqKids_nil] at hPnilseq
            injection hPnilseq with hPnil
            subst hPnil
            rw [List.append_nil] at hPsibeq
            subst hPsibeq
            simp only [bind, Option.bind_eq_some] at hgsib
            obtain ⟨sib0, hsib0get, hMsib⟩ := hgsib
            simp only [bind, Option.bind_eq_some, Option.pure_def, Option.some.injEq] at hgsibP
            obtain ⟨sib0', hsib0get', psib, hpsib, hPsib1eq⟩ := hgsibP
            rw [hsib0get] at hsib0get'
            injection hsib0get' with hsib0eq
            subst hsib0eq
            subst hPsib1eq
            subst hAeq
            subst hPAeq
            -- the sibling page and its pages sit inside the old subtree
            have hlptr_mem : (nd.entries.getD (nodeLookupLE nd k - 1) defEntry).ptr ∈ ps := by
              rw [hpsplit]
              exact List.mem_append_left _ (List.mem_append_left _
                (List.mem_append_right _ (List.mem_cons_self _ _)))
            have hpsib_mem : ∀ p ∈ psib, p ∈ ps := by
              intro p hp
              rw [hpsplit]
              exact List.mem_append_left _ (List.mem_append_left _
                (List.mem_append_right _ (List.mem_cons_of_mem _ hp)))
            have hndPAfull := hndPA
            rw [List.nodup_append, List.nodup_cons] at hndPAfull
            obtain ⟨hndPA0, ⟨hlnpsib, hndpsib⟩, hdisjPA0L⟩ := hndPAfull
            have hPA0notpsc : ∀ p ∈ PA0, p ∉ psc ∧ p ≠ kptr := by
              intro p hp
              exact hPAnotpsc p (List.mem_append_left _ hp)
            have hlptr_notpsc :
                (nd.entries.getD (nodeLookupLE nd k - 1) defEntry).ptr ∉ psc ∧
                (nd.entries.getD (nodeLookupLE nd k - 1) defEntry).ptr ≠ kptr :=
              hPAnotpsc _ (List.mem_append_right _ (List.mem_cons_self _ _))
            have hpsib_notpsc : ∀ p ∈ psib, p ∉ psc ∧ p ≠ kptr := by
              intro p hp
              exact hPAnotpsc p (List.mem_append_right _ (List.mem_cons_of_mem _ hp))
            -- identify the merge partner
            have hsibid : stGet st2 ((nd.entries.getD (nodeLookupLE nd k - 1) defEntry).ptr) =
                some sib0 := by
              rw [hchain2 _ (hlt _ hlptr_mem) hlptr_notpsc.1 hlptr_notpsc.2]
              exact hsib0get
            rw [hsibid] at hsib2
            injection hsib2 with hsibeq
            have hsibeq2 := hsibeq.symm
            subst hsibeq2
            -- the merged node
            unfold nodeMerge at hmerge
            split at hmerge
            · rename_i hbtyeq
              injection hmerge with hmergeeq
              subst hmergeeq
              obtain ⟨hget3, hnext3, hfr3⟩ := stGet_stDel hdel3
              obtain ⟨hmpg, hnext4, hfr4, hsz4, hget4⟩ := stGet_stNew hnew
              subst hmpg
              -- the sibling reified in st4
              have hwfsib : wfN f st sib := by
                obtain ⟨cnx, hcnx, hwfx, _⟩ := wf_child hleaf hnode hwf (by omega : nodeLookupLE nd k - 1 < nd.entries.length)
                rw [hsib0get] at hcnx
                injection hcnx with hcnxe
                subst hcnxe
                exact hwfx
              have hchain4 : ∀ p, p < st.next → p ∉ psc → p ≠ kptr →
                  p ≠ (nd.entries.getD (nodeLookupLE nd k - 1) defEntry).ptr →
                  stGet st4 p = stGet st p := by
                intro p h1 h2 h3 h4
                rw [hget4 p, if_neg (by omega), hget3 p, if_neg h4, hchain2 p h1 h2 h3]
              have hagree_sib : ∀ p ∈ psib, stGet st4 p = stGet st p := by
                intro p hp
                refine hchain4 p (hlt p (hpsib_mem p hp)) (hpsib_notpsc p hp).1
                  (hpsib_notpsc p hp).2 ?_
                intro hpe
                subst hpe
                exact hlnpsib hp
              obtain ⟨hMsib4, hpsib4, hwfsib4imp⟩ := reify_frame f hMsib hpsib hagree_sib
              obtain ⟨hMsib5, hpsib5, hwfsib5imp⟩ := reify_mono_succ f hMsib4 hpsib4
              have hwfsib5 := hwfsib5imp (hwfsib4imp hwfsib)
              -- the updated child reified in st4
              have hagree_upd : ∀ p ∈ psu', stGet st4 p = stGet st2 p := by
                intro p hp
                have hplt : p < st2.next := by
                  have := hpsclt' p hp
                  omega
                rw [hget4 p, if_neg (by omega), hget3 p, if_neg ?hne4]
                case hne4 =>
                  intro hpe
                  subst hpe
                  rcases hmemU _ hp with h | h
                  · exact hlptr_notpsc.1 h
                  · have := hlt _ hlptr_mem
                    omega
              obtain ⟨hentsU4, hpagesU4, hwfimp4⟩ :=
                reify_frame (f + 1) hentsU2 hpagesU2 hagree_upd
              have hwfU4 : updated.entries = [] ∨ wfN (f + 1) st4 updated = true := by
                rcases hwfU2 with ⟨_, h⟩ | h
                · exact Or.inl h
                · exact Or.inr (hwfimp4 h)
              -- concatenate: the merged node reifies in st4
              have hsibne : sib.entries ≠ [] := wf_node_ne hwfsib5
              obtain ⟨hwfmg, hentsmg, hpagesmg⟩ := reify_cat (x := sib) (y := updated)
                (hbtyeq).symm (Or.inr hwfsib5) hwfU4 (fun h => hsibne h.1)
                hMsib5 hpsib5 hentsU4 hpagesU4
              -- assemble the parent
              have hchainOld : ∀ p, p ∈ PA0 ∨ p ∈ PB → stGet st4 p = stGet st p := by
                intro p hp
                have hmem' : p ∈ ps := by
                  rcases hp with h | h
                  · exact hmemPA p (List.mem_append_left _ h)
                  · exact hmemPB p h
                have hnotpsc : p ∉ psc ∧ p ≠ kptr := by
                  rcases hp with h | h
                  · exact hPA0notpsc p h
                  · exact hPBnotpsc p h
                refine hchain4 p (hlt p hmem') hnotpsc.1 hnotpsc.2 ?_
                intro hpe
                subst hpe
                rcases hp with h | h
                · exact hdisjPA0L h (List.mem_cons_self _ _)
                · exact hdisjAMB (List.mem_append_left _
                    (List.mem_append_right _ (List.mem_cons_self _ _))) h
              obtain ⟨hA0seq4, hPA0seq4, hallA04⟩ := segment_transfer hA0seq hPA0seq
                (fun p hp => hchainOld p (Or.inl hp))
                (hallP _ (fun e he => List.mem_of_mem_take he))
              obtain ⟨hBseq4, hPB4, hallB4⟩ := segment_transfer hBseq hPB
                (fun p hp => hchainOld p (Or.inr hp))
                (hallP _ (fun e he => List.mem_of_mem_drop he))
              have hmgget : stGet st4 st3.next = some ⟨sib.btype, sib.entries ++ updated.entries⟩ := by
                rw [hget4, if_pos rfl]
              obtain ⟨hwfnn, hentsnn, hpagesnn⟩ := splice_one hA0seq4 hPA0seq4 hBseq4 hPB4
                hallA04 hallB4 hmgget hwfmg hentsmg hpagesmg
              -- the result of nodeReplace2Kid
              have hdropeq : nodeLookupLE nd k - 1 + 2 = nodeLookupLE nd k + 1 := by omega
              have hfinst : st4 = st' ∧
                  (some (nodeReplace2Kid nd (nodeLookupLE nd k - 1) st3.next
                    (getKeyD ⟨sib.btype, sib.entries ++ updated.entries⟩ 0)) : Option BNode) = r := by
                simp only [Option.pure_def, Option.some.injEq] at heqf
                exact ⟨congrArg Prod.fst heqf, congrArg Prod.snd heqf⟩
              obtain ⟨hst4, hrr⟩ := hfinst
              subst hst4
              refine Or.inr ⟨hlookT, by omega, ?_, _, hrr.symm, ?_, ?_,
                PA0 ++ ((st3.next :: (psib ++ psu')) ++ PB), ?_, ?_, ?_, Or.inr ?_⟩
              · intro p h1 h2
                refine hchain4 p h1 (fun hp => h2 (hmempsc p hp))
                  (fun hp => h2 (hp ▸ hkp_ps)) ?_
                intro hpe
                exact h2 (hpe ▸ hlptr_mem)
              · unfold nodeReplace2Kid
                exact hnode.symm
              · unfold nodeReplace2Kid
                rw [hdropeq, hentsnn, hkErase]
                simp [List.append_assoc]
              · unfold nodeReplace2Kid
                rw [hdropeq]
                exact hpagesnn
              · intro p hp
                rcases List.mem_append.mp hp with hp1 | hp1
                · exact Or.inl (hmemPA p (List.mem_append_left _ hp1))
                · rcases List.mem_append.mp hp1 with hp2 | hp2
                  · rcases List.mem_cons.mp hp2 with hp3 | hp3
                    · right
                      subst hp3
                      omega
                    · rcases List.mem_append.mp hp3 with hp4 | hp4
                      · exact Or.inl (hpsib_mem p hp4)
                      · rcases hmemU p hp4 with h | h
                        · exact Or.inl (hmempsc p h)
                        · right
                          omega
                  · exact Or.inl (hmemPB p hp2)
              · rw [List.nodup_append]
                refine ⟨hndPA0, ?_, ?_⟩
                · rw [List.nodup_append, List.nodup_cons, List.nodup_append]
                  refine ⟨⟨?_, hndpsib, hndU, ?_⟩, hndPB, ?_⟩
                  · intro hin
                    rcases List.mem_append.mp hin with h | h
                    · have := hlt _ (hpsib_mem _ h)
                      omega
                    · have := hpsclt' _ h
                      omega
                  · intro q hq hq'
                    rcases hmemU q hq' with h | h
                    · exact (hpsib_notpsc q hq).1 h
                    · have := hlt q (hpsib_mem q hq)
                      omega
                  · intro q hq hqb
                    rcases List.mem_cons.mp hq with h | h
                    · have hq' := hlt q (hmemPB q hqb)
                      rw [h] at hq'
                      omega
                    · rcases List.mem_append.mp h with h1 | h1
                      · exact hdisjAMB (List.mem_append_left _ (List.mem_append_right _
                          (List.mem_cons_of_mem _ h1))) hqb
                      · rcases hmemU q h1 with h2 | h2
                        · exact (hPBnotpsc q hqb).1 h2
                        · have := hlt q (hmemPB q hqb)
                          omega
                · intro q hqa hqrest
                  rcases List.mem_append.mp hqrest with h | h
                  · rcases List.mem_cons.mp h with h1 | h1
                    · have hq' := hlt q (hmemPA q (List.mem_append_left _ hqa))
                      rw [h1] at hq'
                      omega
                    · rcases List.mem_append.mp h1 with h2 | h2
                      · exact hdisjPA0L hqa (List.mem_cons_of_mem _ h2)
                      · rcases hmemU q h2 with h3 | h3
                        · exact (hPA0notpsc q hqa).1 h3
                        · have := hlt q (hmemPA q (List.mem_append_left _ hqa))
                          omega
                  · exact hdisjAMB (List.mem_append_left _ (List.mem_append_left _ hqa)) h
              · unfold nodeReplace2Kid
                rw [hdropeq]
                exact hwfnn
            · exact Option.noConfusion hmerge
          | right sib =>
            dsimp only at hmatch2
            simp only [bind, Option.bind_eq_some] at hmatch2
            obtain ⟨merged, hmerge, rp, hrp, st3, hdel3, ⟨st4, mpg⟩, hnew, heqf⟩ := hmatch2
            dsimp only at hnew heqf
            obtain ⟨hlen1, hsib2⟩ := shouldMerge_right hsm
            unfold getPtr at hrp
            rw [if_pos hlen1] at hrp
            injection hrp with hrp'
            subst hrp'
            rw [drop_eq_getD_cons hlen1 defEntry] at hBseq hPB
            rw [seqKids_cons_eq_some] at hBseq hPB
            obtain ⟨Msib, B0, hgsib, hB0seq, hBeq⟩ := hBseq
            obtain ⟨Psib1, PB0, hgsibP, hPB0seq, hPBeq⟩ := hPB
            simp only [bind, Option.bind_eq_some] at hgsib
            obtain ⟨sib0, hsib0get, hMsib⟩ := hgsib
            simp only [bind, Option.bind_eq_some, Option.pure_def, Option.some.injEq] at hgsibP
            obtain ⟨sib0', hsib0get', psib, hpsib, hPsib1eq⟩ := hgsibP
            rw [hsib0get] at hsib0get'
            injection hsib0get' with hsib0eq
            subst hsib0eq
            subst hPsib1eq
            subst hBeq
            subst hPBeq
            have h22 : nodeLookupLE nd k + 1 + 1 = nodeLookupLE nd k + 2 := by omega
            rw [h22] at hB0seq hPB0seq
            have hrptr_mem : (nd.entries.getD (nodeLookupLE nd k + 1) defEntry).ptr ∈ ps := by
              rw [hpsplit]
              exact List.mem_append_right _ (List.mem_append_left _ (List.mem_cons_self _ _))
            have hpsib_mem : ∀ p ∈ psib, p ∈ ps := by
              intro p hp
              rw [hpsplit]
              exact List.mem_append_right _ (List.mem_append_left _ (List.mem_cons_of_mem _ hp))
            have hmemPB0 : ∀ p ∈ PB0, p ∈ ps := by
              intro p hp
              rw [hpsplit]
              exact List.mem_append_right _ (List.mem_append_right _ hp)
            have hndPBfull := hndPB
            rw [List.nodup_append, List.nodup_cons] at hndPBfull
            obtain ⟨⟨hrnpsib, hndpsib⟩, hndPB0, hdisjRP⟩ := hndPBfull
            have hrptr_notpsc :
                (nd.entries.getD (nodeLookupLE nd k + 1) defEntry).ptr ∉ psc ∧
                (nd.entries.getD (nodeLookupLE nd k + 1) defEntry).ptr ≠ kptr :=
              hPBnotpsc _ (List.mem_append_left _ (List.mem_cons_self _ _))
            have hpsib_notpsc : ∀ p ∈ psib, p ∉ psc ∧ p ≠ kptr := by
              intro p hp
              exact hPBnotpsc p (List.mem_append_left _ (List.mem_cons_of_mem _ hp))
            have hPB0notpsc : ∀ p ∈ PB0, p ∉ psc ∧ p ≠ kptr := by
              intro p hp
              exact hPBnotpsc p (List.mem_append_right _ hp)
            have hsibid : stGet st2 ((nd.entries.getD (nodeLookupLE nd k + 1) defEntry).ptr) =
                some sib0 := by
              rw [hchain2 _ (hlt _ hrptr_mem) hrptr_notpsc.1 hrptr_notpsc.2]
              exact hsib0get
            rw [hsibid] at hsib2
            injection hsib2 with hsibeq
            have hsibeq2 := hsibeq.symm
            subst hsibeq2
            unfold nodeMerge at hmerge
            split at hmerge
            · rename_i hbtyeq
              injection hmerge with hmergeeq
              subst hmergeeq
              obtain ⟨hget3, hnext3, hfr3⟩ := stGet_stDel hdel3
              obtain ⟨hmpg, hnext4, hfr4, hsz4, hget4⟩ := stGet_stNew hnew
              subst hmpg
              have hwfsib : wfN f st sib := by
                obtain ⟨cnx, hcnx, hwfx, _⟩ := wf_child hleaf hnode hwf hlen1
                rw [hsib0get] at hcnx
                injection hcnx with hcnxe
                subst hcnxe
                exact hwfx
              have hchain4 : ∀ p, p < st.next → p ∉ psc → p ≠ kptr →
                  p ≠ (nd.entries.getD (nodeLookupLE nd k + 1) defEntry).ptr →
                  stGet st4 p = stGet st p := by
                intro p h1 h2 h3 h4
                rw [hget4 p, if_neg (by omega), hget3 p, if_neg h4, hchain2 p h1 h2 h3]
              have hagree_sib : ∀ p ∈ psib, stGet st4 p = stGet st p := by
                intro p hp
                refine hchain4 p (hlt p (hpsib_mem p hp)) (hpsib_notpsc p hp).1
                  (hpsib_notpsc p hp).2 ?_
                intro hpe
                subst hpe
                exact hrnpsib hp
              obtain ⟨hMsib4, hpsib4, hwfsib4imp⟩ := reify_frame f hMsib hpsib hagree_sib
              obtain ⟨hMsib5, hpsib5, hwfsib5imp⟩ := reify_mono_succ f hMsib4 hpsib4
              have hwfsib5 := hwfsib5imp (hwfsib4imp hwfsib)
              have hagree_upd : ∀ p ∈ psu', stGet st4 p = stGet st2 p := by
                intro p hp
                have hplt : p < st2.next := by
                  have := hpsclt' p hp
                  omega
                rw [hget4 p, if_neg (by omega), hget3 p, if_neg ?hne4r]
                case hne4r =>
                  intro hpe
                  subst hpe
                  rcases hmemU _ hp with h | h
                  · exact hrptr_notpsc.1 h
                  · have := hlt _ hrptr_mem
                    omega
              obtain ⟨hentsU4, hpagesU4, hwfimp4⟩ :=
                reify_frame (f + 1) hentsU2 hpagesU2 hagree_upd
              have hwfU4 : updated.entries = [] ∨ wfN (f + 1) st4 updated = true := by
                rcases hwfU2 with ⟨_, h⟩ | h
                · exact Or.inl h
                · exact Or.inr (hwfimp4 h)
              have hsibne : sib.entries ≠ [] := wf_node_ne hwfsib5
              obtain ⟨hwfmg, hentsmg, hpagesmg⟩ := reify_cat (x := updated) (y := sib)
                hbtyeq.symm hwfU4 (Or.inr hwfsib5) (fun h => hsibne h.2)
                hentsU4 hpagesU4 hMsib5 hpsib5
              have hchainOld : ∀ p, p ∈ PA ∨ p ∈ PB0 → stGet st4 p = stGet st p := by
                intro p hp
                have hmem' : p ∈ ps := by
                  rcases hp with h | h
                  · exact hmemPA p h
                  · exact hmemPB0 p h
                have hnotpsc : p ∉ psc ∧ p ≠ kptr := by
                  rcases hp with h | h
                  · exact hPAnotpsc p h
                  · exact hPB0notpsc p h
                refine hchain4 p (hlt p hmem') hnotpsc.1 hnotpsc.2 ?_
                intro hpe
                subst hpe
                rcases hp with h | h
                · exact hdisjAMB (List.mem_append_left _ h)
                    (List.mem_append_left _ (List.mem_cons_self _ _))
                · exact hdisjRP (List.mem_cons_self _ _) h
              obtain ⟨hAseq4, hPA4, hallA4⟩ := segment_transfer hAseq hPA
                (fun p hp => hchainOld p (Or.inl hp))
                (hallP _ (fun e he => List.mem_of_mem_take he))
              obtain ⟨hB0seq4, hPB04, hallB04⟩ := segment_transfer hB0seq hPB0seq
                (fun p hp => hchainOld p (Or.inr hp))
                (hallP _ (fun e he => List.mem_of_mem_drop he))
              have hmgget : stGet st4 st3.next =
                  some ⟨updated.btype, updated.entries ++ sib.entries⟩ := by
                rw [hget4, if_pos rfl]
              obtain ⟨hwfnn, hentsnn, hpagesnn⟩ := splice_one hAseq4 hPA4 hB0seq4 hPB04
                hallA4 hallB04 hmgget hwfmg hentsmg hpagesmg
              have hfinst : st4 = st' ∧
                  (some (nodeReplace2Kid nd (nodeLookupLE nd k) st3.next
                    (getKeyD ⟨updated.btype, updated.entries ++ sib.entries⟩ 0)) : Option BNode) = r := by
                simp only [Option.pure_def, Option.some.injEq] at heqf
                exact ⟨congrArg Prod.fst heqf, congrArg Prod.snd heqf⟩
              obtain ⟨hst4, hrr⟩ := hfinst
              subst hst4
              refine Or.inr ⟨hlookT, by omega, ?_, _, hrr.symm, ?_, ?_,
                PA ++ ((st3.next :: (psu' ++ psib)) ++ PB0), ?_, ?_, ?_, Or.inr ?_⟩
              · intro p h1 h2
                refine hchain4 p h1 (fun hp => h2 (hmempsc p hp))
                  (fun hp => h2 (hp ▸ hkp_ps)) ?_
                intro hpe
                exact h2 (hpe ▸ hrptr_mem)
              · unfold nodeReplace2Kid
                exact hnode.symm
              · unfold nodeReplace2Kid
                rw [hentsnn, hkErase]
                simp [List.append_assoc]
              · unfold nodeReplace2Kid
                exact hpagesnn
              · intro p hp
                rcases List.mem_append.mp hp with hp1 | hp1
                · exact Or.inl (hmemPA p hp1)
                · rcases List.mem_append.mp hp1 with hp2 | hp2
                  · rcases List.mem_cons.mp hp2 with hp3 | hp3
                    · right
                      subst hp3
                      omega
                    · rcases List.mem_append.mp hp3 with hp4 | hp4
                      · rcases hmemU p hp4 with h | h
                        · exact Or.inl (hmempsc p h)
                        · right
                          omega
                      · exact Or.inl (hpsib_mem p hp4)
                  · exact Or.inl (hmemPB0 p hp2)
              · rw [List.nodup_append]
                refine ⟨hndPA, ?_, ?_⟩
                · rw [List.nodup_append, List.nodup_cons, List.nodup_append]
                  refine ⟨⟨?_, hndU, hndpsib, ?_⟩, hndPB0, ?_⟩
                  · intro hin
                    rcases List.mem_append.mp hin with h | h
                    · have := hpsclt' _ h
                      omega
                    · have := hlt _ (hpsib_mem _ h)
                      omega
                  · intro q hq hq'
                    rcases hmemU q hq with h | h
                    · exact (hpsib_notpsc q hq').1 h
                    · have := hlt q (hpsib_mem q hq')
                      omega
                  · intro q hq hqb
                    rcases List.mem_cons.mp hq with h | h
                    · have hq' := hlt q (hmemPB0 q hqb)
                      rw [h] at hq'
                      omega
                    · rcases List.mem_append.mp h with h1 | h1
                      · rcases hmemU q h1 with h2 | h2
                        · exact (hPB0notpsc q hqb).1 h2
                        · have := hlt q (hmemPB0 q hqb)
                          omega
                      · exact hdisjRP (List.mem_cons_of_mem _ h1) hqb
                · intro q hqa hqrest
                  rcases List.mem_append.mp hqrest with h | h
                  · rcases List.mem_cons.mp h with h1 | h1
                    · have hq' := hlt q (hmemPA q hqa)
                      rw [h1] at hq'
                      omega
                    · rcases List.mem_append.mp h1 with h2 | h2
                      · rcases hmemU q h2 with h3 | h3
                        · exact (hPAnotpsc q hqa).1 h3
                        · have := hlt q (hmemPA q hqa)
                          omega
                      · exact hdisjAMB (List.mem_append_left _ hqa)
                          (List.mem_append_left _ (List.mem_cons_of_mem _ h2))
                  · exact hdisjAMB (List.mem_append_left _ hqa)
                      (List.mem_append_right _ h)
              · unfold nodeReplace2Kid
                exact hwfnn
            · exact Option.noConfusion hmerge

theorem not_bLt_nil (a : List Nat) : ¬ bLt a [] := by
  cases a <;> simp [bLt, bytesCompare]

theorem kvIns_head_sentinel {l : List (List Nat × List Nat)} {k v : List Nat}
    (hh : (keysOf l).head? = some []) (hk : k ≠ []) :
    (keysOf (kvIns l k v)).head? = some [] := by
  cases l with
  | nil => simp [keysOf] at hh
  | cons e es =>
    have he : e.1 = [] := by simpa [keysOf] using hh
    rw [kvIns, he, if_neg (not_bLt_nil k), if_neg (fun h => hk h.symm)]
    simpa [keysOf] using he

theorem kvErase_head_sentinel {l : List (List Nat × List Nat)} {k : List Nat}
    (hh : (keysOf l).head? = some []) (hk : k ≠ []) :
    (keysOf (kvErase l k)).head? = some [] := by
  cases l with
  | nil => simp [keysOf] at hh
  | cons e es =>
    have he : e.1 = [] := by simpa [keysOf] using hh
    rw [kvErase, he, if_neg (fun h => hk h.symm)]
    simpa [keysOf] using he

/-- A successful descent that misses: `treeDelete` returns the untouched
store and the `nil` result whenever it has enough fuel and the key is absent. -/
theorem treeDelete_miss : ∀ (f : Nat) {F : Nat} {st : Store} {nd : BNode}
    {l : List (List Nat × List Nat)} {k : List Nat},
    wfN f st nd = true → entsN f st nd = some l →
    List.Chain' bLt (keysOf l) →
    (∀ h0 ∈ (keysOf l).head?, bLe h0 k) →
    (lookupKV l k).2 = false →
    f ≤ F →
    treeDelete F st nd k = some (st, none) := by
  intro f
  induction f with
  | zero =>
    intro F st nd l k hwf _ _ _ _ _
    rw [wfN] at hwf
    exact absurd hwf (by simp)
  | succ f ihf =>
    intro F st nd l k hwf hents hsort hhead hmiss hF
    cases F with
    | zero => omega
    | succ F =>
    have hnotmem : k ∉ keysOf l := lookupKV_false_iff.mp hmiss
    unfold treeDelete
    by_cases hleaf : nd.btype = BN_LEAF
    · rw [if_pos hleaf]
      rw [entsN, if_pos hleaf] at hents
      rw [wfN, if_pos hleaf, decide_eq_true_eq] at hwf
      cases hents
      have hidx : nodeLookupLE nd k < nd.entries.length :=
        nodeLookupLE_lt (List.length_pos.mpr hwf)
      have hne2 : getKeyD nd (nodeLookupLE nd k) ≠ k := by
        intro heq
        refine hnotmem ?_
        rw [keysOf_map_kv]
        rw [getKeyD] at heq
        rw [← heq]
        exact List.mem_map_of_mem _ (getD_mem _ hidx)
      rw [if_neg hne2]
    · rw [if_neg hleaf]
      have hnode : nd.btype = BN_NODE := by
        have h := hwf
        rw [wfN] at h
        by_cases hn : nd.btype = BN_NODE
        · exact hn
        · rw [if_neg hleaf, if_neg hn] at h
          exact absurd h (by simp)
      have hne : nd.entries ≠ [] := wf_node_ne hwf
      have hidxlen : nodeLookupLE nd k < nd.entries.length :=
        nodeLookupLE_lt (List.length_pos.mpr hne)
      obtain ⟨cn, A, M, B, hcn, hwfc, hM, hlABM, hMne, hchainM, hfkM, hAk, hBk, hA0,
        hAX, hMB, hAseq, hBseq⟩ :=
        descend_decomp (f := f) (k := k) hleaf hnode hwf hents hsort
      have hMhead : ∀ h0 ∈ (keysOf M).head?, bLe h0 k := by
        intro h0 hh0
        rw [keysOf_head, hfkM] at hh0
        have hh0' : getKeyD nd (nodeLookupLE nd k) = h0 := by simpa using hh0
        subst hh0'
        by_cases h0i : nodeLookupLE nd k = 0
        · have hA' := hA0 h0i
          subst hA'
          simp only [List.nil_append] at hlABM
          have hKM : keysOf M ≠ [] := by
            simpa [keysOf] using hMne
          have hh : (keysOf l).head? = some (getKeyD nd (nodeLookupLE nd k)) := by
            rw [hlABM, keysOf_append, head?_append_of_ne hKM, keysOf_head, hfkM]
          exact hhead _ (by rw [hh]; rfl)
        · exact nodeLookupLE_le h0i
      have hmissM : (lookupKV M k).2 = false := by
        rw [lookupKV_false_iff]
        intro hm
        refine hnotmem ?_
        rw [hlABM, keysOf_append, keysOf_append]
        exact List.mem_append_left _ (List.mem_append_right _ hm)
      have hrec := ihf (F := F) hwfc hM hchainM hMhead hmissM (by omega)
      simp only [bind]
      rw [getPtr, if_pos hidxlen, Option.some_bind, hcn, Option.some_bind, hrec,
        Option.some_bind]
      rfl

/-- The tree-handle invariant with the abstract entry list exposed: the handle
is empty, or the root page holds a well-formed subtree whose flattened entries
are `l`, sorted, starting with the zero-length sentinel, on distinct live
pages. -/
def WFtreeL (f : Nat) (st : Store) (root : Nat) (l : List (List Nat × List Nat)) : Prop :=
  0 < st.next ∧
  ((root = 0 ∧ l = []) ∨
   (root ≠ 0 ∧ ∃ rn ps, stGet st root = some rn ∧ wfN f st rn = true ∧
      entsN f st rn = some l ∧ pagesN f st rn = some ps ∧
      List.Chain' bLt (keysOf l) ∧ (keysOf l).head? = some [] ∧
      (root :: ps).Nodup ∧ (∀ p ∈ root :: ps, 0 < p ∧ p < st.next)))

/-- Abstract effect of `Insert` on the entry list: the first insert also
creates the zero-length sentinel. -/
def absIns (l : List (List Nat × List Nat)) (k v : List Nat) :
    List (List Nat × List Nat) :=
  if l = [] then [([], []), (k, v)] else kvIns l k v

/-- A successful `Insert` of a nonempty key takes the invariant to the
abstractly-inserted entry list. -/
theorem btInsert_step {F f : Nat} {st : Store} {root : Nat} {k v : List Nat}
    {st1 : Store} {root1 : Nat} {l : List (List Nat × List Nat)}
    (hwf : WFtreeL f st root l) (hk : k ≠ [])
    (hrun : btInsert F st root k v = some (st1, root1)) :
    ∃ f1, WFtreeL f1 st1 root1 (absIns l k v) := by
  obtain ⟨hpos, hcase⟩ := hwf
  unfold btInsert at hrun
  by_cases hr0 : root = 0
  · rw [if_pos hr0] at hrun
    simp only [bind, Option.bind_eq_some, Option.pure_def, Option.some.injEq] at hrun
    obtain ⟨⟨sta, p⟩, hnew, heq⟩ := hrun
    dsimp only at hnew heq
    injection heq with he1 he2
    subst he1
    subst he2
    obtain ⟨hp, hnexta, hfra, hsz, hgeta⟩ := stGet_stNew hnew
    subst hp
    rcases hcase with ⟨_, hl⟩ | ⟨hne0, _⟩
    · subst hl
      refine ⟨1, ⟨by omega, Or.inr ⟨by omega, ⟨BN_LEAF, [defEntry, ⟨0, k, v⟩]⟩, [],
        ?_, ?_, ?_, ?_, ?_, ?_, by simp, ?_⟩⟩⟩
      · rw [hgeta, if_pos rfl]
      · rw [wfN_leaf, decide_eq_true_eq]
        simp
      · rw [entsN_leaf]
        rfl
      · rw [pagesN_leaf]
      · show List.Chain' bLt (keysOf (absIns [] k v))
        have : keysOf (absIns [] k v) = [[], k] := rfl
        rw [this]
        exact List.chain'_cons.mpr ⟨bLt_nil_of_ne hk, List.chain'_singleton k⟩
      · rfl
      · intro p hp
        rw [List.mem_singleton] at hp
        subst hp
        omega
    · exact absurd hr0 hne0
  · rw [if_neg hr0] at hrun
    rcases hcase with ⟨h0, _⟩ | ⟨_, rn, ps, hget, hwfn, hents, hpages, hchain, hheadl,
      hndl, hblt⟩
    · exact absurd h0 hr0
    have hlne : l ≠ [] := wf_ents_ne f hwfn hents
    have habs : absIns l k v = kvIns l k v := by
      rw [absIns, if_neg hlne]
    simp only [bind, Option.bind_eq_some] at hrun
    obtain ⟨rn', hget', ⟨st1', scr⟩, hins, pieces, hsp3, st2, hdel, hrun2⟩ := hrun
    dsimp only at hins hsp3 hdel hrun2
    rw [hget] at hget'
    injection hget' with he
    subst he
    have hndps : ps.Nodup := (List.nodup_cons.mp hndl).2
    have hrnin : root ∉ ps := (List.nodup_cons.mp hndl).1
    have hplt : ∀ p ∈ ps, p < st.next := fun p hp =>
      (hblt p (List.mem_cons_of_mem _ hp)).2
    have hppos : ∀ p ∈ ps, 0 < p := fun p hp =>
      (hblt p (List.mem_cons_of_mem _ hp)).1
    have hhead' : ∀ h0 ∈ (keysOf l).head?, bLe h0 k := by
      intro h0 hh0
      rw [hheadl] at hh0
      have h0e : ([] : List Nat) = h0 := by simpa using hh0
      rw [← h0e]
      exact bLe_nil k
    obtain ⟨ps', hwf1, hents1, hpages1, hnext1, hframe1, hmem1, hnd1⟩ :=
      treeInsert_sim F hins hwfn hents hpages hchain hhead' hndps hplt
    obtain ⟨hpne, hjoin, hty⟩ := nodeSplit3_spec (wf_node_ne hwf1) hsp3
    obtain ⟨LPs, hLflat, hPflat, hF2⟩ := segment_reify hwf1 hents1 hpages1 hjoin hty
    obtain ⟨hget2, hnext2, hfr2⟩ := stGet_stDel hdel
    have hrootlt : root < st.next := (hblt root (List.mem_cons_self _ _)).2
    have hroot_nin : root ∉ ps' := by
      intro hin
      rcases hmem1 root hin with h | h
      · exact hrnin h
      · omega
    have hpslt' : ∀ p ∈ ps', p < st1'.next := by
      intro p hp
      rcases hmem1 p hp with h | h
      · have := hplt p h
        omega
      · omega
    have hagree12 : ∀ p ∈ ps', stGet st2 p = stGet st1' p := by
      intro p hp
      have hpne' : p ≠ root := by
        intro h
        subst h
        exact hroot_nin hp
      rw [hget2 p, if_neg hpne']
    have hF3 : List.Forall₂ (fun pc lp => wfN (f + 1) st2 pc = true ∧
        entsN (f + 1) st2 pc = some lp.1 ∧ pagesN (f + 1) st2 pc = some lp.2) pieces LPs := by
      refine forall₂_mem_imp hF2 ?_
      intro pc lp _ hlp hR
      obtain ⟨hw, he, hp⟩ := hR
      have hsub : ∀ p ∈ lp.2, stGet st2 p = stGet st1' p := by
        intro p hpmem
        refine hagree12 p ?_
        rw [← hPflat]
        exact List.mem_flatten.mpr ⟨lp.2, List.mem_map_of_mem _ hlp, hpmem⟩
      obtain ⟨he2, hp2, hw2⟩ := reify_frame (f + 1) he hp hsub
      exact ⟨hw2 hw, he2, hp2⟩
    split at hrun2
    · -- a split at the root: a fresh internal root above the pieces
      rename_i hlen2
      simp only [bind, Option.bind_eq_some, Option.pure_def, Option.some.injEq] at hrun2
      obtain ⟨⟨st3, pks⟩, halloc, ⟨st4, rp⟩, hnew, heq⟩ := hrun2
      dsimp only at halloc hnew heq
      injection heq with he1 he2
      subst he1
      subst he2
      obtain ⟨hnext3, hsnd, hfr3, hget3, hmem3, hndpks⟩ := allocKids_spec halloc
      obtain ⟨hrp, hnext4, hfr4, hsz4, hget4⟩ := stGet_stNew hnew
      subst hrp
      have hagree23 : ∀ p ∈ ps', stGet st3 p = stGet st2 p := by
        intro p hp
        refine hget3 p ?_
        have := hpslt' p hp
        omega
      have hF4 : List.Forall₂ (fun pc lp => wfN (f + 1) st3 pc = true ∧
          entsN (f + 1) st3 pc = some lp.1 ∧ pagesN (f + 1) st3 pc = some lp.2) pieces LPs := by
        refine forall₂_mem_imp hF3 ?_
        intro pc lp _ hlp hR
        obtain ⟨hw, he, hp⟩ := hR
        have hsub : ∀ p ∈ lp.2, stGet st3 p = stGet st2 p := by
          intro p hpmem
          refine hagree23 p ?_
          rw [← hPflat]
          exact List.mem_flatten.mpr ⟨lp.2, List.mem_map_of_mem _ hlp, hpmem⟩
        obtain ⟨he2, hp2, hw2⟩ := reify_frame (f + 1) he hp hsub
        exact ⟨hw2 hw, he2, hp2⟩
      have hagree34 : ∀ p, p < st3.next → stGet st4 p = stGet st3 p := by
        intro p hp
        rw [hget4 p, if_neg (by omega)]
      have hF5 : List.Forall₂ (fun pc lp => wfN (f + 1) st4 pc = true ∧
          entsN (f + 1) st4 pc = some lp.1 ∧ pagesN (f + 1) st4 pc = some lp.2) pieces LPs := by
        refine forall₂_mem_imp hF4 ?_
        intro pc lp _ hlp hR
        obtain ⟨hw, he, hp⟩ := hR
        have hsub : ∀ p ∈ lp.2, stGet st4 p = stGet st3 p := by
          intro p hpmem
          refine hagree34 p ?_
          have hmem' : p ∈ ps' := by
            rw [← hPflat]
            exact List.mem_flatten.mpr ⟨lp.2, List.mem_map_of_mem _ hlp, hpmem⟩
          have := hpslt' p hmem'
          omega
        obtain ⟨he2, hp2, hw2⟩ := reify_frame (f + 1) he hp hsub
        exact ⟨hw2 hw, he2, hp2⟩
      rw [← hsnd] at hF5
      have hgetpk : ∀ pk ∈ pks, stGet st4 pk.1 = some pk.2 := by
        intro pk hpk
        have h := hmem3 pk hpk
        rw [hagree34 pk.1 h.2.1]
        exact h.2.2.1
      obtain ⟨hNE, hNP, hNW⟩ := newkids_reify (f + 1) st4 pks LPs hF5 hgetpk
      have hpksne : pks ≠ [] := by
        intro h
        rw [h] at hsnd
        exact hpne (by simpa using hsnd.symm)
      have hlenpks : pks.length = LPs.length := by
        have h := List.Forall₂.length_eq hF5
        rwa [List.length_map] at h
      have hheadsfresh : ∀ q ∈ pks.map Prod.fst, st2.next ≤ q ∧ q < st3.next := by
        intro q hq
        rw [List.mem_map] at hq
        obtain ⟨pk, hpk, rfl⟩ := hq
        exact ⟨(hmem3 pk hpk).1, (hmem3 pk hpk).2.1⟩
      obtain ⟨hNKnd, hNKmem⟩ := zipflat_facts pks LPs hlenpks hndpks
        (by rw [hPflat]; exact hnd1)
        (by
          intro p hp hmem
          rw [hPflat] at hmem
          have h1 := (hheadsfresh p hp).1
          have h2 := hpslt' p hmem
          omega)
      refine ⟨f + 1 + 1, ⟨by omega, Or.inr ⟨by omega, ⟨BN_NODE,
        pks.map (fun pk => Entry.mk pk.1 (getKeyD pk.2 0) [])⟩,
        (List.zipWith (fun (pk : Nat × BNode) lp => pk.1 :: lp.2) pks LPs).flatten,
        ?_, ?_, ?_, ?_, ?_, ?_, ?_, ?_⟩⟩⟩
      · rw [hget4, if_pos rfl]
      · rw [wfN_node, Bool.and_eq_true, decide_eq_true_eq]
        refine ⟨?_, hNW⟩
        intro hE
        rw [List.map_eq_nil_iff] at hE
        exact hpksne hE
      · rw [entsN_node, habs, ← hLflat]
        exact hNE
      · rw [pagesN_node]
        exact hNP
      · rw [habs]
        exact kvIns_sorted hchain
      · rw [habs]
        exact kvIns_head_sentinel hheadl hk
      · rw [List.nodup_cons]
        refine ⟨?_, hNKnd⟩
        intro hin
        rcases hNKmem _ hin with h | h
        · have := hheadsfresh _ h
          omega
        · rw [hPflat] at h
          have := hpslt' _ h
          omega
      · intro p hp
        rcases List.mem_cons.mp hp with hp1 | hp1
        · subst hp1
          omega
        · rcases hNKmem p hp1 with h | h
          · have := hheadsfresh p h
            omega
          · rw [hPflat] at h
            rcases hmem1 p h with h2 | h2
            · have h3 := hppos p h2
              have h4 := hplt p h2
              omega
            · omega
    · -- no split at the root: the single piece becomes the new root
      rename_i hlen1
      simp only [bind, Option.bind_eq_some, Option.pure_def, Option.some.injEq] at hrun2
      obtain ⟨⟨st3, rp⟩, hnew, heq⟩ := hrun2
      dsimp only at hnew heq
      injection heq with he1 he2
      subst he1
      subst he2
      obtain ⟨pc, hpieces⟩ : ∃ pc, pieces = [pc] := by
        cases pieces with
        | nil => exact absurd rfl hpne
        | cons pc rest =>
          cases rest with
          | nil => exact ⟨pc, rfl⟩
          | cons x xs => simp at hlen1
      subst hpieces
      obtain ⟨lp, hLPs⟩ : ∃ lp, LPs = [lp] := by
        have hl1 : LPs.length = 1 := by
          have h := List.Forall₂.length_eq hF3
          simpa using h.symm
        cases LPs with
        | nil => simp at hl1
        | cons x xs =>
          cases xs with
          | nil => exact ⟨x, rfl⟩
          | cons y ys => simp at hl1
      subst hLPs
      have hpcfacts : wfN (f + 1) st2 pc = true ∧ entsN (f + 1) st2 pc = some lp.1 ∧
          pagesN (f + 1) st2 pc = some lp.2 := by
        cases hF3 with
        | cons hhd _ => exact hhd
      have hlp1 : lp.1 = kvIns l k v := by
        have h := hLflat
        simpa using h
      have hlp2 : lp.2 = ps' := by
        have h := hPflat
        simpa using h
      obtain ⟨hrp, hnext3, hfr3, hsz3, hget3⟩ := stGet_stNew hnew
      subst hrp
      have hhd : ([pc].headD ⟨BN_LEAF, []⟩) = pc := rfl
      rw [hhd] at hget3
      have hagree23 : ∀ p ∈ lp.2, stGet st3 p = stGet st2 p := by
        intro p hp
        rw [hlp2] at hp
        rw [hget3 p, if_neg (by have := hpslt' p hp; omega)]
      obtain ⟨hentspc, hpagespc, hwfimppc⟩ :=
        reify_frame (f + 1) hpcfacts.2.1 hpcfacts.2.2 hagree23
      refine ⟨f + 1, ⟨by omega, Or.inr ⟨by omega, pc, lp.2, ?_, hwfimppc hpcfacts.1,
        ?_, hpagespc, ?_, ?_, ?_, ?_⟩⟩⟩
      · rw [hget3, if_pos rfl]
      · rw [hentspc, hlp1, habs]
      · rw [habs]
        exact kvIns_sorted hchain
      · rw [habs]
        exact kvIns_head_sentinel hheadl hk
      · rw [List.nodup_cons, hlp2]
        refine ⟨?_, hnd1⟩
        intro hin
        have := hpslt' _ hin
        omega
      · intro p hp
        rcases List.mem_cons.mp hp with hp1 | hp1
        · subst hp1
          omega
        · rw [hlp2] at hp1
          rcases hmem1 p hp1 with h | h
          · have h3 := hppos p h
            have h4 := hplt p h
            omega
          · omega

/-- A successful `Delete` of a nonempty key takes the invariant to the
abstractly-erased entry list and returns whether the key was present. -/
theorem btDelete_step {F f : Nat} {st : Store} {root : Nat} {k : List Nat}
    {st1 : Store} {root1 : Nat} {b : Bool} {l : List (List Nat × List Nat)}
    (hwf : WFtreeL f st root l) (hk : k ≠ [])
    (hrun : btDelete F st root k = some (st1, root1, b)) :
    ∃ f1, WFtreeL f1 st1 root1 (kvErase l k) ∧ b = (lookupKV l k).2 := by
  obtain ⟨hpos, hcase⟩ := hwf
  unfold btDelete at hrun
  by_cases hr0 : root = 0
  · rw [if_pos hr0] at hrun
    injection hrun with hrun'
    have h1 : st = st1 := congrArg Prod.fst hrun'
    have h2 : root = root1 := congrArg (fun x => x.2.1) hrun'
    have h3 : false = b := congrArg (fun x => x.2.2) hrun'
    rcases hcase with ⟨_, hl⟩ | ⟨hne0, _⟩
    · subst hl
      refine ⟨f, ⟨?_, ?_⟩⟩
      · rw [← h1, ← h2]
        exact ⟨hpos, Or.inl ⟨hr0, rfl⟩⟩
      · rw [← h3]
        rfl
    · exact absurd hr0 hne0
  · rw [if_neg hr0] at hrun
    rcases hcase with ⟨h0, _⟩ | ⟨_, rn, ps, hget, hwfn, hents, hpages, hchain, hheadl,
      hndl, hblt⟩
    · exact absurd h0 hr0
    simp only [bind, Option.bind_eq_some] at hrun
    obtain ⟨rn', hget', ⟨st1', upd?⟩, htd, hmatch⟩ := hrun
    dsimp only at htd hmatch
    rw [hget] at hget'
    injection hget' with he
    subst he
    have hndps : ps.Nodup := (List.nodup_cons.mp hndl).2
    have hrnin : root ∉ ps := (List.nodup_cons.mp hndl).1
    have hplt : ∀ p ∈ ps, p < st.next := fun p hp =>
      (hblt p (List.mem_cons_of_mem _ hp)).2
    have hppos : ∀ p ∈ ps, 0 < p := fun p hp =>
      (hblt p (List.mem_cons_of_mem _ hp)).1
    have hrootlt : root < st.next := (hblt root (List.mem_cons_self _ _)).2
    have hhead' : ∀ h0 ∈ (keysOf l).head?, bLe h0 k := by
      intro h0 hh0
      rw [hheadl] at hh0
      have h0e : ([] : List Nat) = h0 := by simpa using hh0
      rw [← h0e]
      exact bLe_nil k
    cases upd? with
    | none =>
      dsimp only at hmatch
      simp only [Option.pure_def, Option.some.injEq] at hmatch
      have h1 : st1' = st1 := congrArg Prod.fst hmatch
      have h2 : root = root1 := congrArg (fun x => x.2.1) hmatch
      have h3 : false = b := congrArg (fun x => x.2.2) hmatch
      rcases treeDelete_sim F htd hwfn hents hpages hchain hhead' hndps hplt with
        ⟨_, hst1eq, hlookF⟩ | ⟨_, _, _, nd', hr', _⟩
      · have hkv : kvErase l k = l :=
          kvErase_not_mem (lookupKV_false_iff.mp hlookF)
        refine ⟨f, ⟨?_, ?_⟩⟩
        · rw [← h1, hst1eq, ← h2, hkv]
          exact ⟨hpos, Or.inr ⟨hr0, rn, ps, hget, hwfn, hents, hpages, hchain, hheadl,
            hndl, hblt⟩⟩
        · rw [← h3, hlookF]
      · exact Option.noConfusion hr'
    | some updated =>
      dsimp only at hmatch
      simp only [bind, Option.bind_eq_some] at hmatch
      obtain ⟨st2, hdel, hrest⟩ := hmatch
      rcases treeDelete_sim F htd hwfn hents hpages hchain hhead' hndps hplt with
        ⟨hr', _, _⟩ | ⟨hlookT, hnext1, hframe1, nd', hr', hbty', hentsU, ps'',
          hpagesU, hmemU, hndU, hwfU⟩
      · exact Option.noConfusion hr'
      · injection hr' with hr''
        subst hr''
        have hkvne : kvErase l k ≠ [] := by
          intro hnil
          have h := kvErase_head_sentinel hheadl hk
          rw [hnil] at h
          simp [keysOf] at h
        have hwfUu : wfN (f + 1) st1' updated = true := by
          rcases hwfU with ⟨h, _⟩ | h
          · exact absurd h hkvne
          · exact h
        have hune : updated.entries ≠ [] := wf_node_ne hwfUu
        obtain ⟨hget2, hnext2, hfr2⟩ := stGet_stDel hdel
        have hpslt'' : ∀ p ∈ ps'', p < st1'.next := by
          intro p hp
          rcases hmemU p hp with h | h
          · have := hplt p h
            omega
          · omega
        have hroot_nin : root ∉ ps'' := by
          intro hin
          rcases hmemU root hin with h | h
          · exact hrnin h
          · omega
        have hagree12 : ∀ p ∈ ps'', stGet st2 p = stGet st1' p := by
          intro p hp
          have hpne' : p ≠ root := by
            intro h
            subst h
            exact hroot_nin hp
          rw [hget2 p, if_neg hpne']
        obtain ⟨hentsU2, hpagesU2, hwfimp2⟩ := reify_frame (f + 1) hentsU hpagesU hagree12
        split at hrest
        · rename_i hcond
          exact absurd (List.eq_nil_of_length_eq_zero hcond.1) hune
        · simp only [bind, Option.bind_eq_some, Option.pure_def, Option.some.injEq] at hrest
          obtain ⟨⟨st3, rp⟩, hnew, heq⟩ := hrest
          dsimp only at hnew heq
          injection heq with he1 he2
          subst he1
          have he21 : rp = root1 := congrArg Prod.fst he2
          have he22 : true = b := congrArg Prod.snd he2
          obtain ⟨hrp, hnext3, hfr3, hsz3, hget3⟩ := stGet_stNew hnew
          subst hrp
          subst he21
          have hagree23 : ∀ p ∈ ps'', stGet st3 p = stGet st2 p := by
            intro p hp
            rw [hget3 p, if_neg (by have := hpslt'' p hp; omega)]
          obtain ⟨hentsU3, hpagesU3, hwfimp3⟩ :=
            reify_frame (f + 1) hentsU2 hpagesU2 hagree23
          refine ⟨f + 1, ⟨by omega, Or.inr ⟨by omega, updated, ps'', ?_,
            hwfimp3 (hwfimp2 hwfUu), hentsU3, hpagesU3, kvErase_sorted hchain,
            kvErase_head_sentinel hheadl hk, ?_, ?_⟩⟩, ?_⟩
          · rw [hget3, if_pos rfl]
          · rw [List.nodup_cons]
            refine ⟨?_, hndU⟩
            intro hin
            have := hpslt'' _ hin
            omega
          · intro p hp
            rcases List.mem_cons.mp hp with hp1 | hp1
            · subst hp1
              omega
            · rcases hmemU p hp1 with h | h
              · have h3 := hppos p h
                have h4 := hplt p h
                omega
              · omega
          · rw [← he22, hlookT]

theorem WFtreeL_sorted {f : Nat} {st : Store} {root : Nat}
    {l : List (List Nat × List Nat)} (h : WFtreeL f st root l) :
    List.Chain' bLt (keysOf l) := by
  rcases h.2 with ⟨_, hl⟩ | ⟨_, _, _, _, _, _, _, hchain, _⟩
  · subst hl
    simp [keysOf]
  · exact hchain

theorem lookup_absIns_other {l : List (List Nat × List Nat)} {k v q : List Nat}
    (hq0 : q ≠ []) (hqk : q ≠ k) :
    lookupKV (absIns l k v) q = lookupKV l q := by
  by_cases hl : l = []
  · subst hl
    rw [absIns, if_pos rfl]
    have h1 : lookupKV [([], []), (k, v)] q = ([], false) := by
      apply lookupKV_not_mem
      intro hm
      simp [keysOf] at hm
      rcases hm with h | h
      · exact hq0 h
      · exact hqk h
    rw [h1]
    rfl
  · rw [absIns, if_neg hl]
    exact lookupKV_kvIns_other hqk

/-- `Get` on a well-formed handle computes the association-list lookup, at any
fuel at least the handle's. -/
theorem btGet_ok {f : Nat} {st : Store} {root : Nat} {l : List (List Nat × List Nat)}
    (h : WFtreeL f st root l) :
    ∀ g, f ≤ g → ∀ k, btGet g st root k = some (lookupKV l k) := by
  intro g hg k
  obtain ⟨hpos, hcase⟩ := h
  rcases hcase with ⟨h0, hl⟩ | ⟨hne0, rn, ps, hget, hwfn, hents, hpages, hchain, _, _, _⟩
  · subst hl
    unfold btGet
    rw [if_pos h0]
    rfl
  · obtain ⟨hentsg, hpagesg, hwfg⟩ := reify_mono hg hents hpages
    unfold btGet
    rw [if_neg hne0]
    simp only [bind]
    rw [hget, Option.some_bind]
    exact treeGet_ok g (hwfg hwfn) hentsg hchain

/-- Running a sequence of well-sized operations preserves the invariant and
does not disturb the binding of any key none of the operations touches. -/
theorem runOps_wf : ∀ (ops : List DbOp) (F : Nat) {st : Store} {root : Nat}
    {l : List (List Nat × List Nat)} {st2 : Store} {root2 : Nat} {f : Nat},
    WFtreeL f st root l →
    (∀ op ∈ ops, opOK op) →
    runOps F ops (st, root) = some (st2, root2) →
    ∃ l2 f2, WFtreeL f2 st2 root2 l2 ∧
      ∀ q, q ≠ [] → (∀ op ∈ ops, opKey op ≠ q) → lookupKV l2 q = lookupKV l q := by
  intro ops
  induction ops with
  | nil =>
    intro F st root l st2 root2 f hwf _ hrun
    rw [runOps] at hrun
    injection hrun with hrun'
    have h1 : st = st2 := congrArg Prod.fst hrun'
    have h2 : root = root2 := congrArg Prod.snd hrun'
    subst h1
    subst h2
    exact ⟨l, f, hwf, fun q _ _ => rfl⟩
  | cons op ops ihops =>
    intro F st root l st2 root2 f hwf hok hrun
    cases op with
    | ins k v =>
      rw [runOps.eq_def] at hrun
      dsimp only at hrun
      rw [Option.bind_eq_some] at hrun
      obtain ⟨⟨st1, root1⟩, hbi, hrun2⟩ := hrun
      have hop : opOK (DbOp.ins k v) := hok _ (List.mem_cons_self _ _)
      have hkne : k ≠ [] := hop.1
      obtain ⟨f1, hwf1⟩ := btInsert_step hwf hkne hbi
      obtain ⟨l2, f2, hwf2, htrans⟩ := ihops F hwf1
        (fun o ho => hok o (List.mem_cons_of_mem _ ho)) hrun2
      refine ⟨l2, f2, hwf2, ?_⟩
      intro q hq0 havoid
      rw [htrans q hq0 (fun o ho => havoid o (List.mem_cons_of_mem _ ho))]
      exact lookup_absIns_other hq0
        (fun h => havoid _ (List.mem_cons_self _ _) h.symm)
    | del k =>
      rw [runOps.eq_def] at hrun
      dsimp only at hrun
      rw [Option.bind_eq_some] at hrun
      obtain ⟨⟨st1, root1, b⟩, hbd, hrun2⟩ := hrun
      dsimp only at hrun2
      have hop : opOK (DbOp.del k) := hok _ (List.mem_cons_self _ _)
      have hkne : k ≠ [] := hop
      obtain ⟨f1, hwf1, _⟩ := btDelete_step hwf hkne hbd
      obtain ⟨l2, f2, hwf2, htrans⟩ := ihops F hwf1
        (fun o ho => hok o (List.mem_cons_of_mem _ ho)) hrun2
      refine ⟨l2, f2, hwf2, ?_⟩
      intro q hq0 havoid
      rw [htrans q hq0 (fun o ho => havoid o (List.mem_cons_of_mem _ ho))]
      exact lookupKV_kvErase_other
        (fun h => havoid _ (List.mem_cons_self _ _) h.symm)
        (List.chain'_iff_pairwise.mp (WFtreeL_sorted hwf))

theorem allSorted_kids (f : Nat) (st : Store)
    (IH : ∀ {nd : BNode} {l : List (List Nat × List Nat)},
      wfN f st nd = true → entsN f st nd = some l →
      List.Pairwise bLt (keysOf l) → allNodesSortedN f st nd = true) :
    ∀ (es : List Entry) (L : List (List Nat × List Nat)),
      seqKids (fun p => do
        let cn ← stGet st p
        entsN f st cn) es = some L →
      List.Pairwise bLt (keysOf L) →
      (es.all fun e =>
        match stGet st e.ptr with
        | some cn => wfN f st cn && decide (firstKeyN f st e.ptr = some e.key)
        | none => false) = true →
      (es.all fun e =>
        match stGet st e.ptr with
        | some cn => allNodesSortedN f st cn
        | none => false) = true := by
  intro es
  induction es with
  | nil => intro L _ _ _; rfl
  | cons e es ihes =>
    intro L hseq hsp hall
    rw [seqKids_cons_eq_some] at hseq
    obtain ⟨M0, rest, hg, hrest, rfl⟩ := hseq
    simp only [bind, Option.bind_eq_some] at hg
    obtain ⟨cn, hcn, hM0⟩ := hg
    rw [List.all_cons, Bool.and_eq_true] at hall ⊢
    obtain ⟨hhd, htl⟩ := hall
    simp only [hcn, Bool.and_eq_true, decide_eq_true_eq] at hhd
    have hsp' : List.Pairwise bLt (keysOf M0 ++ keysOf rest) := by
      rw [← keysOf_append]
      exact hsp
    constructor
    · simp only [hcn]
      exact IH hhd.1 hM0 (List.pairwise_append.mp hsp').1
    · exact ihes rest hrest (List.pairwise_append.mp hsp').2.1 htl

/-- On a well-formed subtree with globally sorted entries, every node's keys
are strictly increasing. -/
theorem allSorted_of_wf : ∀ (f : Nat) {st : Store} {nd : BNode}
    {l : List (List Nat × List Nat)},
    wfN f st nd = true → entsN f st nd = some l →
    List.Pairwise bLt (keysOf l) → allNodesSortedN f st nd = true := by
  intro f
  induction f with
  | zero =>
    intro st nd l hwf _ _
    rw [wfN] at hwf
    exact absurd hwf (by simp)
  | succ f ih =>
    intro st nd l hwf hents hsp
    rw [allNodesSortedN, Bool.and_eq_true]
    by_cases hleaf : nd.btype = BN_LEAF
    · rw [entsN, if_pos hleaf] at hents
      cases hents
      constructor
      · rw [decide_eq_true_eq]
        apply List.chain'_iff_pairwise.mpr
        rwa [keysOf_map_kv] at hsp
      · rw [if_neg (by rw [hleaf]; decide)]
    · by_cases hnode : nd.btype = BN_NODE
      · constructor
        · rw [decide_eq_true_eq]
          exact List.chain'_iff_pairwise.mpr (seps_sorted hleaf hnode hwf hents hsp)
        · rw [if_pos hnode]
          rw [entsN, if_neg hleaf, if_pos hnode] at hents
          have hwf' := hwf
          rw [wfN, if_neg hleaf, if_pos hnode, Bool.and_eq_true] at hwf'
          exact allSorted_kids f st (fun {nd l} h1 h2 h3 => ih h1 h2 h3)
            nd.entries l hents hsp hwf'.2
      · rw [entsN, if_neg hleaf, if_neg hnode] at hents
        exact absurd hents (by simp)

theorem lookup_absIns_self (l : List (List Nat × List Nat)) (k v : List Nat)
    (hk : k ≠ []) : lookupKV (absIns l k v) k = (v, true) := by
  by_cases hl : l = []
  · subst hl
    rw [absIns, if_pos rfl]
    have h : ([([], []), (k, v)] : List (List Nat × List Nat)) = kvIns [([], [])] k v := by
      rw [kvIns, if_neg (not_bLt_nil k), if_neg (fun h => hk h.symm)]
      rfl
    rw [h]
    exact lookupKV_kvIns_self _ k v
  · rw [absIns, if_neg hl]
    exact lookupKV_kvIns_self l k v

/-- C2 counterexample to the unamended claim: on a fresh tree, insert the key
"a" (byte 97), then delete the zero-length key (allowed by the original
claim and distinct from "a"), then insert "A" (byte 65).  The delete removes
the internal zero-length sentinel, after which the insert of "A" lands after
"a", and the scan misses "a": `Get("a")` returns `(nil, false)` at every fuel,
although no operation touched "a". -/
theorem c2_cx :
    btInsert 4 ⟨[], 1, []⟩ 0 [97] [1] =
      some (⟨[(1, ⟨2, [⟨0, [], []⟩, ⟨0, [97], [1]⟩]⟩)], 2, []⟩, 1) ∧
    btDelete 4 ⟨[(1, ⟨2, [⟨0, [], []⟩, ⟨0, [97], [1]⟩]⟩)], 2, []⟩ 1 [] =
      some (⟨[(2, ⟨2, [⟨0, [97], [1]⟩]⟩)], 3, [1]⟩, 2, true) ∧
    btInsert 4 ⟨[(2, ⟨2, [⟨0, [97], [1]⟩]⟩)], 3, [1]⟩ 2 [65] [2] =
      some (⟨[(3, ⟨2, [⟨0, [97], [1]⟩, ⟨0, [65], [2]⟩]⟩)], 4, [1, 2]⟩, 3) ∧
    ∀ g, btGet g ⟨[(3, ⟨2, [⟨0, [97], [1]⟩, ⟨0, [65], [2]⟩]⟩)], 4, [1, 2]⟩ 3 [97] ≠
      some ([1], true) := by
  refine ⟨by decide, by decide, by decide, ?_⟩
  intro g h
  cases g with
  | zero => exact absurd h (by decide)
  | succ g =>
    have h' : btGet (g + 1) ⟨[(3, ⟨2, [⟨0, [97], [1]⟩, ⟨0, [65], [2]⟩]⟩)], 4, [1, 2]⟩
        3 [97] = some ([], false) := rfl
    rw [h'] at h
    have h2 := (Option.some.injEq _ _).mp h
    simp at h2

/-- C2 (amended): on a well-formed tree handle, after a successful `Insert`
of a nonzero-length key `k` with value `v`, followed by any successful
sequence of `Insert`/`Delete` operations whose keys are nonzero-length (and
within the size bounds) and none of which is an `Insert(k, _)` or
`Delete(k)`, `Get(k)` returns `(v, true)` at every sufficient fuel. -/
theorem c2_get_after_set {F F' f : Nat} {st : Store} {root : Nat}
    {l : List (List Nat × List Nat)} {k v : List Nat} {st1 : Store} {root1 : Nat}
    {ops : List DbOp} {st2 : Store} {root2 : Nat}
    (hwf : WFtreeL f st root l) (hk : k ≠ [])
    (hins : btInsert F st root k v = some (st1, root1))
    (hops : ∀ op ∈ ops, opOK op ∧ opKey op ≠ k)
    (hrun : runOps F' ops (st1, root1) = some (st2, root2)) :
    ∃ g, ∀ g', g ≤ g' → btGet g' st2 root2 k = some (v, true) := by
  obtain ⟨f1, hwf1⟩ := btInsert_step hwf hk hins
  obtain ⟨l2, f2, hwf2, htrans⟩ := runOps_wf ops F' hwf1
    (fun op ho => (hops op ho).1) hrun
  have hl2 : lookupKV l2 k = (v, true) := by
    rw [htrans k hk (fun op ho => (hops op ho).2)]
    exact lookup_absIns_self l k v hk
  refine ⟨f2, ?_⟩
  intro g' hg
  rw [btGet_ok hwf2 g' hg k, hl2]

theorem c2_w :
    WFtreeL 1 ⟨[], 1, []⟩ 0 [] ∧
    (∀ op ∈ [DbOp.ins [98] [2]], opOK op ∧ opKey op ≠ [97]) ∧
    ∃ g, ∀ g', g ≤ g' →
      btGet g' ⟨[(2, ⟨2, [⟨0, [], []⟩, ⟨0, [97], [1]⟩, ⟨0, [98], [2]⟩]⟩)], 3, [1]⟩ 2
        [97] = some ([1], true) := by
  have hwf0 : WFtreeL 1 ⟨[], 1, []⟩ 0 [] := ⟨by decide, Or.inl ⟨rfl, rfl⟩⟩
  have hins : btInsert 4 ⟨[], 1, []⟩ 0 [97] [1] =
      some (⟨[(1, ⟨2, [⟨0, [], []⟩, ⟨0, [97], [1]⟩]⟩)], 2, []⟩, 1) := by decide
  have hops : ∀ op ∈ [DbOp.ins [98] [2]], opOK op ∧ opKey op ≠ [97] := by decide
  have hrun : runOps 4 [DbOp.ins [98] [2]]
      (⟨[(1, ⟨2, [⟨0, [], []⟩, ⟨0, [97], [1]⟩]⟩)], 2, []⟩, 1) =
      some (⟨[(2, ⟨2, [⟨0, [], []⟩, ⟨0, [97], [1]⟩, ⟨0, [98], [2]⟩]⟩)], 3, [1]⟩, 2) := by
    decide
  exact ⟨hwf0, hops, c2_get_after_set hwf0 (by decide) hins hops hrun⟩

/-- C7: deleting a key that the tree does not hold (its `Get` misses) returns
`false` and changes nothing: the store — pages, allocation counter and freed
log — and the root page number are exactly unchanged, so no `tree.new` or
`tree.del` effect occurred. -/
theorem c7_delete_absent_no_change {F f : Nat} {st : Store} {root : Nat} {k : List Nat}
    (hwf : WFtree f st root)
    (hmiss : btGet f st root k = some ([], false))
    (hF : f ≤ F) :
    btDelete F st root k = some (st, root, false) := by
  obtain ⟨hpos, hcase⟩ := hwf
  unfold btDelete
  by_cases hr0 : root = 0
  · rw [if_pos hr0]
  · rw [if_neg hr0]
    rcases hcase with h0 | ⟨rn, l, ps, hget, hwfn, hents, hpages, hchain, hheadl, hndl, hblt⟩
    · exact absurd h0 hr0
    have hhead' : ∀ h0 ∈ (keysOf l).head?, bLe h0 k := by
      intro h0 hh0
      rw [hheadl] at hh0
      have h0e : ([] : List Nat) = h0 := by simpa using hh0
      rw [← h0e]
      exact bLe_nil k
    have hlook : lookupKV l k = ([], false) := by
      unfold btGet at hmiss
      rw [if_neg hr0] at hmiss
      simp only [bind] at hmiss
      rw [hget, Option.some_bind] at hmiss
      rw [treeGet_ok f hwfn hents hchain] at hmiss
      exact Option.some.inj hmiss
    have htd := treeDelete_miss f hwfn hents hchain hhead' (by rw [hlook]) hF
    simp only [bind]
    rw [hget, Option.some_bind, htd, Option.some_bind]
    rfl

theorem c7_w :
    WFtree 1 ⟨[(1, ⟨2, [⟨0, [], []⟩, ⟨0, [97], [1]⟩]⟩)], 2, []⟩ 1 ∧
    btGet 1 ⟨[(1, ⟨2, [⟨0, [], []⟩, ⟨0, [97], [1]⟩]⟩)], 2, []⟩ 1 [98] =
      some ([], false) ∧
    btDelete 1 ⟨[(1, ⟨2, [⟨0, [], []⟩, ⟨0, [97], [1]⟩]⟩)], 2, []⟩ 1 [98] =
      some (⟨[(1, ⟨2, [⟨0, [], []⟩, ⟨0, [97], [1]⟩]⟩)], 2, []⟩, 1, false) := by
  have hwf : WFtree 1 ⟨[(1, ⟨2, [⟨0, [], []⟩, ⟨0, [97], [1]⟩]⟩)], 2, []⟩ 1 := by
    refine ⟨by decide, Or.inr ⟨⟨2, [⟨0, [], []⟩, ⟨0, [97], [1]⟩]⟩,
      [([], []), ([97], [1])], [], rfl, by decide, rfl, rfl, ?_, rfl, by decide, by decide⟩⟩
    exact List.chain'_cons.mpr ⟨by decide, List.chain'_singleton _⟩
  exact ⟨hwf, by decide, c7_delete_absent_no_change hwf (by decide) (Nat.le_refl 1)⟩

/-- C8 counterexample to the unamended claim: inserting the zero-length key
into a fresh tree succeeds and produces a root leaf whose keys are the
zero-length sentinel twice — not strictly increasing. -/
theorem c8_cx :
    btInsert 2 ⟨[], 1, []⟩ 0 [] [] =
      some (⟨[(1, ⟨2, [⟨0, [], []⟩, ⟨0, [], []⟩]⟩)], 2, []⟩, 1) ∧
    stGet ⟨[(1, ⟨2, [⟨0, [], []⟩, ⟨0, [], []⟩]⟩)], 2, []⟩ 1 =
      some ⟨2, [⟨0, [], []⟩, ⟨0, [], []⟩]⟩ ∧
    allNodesSortedN 1 ⟨[(1, ⟨2, [⟨0, [], []⟩, ⟨0, [], []⟩]⟩)], 2, []⟩
      ⟨2, [⟨0, [], []⟩, ⟨0, [], []⟩]⟩ = false := by
  refine ⟨by decide, by decide, ?_⟩
  have hnot : ¬ List.Chain' bLt [[], ([] : List Nat)] := by
    intro h
    exact bLt_irrefl [] (List.chain'_cons.mp h).1
  show allNodesSortedN (0 + 1) _ _ = false
  rw [allNodesSortedN]
  simp only [List.map_cons, List.map_nil]
  rw [decide_eq_false hnot]
  rfl

/-- C8 (amended): every successful sequence of `Insert`/`Delete` operations
with nonzero-length keys (within the size bounds), run on a fresh tree,
leaves a tree in which every node's keys are strictly increasing by
lexicographic byte comparison. -/
theorem c8_all_nodes_sorted {F : Nat} {ops : List DbOp} {st2 : Store} {root2 : Nat}
    (hok : ∀ op ∈ ops, opOK op)
    (hrun : runOps F ops (⟨[], 1, []⟩, 0) = some (st2, root2)) :
    root2 = 0 ∨ ∃ rn f2, stGet st2 root2 = some rn ∧
      allNodesSortedN f2 st2 rn = true := by
  have hwf0 : WFtreeL 1 ⟨[], 1, []⟩ 0 [] := ⟨by decide, Or.inl ⟨rfl, rfl⟩⟩
  obtain ⟨l2, f2, hwf2, _⟩ := runOps_wf ops F hwf0 hok hrun
  rcases hwf2.2 with ⟨h0, _⟩ | ⟨_, rn, ps, hget, hwfn, hents, _, hchain, _, _, _⟩
  · exact Or.inl h0
  · exact Or.inr ⟨rn, f2, hget,
      allSorted_of_wf f2 hwfn hents (List.chain'_iff_pairwise.mp hchain)⟩

theorem c8_w :
    (∀ op ∈ [DbOp.ins [97] [1], DbOp.del [97]], opOK op) ∧
    (2 = 0 ∨ ∃ rn f2, stGet ⟨[(2, ⟨2, [⟨0, [], []⟩]⟩)], 3, [1]⟩ 2 = some rn ∧
      allNodesSortedN f2 ⟨[(2, ⟨2, [⟨0, [], []⟩]⟩)], 3, [1]⟩ rn = true) := by
  have hok0 : ∀ op ∈ [DbOp.ins [97] [1], DbOp.del [97]], opOK op := by decide
  have hrun0 : runOps 4 [DbOp.ins [97] [1], DbOp.del [97]] (⟨[], 1, []⟩, 0) =
      some (⟨[(2, ⟨2, [⟨0, [], []⟩]⟩)], 3, [1]⟩, 2) := by decide
  exact ⟨hok0, c8_all_nodes_sorted hok0 hrun0⟩
